import Mathlib

/-!
Verification of the ecmarkup compilation core (Spec.ts, Grammar.ts, H1.ts)
against its natural-language specification.

The TypeScript sources are shallowly embedded: the mutable DOM / Map state is
threaded as explicit record state, JavaScript Maps become insertion-ordered
association lists, and the recursive replacement-algorithm resolution is given
a fuel parameter consumed only at recursive reactivation calls (with a theorem
showing the fuel bound used by the driver is never exhausted).
-/

namespace Ecmarkup

/-! ## Association-list helpers mirroring the JavaScript Map operations -/

/-- Map.set: replace the value at an existing key in place, else append. -/
def alSet [DecidableEq α] (k : α) (v : β) : List (α × β) → List (α × β)
  | [] => [(k, v)]
  | (k', v') :: rest => if k' = k then (k, v) :: rest else (k', v') :: alSet k v rest

/-- Map.get / Biblio.byId: first value stored at the key, if any. -/
def alGet [DecidableEq α] (k : α) : List (α × β) → Option β
  | [] => none
  | (k', v') :: rest => if k' = k then some v' else alGet k rest

/-- Map.delete: remove the (unique) entry at the key. -/
def alErase [DecidableEq α] (k : α) : List (α × β) → List (α × β)
  | [] => []
  | (k', v') :: rest => if k' = k then rest else (k', v') :: alErase k rest

/-! ## Replacement-step resolver (Spec.ts, setReplacementAlgorithmOffsets)

Algorithm elements are identified by numbers.  A step biblio entry carries its
type tag and its (provisional or final) step-number path.  The resolver state
collects the fields of the Spec object that setReplacementAlgorithmOffsets
reads and mutates. -/

/-- A biblio entry as consulted by the resolver: its type and step path. -/
structure StepEntry where
  type : String
  stepNumbers : List Nat
deriving Repr, DecidableEq

/-- Diagnostics emitted through this.warn, split by their type tag. -/
inductive RWarning where
  | attr (node : Nat) (attrName ruleId message : String)
  | global (ruleId message : String)
deriving Repr, DecidableEq

def RWarning.isGlobal : RWarning → Bool
  | .global _ _ => true
  | _ => false

/-- The mutable state of setReplacementAlgorithmOffsets: the biblio (step
entries by id), labeledStepsToBeRectified, the local pending map, the
per-algorithm ol start attribute and class list, emitted warnings, and a flag
recording whether the fuel of the embedding was ever exhausted (the source has
no such flag; we prove it stays false). -/
structure RAState where
  biblio : List (String × StepEntry)
  toBeRectified : List String
  pending : List (String × List Nat)
  algStart : List (Nat × Option Nat)
  algClasses : List (Nat × List String)
  warnings : List RWarning
  exhausted : Bool
deriving Repr, DecidableEq

/-- classList.add: append the class unless already present. -/
def addClass (cs : List String) (c : String) : List String :=
  if c ∈ cs then cs else cs ++ [c]

/-- The nesting-depth classes added for a path of the given length
(the if/else chain guarded by stepNumbers.length > 1 in the source). -/
def nestClasses (n : Nat) : List String :=
  if n > 1 then
    if n = 2 then ["nested-once"]
    else if n = 3 then ["nested-twice"]
    else if n = 4 then ["nested-thrice"]
    else if n = 5 then ["nested-four-times"]
    else ["nested-lots"]
  else []

/-- Update the stepNumbers of the biblio entry stored at the given id. -/
def updateEntry (id : String) (p : List Nat) : List (String × StepEntry) → List (String × StepEntry)
  | [] => []
  | (k, e) :: rest =>
    if k = id then (k, { e with stepNumbers := p }) :: rest
    else (k, e) :: updateEntry id p rest

/-- Total number of algorithm elements stored in the pending map. -/
def pendingSize (p : List (String × List Nat)) : Nat :=
  (p.map (fun kv => kv.2.length)).sum

mutual

/-- setReplacementAlgorithmStart (Spec.ts): set the root list start to the
last element of the path, add the nesting-depth class, then rectify the
labeled step entries contained in the algorithm. -/
def setReplacementAlgorithmStart (contained : Nat → List String) (fuel : Nat)
    (st : RAState) (alg : Nat) (path : List Nat) : RAState :=
  let st1 : RAState := { st with
    algStart := alSet alg path.getLast? st.algStart,
    algClasses := alSet alg
      ((nestClasses path.length).foldl addClass ((alGet alg st.algClasses).getD []))
      st.algClasses }
  containedLoop contained fuel st1 (contained alg) path
termination_by (fuel, 2, 0)

/-- The for-loop over replacementAlgorithmToContainedLabeledStepEntries:
each contained entry gets path ++ (its old path minus its first element),
is removed from labeledStepsToBeRectified, and any algorithms pending on it
are resolved recursively with the new path. -/
def containedLoop (contained : Nat → List String) (fuel : Nat)
    (st : RAState) (ids : List String) (path : List Nat) : RAState :=
  match ids with
  | [] => st
  | id :: rest =>
    let oldPath := ((alGet id st.biblio).getD ⟨"step", []⟩).stepNumbers
    let newPath := path ++ oldPath.drop 1
    let st1 : RAState := { st with
      biblio := updateEntry id newPath st.biblio,
      toBeRectified := st.toBeRectified.erase id }
    let st2 : RAState :=
      match alGet id st1.pending with
      | none => st1
      | some todo => todoLoop contained fuel { st1 with pending := alErase id st1.pending } todo newPath
    containedLoop contained fuel st2 rest path
termination_by (fuel, 1, ids.length)

/-- The for-loop over the todo list extracted from pending: one unit of fuel
per reactivated algorithm (the source recursion; fuel exhaustion sets the
exhausted flag and stops, a branch proven unreachable below). -/
def todoLoop (contained : Nat → List String) (fuel : Nat)
    (st : RAState) (todo : List Nat) (path : List Nat) : RAState :=
  match todo with
  | [] => st
  | alg :: rest =>
    match fuel with
    | 0 => { st with exhausted := true }
    | f + 1 => todoLoop contained f (setReplacementAlgorithmStart contained f st alg path) rest path
termination_by (fuel, 0, todo.length)

end

/-- The body of the for-loop over this.replacementAlgorithms. -/
def processDecl (contained : Nat → List String) (fuel : Nat)
    (st : RAState) (d : Nat × String) : RAState :=
  if st.toBeRectified.contains d.2 then
    match alGet d.2 st.pending with
    | none => { st with pending := st.pending ++ [(d.2, [d.1])] }
    | some todo => { st with pending := alSet d.2 (todo ++ [d.1]) st.pending }
  else
    match alGet d.2 st.biblio with
    | none => { st with warnings := st.warnings ++
        [RWarning.attr d.1 "replaces-step" "invalid-replacement" "could not find step"] }
    | some e =>
      if e.type = "step" then
        setReplacementAlgorithmStart contained fuel st d.1 e.stepNumbers
      else
        { st with warnings := st.warnings ++
          [RWarning.attr d.1 "replaces-step" "invalid-replacement"
            "expected algorithm to replace a step"] }

/-- Input to the resolver: the declaration list (algorithm element, target id),
the biblio contents and the set of labeled steps still to be rectified. -/
structure RAInput where
  decls : List (Nat × String)
  biblio : List (String × StepEntry)
  toBeRectified : List String
deriving Repr

/-- setReplacementAlgorithmOffsets (Spec.ts): run every declaration once, then
report a single global diagnostic if anything is still pending. -/
def setReplacementAlgorithmOffsets (contained : Nat → List String) (inp : RAInput) : RAState :=
  let st0 : RAState := {
    biblio := inp.biblio, toBeRectified := inp.toBeRectified,
    pending := [], algStart := [], algClasses := [], warnings := [], exhausted := false }
  let st1 := inp.decls.foldl (processDecl contained inp.decls.length) st0
  if st1.pending.length > 0 then
    { st1 with warnings := st1.warnings ++ [RWarning.global "invalid-replacement"
        "could not unambiguously determine replacement algorithm offsets - do you have a cycle in your replacement algorithms?"] }
  else st1

/-! ## Association-list lemmas -/

theorem alGet_alSet_self [DecidableEq α] (k : α) (v : β) (l : List (α × β)) :
    alGet k (alSet k v l) = some v := by
  induction l with
  | nil => simp [alGet, alSet]
  | cons kv rest ih =>
    obtain ⟨k', v'⟩ := kv
    by_cases h : k' = k <;> simp [alGet, alSet, h, ih]

theorem alGet_alSet_ne [DecidableEq α] {x k : α} (h : x ≠ k) (v : β) (l : List (α × β)) :
    alGet x (alSet k v l) = alGet x l := by
  induction l with
  | nil => simp [alGet, alSet, Ne.symm h]
  | cons kv rest ih =>
    obtain ⟨k', v'⟩ := kv
    by_cases h1 : k' = k
    · have h2 : ¬ k' = x := by rw [h1]; exact Ne.symm h
      simp [alGet, alSet, h1, h2, Ne.symm h]
    · simp [alGet, alSet, h1, ih]

theorem alGet_updateEntry_self (id : String) (p : List Nat) (b : List (String × StepEntry)) :
    alGet id (updateEntry id p b) =
      (alGet id b).map (fun e => { e with stepNumbers := p }) := by
  induction b with
  | nil => simp [alGet, updateEntry]
  | cons kv rest ih =>
    obtain ⟨k, e⟩ := kv
    by_cases h : k = id <;> simp [alGet, updateEntry, h, ih]

theorem alGet_updateEntry_ne {j id : String} (h : j ≠ id) (p : List Nat)
    (b : List (String × StepEntry)) :
    alGet j (updateEntry id p b) = alGet j b := by
  induction b with
  | nil => simp [alGet, updateEntry]
  | cons kv rest ih =>
    obtain ⟨k, e⟩ := kv
    by_cases h1 : k = id
    · have h2 : ¬ k = j := by rw [h1]; exact Ne.symm h
      simp [alGet, updateEntry, h1, h2, Ne.symm h]
    · simp [alGet, updateEntry, h1, ih]

theorem alErase_sublist [DecidableEq α] (k : α) (l : List (α × β)) :
    (alErase k l).Sublist l := by
  induction l with
  | nil => simp [alErase]
  | cons kv rest ih =>
    obtain ⟨k', v'⟩ := kv
    simp only [alErase]
    by_cases h : k' = k
    · rw [if_pos h]
      exact List.sublist_cons_self _ _
    · rw [if_neg h]
      exact List.Sublist.cons₂ _ ih

/-! ## C1: effect of resolving a declaration whose target path is known -/

/-- When nothing is pending, the contained-entry loop touches only the biblio
(rewriting each contained entry's path) and labeledStepsToBeRectified. -/
theorem containedLoop_no_pending (contained : Nat → List String) (fuel : Nat) (path : List Nat) :
    ∀ (ids : List String) (st : RAState), st.pending = [] → ids.Nodup →
      (containedLoop contained fuel st ids path).pending = [] ∧
      (containedLoop contained fuel st ids path).algStart = st.algStart ∧
      (containedLoop contained fuel st ids path).algClasses = st.algClasses ∧
      (containedLoop contained fuel st ids path).warnings = st.warnings ∧
      (containedLoop contained fuel st ids path).exhausted = st.exhausted ∧
      (∀ id ∈ ids, alGet id (containedLoop contained fuel st ids path).biblio =
        (alGet id st.biblio).map (fun e => { e with stepNumbers := path ++ e.stepNumbers.drop 1 })) ∧
      (∀ j, j ∉ ids → alGet j (containedLoop contained fuel st ids path).biblio = alGet j st.biblio) := by
  intro ids
  induction ids with
  | nil => intro st hp _; simp [containedLoop, hp]
  | cons id rest ih =>
    intro st hp hnd
    have hndr : rest.Nodup := hnd.of_cons
    have hidr : id ∉ rest := (List.nodup_cons.mp hnd).1
    have hstep : containedLoop contained fuel st (id :: rest) path =
        containedLoop contained fuel
          { st with
            biblio := updateEntry id
              (path ++ (((alGet id st.biblio).getD ⟨"step", []⟩).stepNumbers).drop 1) st.biblio,
            toBeRectified := st.toBeRectified.erase id } rest path := by
      simp only [containedLoop, hp, alGet]
    rw [hstep]
    obtain ⟨h1, h2, h3, h4, h5, h6, h7⟩ := ih
      { st with
        biblio := updateEntry id
          (path ++ (((alGet id st.biblio).getD ⟨"step", []⟩).stepNumbers).drop 1) st.biblio,
        toBeRectified := st.toBeRectified.erase id } hp hndr
    refine ⟨h1, h2, h3, h4, h5, ?_, ?_⟩
    · intro j hj
      rcases List.mem_cons.mp hj with hj | hj
      · subst hj
        rw [h7 j hidr]
        show alGet j (updateEntry j _ st.biblio) = _
        cases hb : alGet j st.biblio with
        | none => simp [alGet_updateEntry_self, hb]
        | some e => simp [alGet_updateEntry_self, hb]
      · rw [h6 j hj]
        have hjne : j ≠ id := fun hh => hidr (hh ▸ hj)
        show (alGet j (updateEntry id _ st.biblio)).map _ = _
        rw [alGet_updateEntry_ne hjne]
    · intro j hj
      have hj1 : j ∉ rest := fun hh => hj (List.mem_cons_of_mem _ hh)
      have hj2 : j ≠ id := fun hh => hj (hh ▸ List.mem_cons_self _ _)
      rw [h7 j hj1]
      show alGet j (updateEntry id _ st.biblio) = _
      rw [alGet_updateEntry_ne hj2]

theorem foldl_addClass_nil (n : Nat) :
    (nestClasses n).foldl addClass [] = nestClasses n := by
  unfold nestClasses
  split_ifs <;> simp [addClass]

/-- C1 counterexample data: target step s1 at path [2,1]; the declaring
algorithm (element 0) contains labeled steps e1, e2 whose recorded local paths
are [1] and [2], exactly as in the claim's example. -/
def c1ExContained : Nat → List String := fun n => if n = 0 then ["e1", "e2"] else []

def c1ExInput : RAInput := {
  decls := [(0, "s1")],
  biblio := [("s1", ⟨"step", [2, 1]⟩), ("e1", ⟨"step", [1]⟩), ("e2", ⟨"step", [2]⟩)],
  toBeRectified := ["e1", "e2"] }

/-- C1 is falsified on its own example: with target path [2,1] and local step
paths [1] and [2], the resolver computes target ++ drop 1 local, which is
[2,1] for both entries, not [2,1,1] and [2,1,2] as the claim asserts. -/
theorem replacement_example_counterexample :
    alGet "e1" (setReplacementAlgorithmOffsets c1ExContained c1ExInput).biblio
      = some ⟨"step", [2, 1]⟩ ∧
    alGet "e2" (setReplacementAlgorithmOffsets c1ExContained c1ExInput).biblio
      = some ⟨"step", [2, 1]⟩ ∧
    alGet 0 (setReplacementAlgorithmOffsets c1ExContained c1ExInput).algStart
      = some (some 1) ∧
    alGet 0 (setReplacementAlgorithmOffsets c1ExContained c1ExInput).algClasses
      = some ["nested-once"] ∧
    some (⟨"step", [2, 1]⟩ : StepEntry) ≠ some (⟨"step", [2, 1, 1]⟩ : StepEntry) ∧
    some (⟨"step", [2, 1]⟩ : StepEntry) ≠ some (⟨"step", [2, 1, 2]⟩ : StepEntry) := by
  refine ⟨?_, ?_, ?_, ?_, by decide, by decide⟩ <;>
    simp [setReplacementAlgorithmOffsets, c1ExInput, c1ExContained, processDecl,
      setReplacementAlgorithmStart, containedLoop, todoLoop, alGet, alSet, alErase,
      updateEntry, nestClasses, addClass]

/-- C1 (amended): processing a declaration whose target step's final path is
already known (its id is not in labeledStepsToBeRectified and it resolves to a
step entry) sets the algorithm's list start to the last element of the target
path, gives it the nesting class determined solely by the path length (the
nestClasses table: length 1 no class, 2 nested-once, 3 nested-twice,
4 nested-thrice, 5 nested-four-times, 6 or more nested-lots), and rewrites
every contained step entry's path to target path ++ (its local path with the
first element dropped).  The claim's example values are wrong: local paths
[1],[2] both yield [2,1]; locals [1,1],[1,2] yield [2,1,1],[2,1,2]. -/
theorem processDecl_known_target (contained : Nat → List String) (fuel : Nat)
    (st : RAState) (e : Nat) (tgt : String) (entry : StepEntry)
    (hp : st.pending = [])
    (hn : st.toBeRectified.contains tgt = false)
    (hb : alGet tgt st.biblio = some entry)
    (ht : entry.type = "step")
    (hc : alGet e st.algClasses = none)
    (hnd : (contained e).Nodup) :
    alGet e (processDecl contained fuel st (e, tgt)).algStart
      = some entry.stepNumbers.getLast? ∧
    alGet e (processDecl contained fuel st (e, tgt)).algClasses
      = some (nestClasses entry.stepNumbers.length) ∧
    (∀ id ∈ contained e, alGet id (processDecl contained fuel st (e, tgt)).biblio =
      (alGet id st.biblio).map
        (fun en => { en with stepNumbers := entry.stepNumbers ++ en.stepNumbers.drop 1 })) := by
  have hmem : tgt ∉ st.toBeRectified := by simpa using hn
  have hps : processDecl contained fuel st (e, tgt)
      = setReplacementAlgorithmStart contained fuel st e entry.stepNumbers := by
    simp [processDecl, hmem, hb, ht]
  have hunf : setReplacementAlgorithmStart contained fuel st e entry.stepNumbers
      = containedLoop contained fuel
          { st with
            algStart := alSet e entry.stepNumbers.getLast? st.algStart,
            algClasses := alSet e
              ((nestClasses entry.stepNumbers.length).foldl addClass
                ((alGet e st.algClasses).getD []))
              st.algClasses }
          (contained e) entry.stepNumbers := by
    simp only [setReplacementAlgorithmStart]
  obtain ⟨h1, h2, h3, h4, h5, h6, h7⟩ := containedLoop_no_pending contained fuel
    entry.stepNumbers (contained e)
    { st with
      algStart := alSet e entry.stepNumbers.getLast? st.algStart,
      algClasses := alSet e
        ((nestClasses entry.stepNumbers.length).foldl addClass
          ((alGet e st.algClasses).getD []))
        st.algClasses }
    hp hnd
  rw [hps, hunf]
  refine ⟨?_, ?_, ?_⟩
  · rw [h2]
    exact alGet_alSet_self e _ st.algStart
  · rw [h3]
    show alGet e (alSet e _ st.algClasses) = _
    rw [alGet_alSet_self]
    rw [hc]
    simp [foldl_addClass_nil]
  · intro id hid
    exact h6 id hid

/-- C1 witness data: the amended example, with local paths [1,1] and [1,2]. -/
def c1WContained : Nat → List String := fun n => if n = 0 then ["e1", "e2"] else []

def c1WState : RAState := {
  biblio := [("s1", ⟨"step", [2, 1]⟩), ("e1", ⟨"step", [1, 1]⟩), ("e2", ⟨"step", [1, 2]⟩)],
  toBeRectified := ["e1", "e2"], pending := [], algStart := [], algClasses := [],
  warnings := [], exhausted := false }

/-- Witness for the amended C1 theorem at the corrected concrete example. -/
theorem processDecl_known_target_witness :
    c1WState.pending = [] ∧
    alGet "e1" (processDecl c1WContained 1 c1WState (0, "s1")).biblio
      = some ⟨"step", [2, 1, 1]⟩ ∧
    alGet "e2" (processDecl c1WContained 1 c1WState (0, "s1")).biblio
      = some ⟨"step", [2, 1, 2]⟩ ∧
    alGet 0 (processDecl c1WContained 1 c1WState (0, "s1")).algStart = some (some 1) ∧
    alGet 0 (processDecl c1WContained 1 c1WState (0, "s1")).algClasses
      = some ["nested-once"] := by
  have h := processDecl_known_target c1WContained 1 c1WState 0 "s1" ⟨"step", [2, 1]⟩
    rfl rfl rfl rfl rfl (by decide)
  refine ⟨rfl, ?_, ?_, ?_, ?_⟩
  · rw [h.2.2 "e1" (by decide)]; decide
  · rw [h.2.2 "e2" (by decide)]; decide
  · rw [h.1]; decide
  · rw [h.2.1]; decide

/-- C3: a declaration whose target id is not awaiting rectification, and whose
biblio lookup is missing or resolves to a non-step entry, gets exactly one
attr diagnostic attached to the declaring element, leaves every algorithm's
numbering state (start, classes), the biblio, the pending map and the
rectification set untouched, and the declaration fold continues with the
remaining declarations. -/
theorem processDecl_bad_target (contained : Nat → List String) (fuel : Nat)
    (st : RAState) (e : Nat) (tgt : String)
    (hn : st.toBeRectified.contains tgt = false)
    (hb : alGet tgt st.biblio = none ∨
      ∃ en, alGet tgt st.biblio = some en ∧ en.type ≠ "step") :
    (∃ m, (processDecl contained fuel st (e, tgt)).warnings
        = st.warnings ++ [RWarning.attr e "replaces-step" "invalid-replacement" m]) ∧
    (processDecl contained fuel st (e, tgt)).algStart = st.algStart ∧
    (processDecl contained fuel st (e, tgt)).algClasses = st.algClasses ∧
    (processDecl contained fuel st (e, tgt)).biblio = st.biblio ∧
    (processDecl contained fuel st (e, tgt)).pending = st.pending ∧
    (processDecl contained fuel st (e, tgt)).toBeRectified = st.toBeRectified ∧
    (processDecl contained fuel st (e, tgt)).exhausted = st.exhausted ∧
    ∀ rest, List.foldl (processDecl contained fuel) st ((e, tgt) :: rest)
        = List.foldl (processDecl contained fuel) (processDecl contained fuel st (e, tgt)) rest := by
  have hmem : tgt ∉ st.toBeRectified := by simpa using hn
  rcases hb with hb | ⟨en, hb, ht⟩
  · refine ⟨⟨"could not find step", ?_⟩, ?_, ?_, ?_, ?_, ?_, ?_, ?_⟩ <;>
      simp [processDecl, hmem, hb]
  · refine ⟨⟨"expected algorithm to replace a step", ?_⟩, ?_, ?_, ?_, ?_, ?_, ?_, ?_⟩ <;>
      simp [processDecl, hmem, hb, ht]

/-! ## C2: termination and cycle reporting of the resolver -/

/-- All algorithm elements stored in the pending map, in order. -/
def pendElems (p : List (String × List Nat)) : List Nat :=
  (p.map (fun kv => kv.2)).flatten

theorem pendingSize_eq (p : List (String × List Nat)) :
    pendingSize p = (pendElems p).length := by
  simp [pendingSize, pendElems, List.length_flatten, List.map_map]
  rfl

theorem flatten_sublist {l₁ l₂ : List (List Nat)} (h : l₁.Sublist l₂) :
    l₁.flatten.Sublist l₂.flatten := by
  induction h with
  | slnil => simp
  | cons a h ih => exact ih.trans (List.sublist_append_right a _)
  | cons₂ a h ih => simpa using ih.append_left a

theorem pendElems_sublist {p₁ p₂ : List (String × List Nat)} (h : p₁.Sublist p₂) :
    (pendElems p₁).Sublist (pendElems p₂) :=
  flatten_sublist (h.map _)

theorem pendingSize_mono {p₁ p₂ : List (String × List Nat)} (h : p₁.Sublist p₂) :
    pendingSize p₁ ≤ pendingSize p₂ := by
  rw [pendingSize_eq, pendingSize_eq]
  exact (pendElems_sublist h).length_le

theorem mem_pendElems_of_alGet {k : String} {v : List Nat} {p : List (String × List Nat)}
    (h : alGet k p = some v) : ∀ y ∈ v, y ∈ pendElems p := by
  induction p with
  | nil => simp [alGet] at h
  | cons kv rest ih =>
    obtain ⟨k', v'⟩ := kv
    by_cases hk : k' = k
    · simp only [alGet, if_pos hk] at h
      cases h
      intro y hy
      simp [pendElems]
      exact Or.inl hy
    · simp only [alGet, if_neg hk] at h
      intro y hy
      have := ih h y hy
      simp [pendElems] at this ⊢
      exact Or.inr this

theorem pendingSize_alErase {k : String} {v : List Nat} {p : List (String × List Nat)}
    (h : alGet k p = some v) :
    pendingSize (alErase k p) + v.length = pendingSize p := by
  induction p with
  | nil => simp [alGet] at h
  | cons kv rest ih =>
    obtain ⟨k', v'⟩ := kv
    by_cases hk : k' = k
    · simp only [alGet, if_pos hk] at h
      cases h
      simp [alErase, hk, pendingSize]
      omega
    · simp only [alGet, if_neg hk] at h
      simp only [alErase, if_neg hk]
      have := ih h
      simp [pendingSize] at this ⊢
      omega

theorem not_mem_pendElems_alErase {k : String} {v : List Nat} {p : List (String × List Nat)}
    (hn : (pendElems p).Nodup) (h : alGet k p = some v) :
    ∀ y ∈ v, y ∉ pendElems (alErase k p) := by
  induction p with
  | nil => simp [alGet] at h
  | cons kv rest ih =>
    obtain ⟨k', v'⟩ := kv
    have hjoin : pendElems ((k', v') :: rest) = v' ++ pendElems rest := by
      simp [pendElems]
    rw [hjoin] at hn
    by_cases hk : k' = k
    · simp only [alGet, if_pos hk] at h
      cases h
      simp only [alErase, if_pos hk]
      intro y hy hmem
      exact (List.disjoint_of_nodup_append hn) hy hmem
    · simp only [alGet, if_neg hk] at h
      simp only [alErase, if_neg hk]
      intro y hy
      have hyrest : y ∈ pendElems rest := mem_pendElems_of_alGet h y hy
      have hrec := ih ((List.nodup_append.mp hn).2.1) h y hy
      intro hmem
      have : pendElems ((k', v') :: alErase k rest) = v' ++ pendElems (alErase k rest) := by
        simp [pendElems]
      rw [this] at hmem
      rcases List.mem_append.mp hmem with hmem | hmem
      · exact (List.disjoint_of_nodup_append hn) hmem hyrest
      · exact hrec hmem

/-- Record that a state transition leaves the numbering output for element x
untouched. -/
def startsUntouched (st st' : RAState) (x : Nat) : Prop :=
  alGet x st'.algStart = alGet x st.algStart ∧ alGet x st'.algClasses = alGet x st.algClasses

theorem startsUntouched_refl (st : RAState) (x : Nat) : startsUntouched st st x :=
  ⟨rfl, rfl⟩

theorem startsUntouched_trans {s1 s2 s3 : RAState} {x : Nat}
    (h1 : startsUntouched s1 s2 x) (h2 : startsUntouched s2 s3 x) :
    startsUntouched s1 s3 x :=
  ⟨h2.1.trans h1.1, h2.2.trans h1.2⟩

/-- Structural facts about the three resolver loops: the pending map only
loses whole keys (it is a sublist of the input pending map), and no warnings
are emitted inside setReplacementAlgorithmStart. -/
theorem raStruct (contained : Nat → List String) :
    ∀ fuel : Nat,
      (∀ st todo p, ((todoLoop contained fuel st todo p).pending.Sublist st.pending) ∧
        (todoLoop contained fuel st todo p).warnings = st.warnings) ∧
      (∀ st ids p, ((containedLoop contained fuel st ids p).pending.Sublist st.pending) ∧
        (containedLoop contained fuel st ids p).warnings = st.warnings) ∧
      (∀ st a p, ((setReplacementAlgorithmStart contained fuel st a p).pending.Sublist st.pending) ∧
        (setReplacementAlgorithmStart contained fuel st a p).warnings = st.warnings) := by
  intro fuel
  induction fuel using Nat.strong_induction_on with
  | _ fuel IH =>
    have hT : ∀ st todo p, ((todoLoop contained fuel st todo p).pending.Sublist st.pending) ∧
        (todoLoop contained fuel st todo p).warnings = st.warnings := by
      intro st todo p
      match todo with
      | [] => simp [todoLoop]
      | a :: rest =>
        match fuel with
        | 0 => simp [todoLoop]
        | g + 1 =>
          have hS := (IH g (by omega)).2.2 st a p
          have hTg := (IH g (by omega)).1 (setReplacementAlgorithmStart contained g st a p) rest p
          have hstep : todoLoop contained (g + 1) st (a :: rest) p
              = todoLoop contained g (setReplacementAlgorithmStart contained g st a p) rest p := by
            simp [todoLoop]
          rw [hstep]
          exact ⟨hTg.1.trans hS.1, hTg.2.trans hS.2⟩
    have hC : ∀ ids st p, ((containedLoop contained fuel st ids p).pending.Sublist st.pending) ∧
        (containedLoop contained fuel st ids p).warnings = st.warnings := by
      intro ids
      induction ids with
      | nil => intro st p; simp [containedLoop]
      | cons id rest ihC =>
        intro st p
        cases hpd : alGet id st.pending with
        | none =>
          have hstep : containedLoop contained fuel st (id :: rest) p
              = containedLoop contained fuel
                { st with
                  biblio := updateEntry id
                    (p ++ (((alGet id st.biblio).getD ⟨"step", []⟩).stepNumbers).drop 1) st.biblio,
                  toBeRectified := st.toBeRectified.erase id } rest p := by
            simp [containedLoop, hpd]
          rw [hstep]
          exact ihC _ p
        | some todo =>
          have hstep : containedLoop contained fuel st (id :: rest) p
              = containedLoop contained fuel
                (todoLoop contained fuel
                  { st with
                    biblio := updateEntry id
                      (p ++ (((alGet id st.biblio).getD ⟨"step", []⟩).stepNumbers).drop 1) st.biblio,
                    toBeRectified := st.toBeRectified.erase id,
                    pending := alErase id st.pending }
                  todo
                  (p ++ (((alGet id st.biblio).getD ⟨"step", []⟩).stepNumbers).drop 1))
                rest p := by
            simp [containedLoop, hpd]
          rw [hstep]
          have h1 := ihC (todoLoop contained fuel
            { st with
              biblio := updateEntry id
                (p ++ (((alGet id st.biblio).getD ⟨"step", []⟩).stepNumbers).drop 1) st.biblio,
              toBeRectified := st.toBeRectified.erase id,
              pending := alErase id st.pending }
            todo
            (p ++ (((alGet id st.biblio).getD ⟨"step", []⟩).stepNumbers).drop 1)) p
          have h2 := hT
            { st with
              biblio := updateEntry id
                (p ++ (((alGet id st.biblio).getD ⟨"step", []⟩).stepNumbers).drop 1) st.biblio,
              toBeRectified := st.toBeRectified.erase id,
              pending := alErase id st.pending }
            todo
            (p ++ (((alGet id st.biblio).getD ⟨"step", []⟩).stepNumbers).drop 1)
          refine ⟨h1.1.trans (h2.1.trans ?_), h1.2.trans h2.2⟩
          exact alErase_sublist id st.pending
    have hS : ∀ st a p, ((setReplacementAlgorithmStart contained fuel st a p).pending.Sublist st.pending) ∧
        (setReplacementAlgorithmStart contained fuel st a p).warnings = st.warnings := by
      intro st a p
      have hstep : setReplacementAlgorithmStart contained fuel st a p
          = containedLoop contained fuel
            { st with
              algStart := alSet a p.getLast? st.algStart,
              algClasses := alSet a
                ((nestClasses p.length).foldl addClass ((alGet a st.algClasses).getD []))
                st.algClasses }
            (contained a) p := by
        simp only [setReplacementAlgorithmStart]
      rw [hstep]
      exact hC (contained a) _ p
    exact ⟨hT, fun st ids p => hC ids st p, hS⟩

/-! Unfolding helpers for the three loops. -/

/-- The rectified path assigned to a contained entry. -/
def cNewPath (st : RAState) (id : String) (p : List Nat) : List Nat :=
  p ++ (((alGet id st.biblio).getD ⟨"step", []⟩).stepNumbers).drop 1

/-- The biblio/toBeRectified update performed for one contained entry. -/
def cStep1 (st : RAState) (id : String) (p : List Nat) : RAState :=
  { st with biblio := updateEntry id (cNewPath st id p) st.biblio,
            toBeRectified := st.toBeRectified.erase id }

/-- The start/class assignment performed on entry to setReplacementAlgorithmStart. -/
def sStep1 (st : RAState) (a : Nat) (p : List Nat) : RAState :=
  { st with
    algStart := alSet a p.getLast? st.algStart,
    algClasses := alSet a
      ((nestClasses p.length).foldl addClass ((alGet a st.algClasses).getD []))
      st.algClasses }

theorem setStart_eq (contained : Nat → List String) (fuel : Nat) (st : RAState)
    (a : Nat) (p : List Nat) :
    setReplacementAlgorithmStart contained fuel st a p
      = containedLoop contained fuel (sStep1 st a p) (contained a) p := by
  simp only [setReplacementAlgorithmStart, sStep1]

theorem containedLoop_nil (contained : Nat → List String) (fuel : Nat) (st : RAState)
    (p : List Nat) : containedLoop contained fuel st [] p = st := by
  simp [containedLoop]

theorem containedLoop_cons_none (contained : Nat → List String) (fuel : Nat) {st : RAState}
    {id : String} (rest : List String) (p : List Nat)
    (hpd : alGet id st.pending = none) :
    containedLoop contained fuel st (id :: rest) p
      = containedLoop contained fuel (cStep1 st id p) rest p := by
  simp only [containedLoop, cStep1, cNewPath, hpd]

theorem containedLoop_cons_some (contained : Nat → List String) (fuel : Nat) {st : RAState}
    {id : String} (rest : List String) (p : List Nat) {todo : List Nat}
    (hpd : alGet id st.pending = some todo) :
    containedLoop contained fuel st (id :: rest) p
      = containedLoop contained fuel
          (todoLoop contained fuel { cStep1 st id p with pending := alErase id st.pending }
            todo (cNewPath st id p)) rest p := by
  simp only [containedLoop, cStep1, cNewPath, hpd]

theorem todoLoop_nil (contained : Nat → List String) (fuel : Nat) (st : RAState)
    (p : List Nat) : todoLoop contained fuel st [] p = st := by
  simp [todoLoop]

theorem todoLoop_zero (contained : Nat → List String) (st : RAState) (a : Nat)
    (rest : List Nat) (p : List Nat) :
    todoLoop contained 0 st (a :: rest) p = { st with exhausted := true } := by
  simp [todoLoop]

theorem todoLoop_succ (contained : Nat → List String) (g : Nat) (st : RAState) (a : Nat)
    (rest : List Nat) (p : List Nat) :
    todoLoop contained (g + 1) st (a :: rest) p
      = todoLoop contained g (setReplacementAlgorithmStart contained g st a p) rest p := by
  simp [todoLoop]

/-- Exhaustion never occurs if the fuel bounds the pending population: each
reactivated algorithm consumes one pending slot and one unit of fuel. -/
theorem raExh (contained : Nat → List String) :
    ∀ fuel : Nat,
      (∀ st todo p, pendingSize st.pending + todo.length ≤ fuel →
        (todoLoop contained fuel st todo p).exhausted = st.exhausted) ∧
      (∀ st ids p, pendingSize st.pending ≤ fuel →
        (containedLoop contained fuel st ids p).exhausted = st.exhausted) ∧
      (∀ st a p, pendingSize st.pending ≤ fuel →
        (setReplacementAlgorithmStart contained fuel st a p).exhausted = st.exhausted) := by
  intro fuel
  induction fuel using Nat.strong_induction_on with
  | _ fuel IH =>
    have hT : ∀ st todo p, pendingSize st.pending + todo.length ≤ fuel →
        (todoLoop contained fuel st todo p).exhausted = st.exhausted := by
      intro st todo p hle
      match todo, hle with
      | [], hle => simp [todoLoop]
      | a :: rest, hle =>
        match fuel, IH, hle with
        | 0, IH, hle => simp at hle
        | g + 1, IH, hle =>
          rw [todoLoop_succ]
          simp only [List.length_cons] at hle
          have hS := (IH g (by omega)).2.2 st a p (by omega)
          have hsub := ((raStruct contained g).2.2 st a p).1
          have hTg := (IH g (by omega)).1 (setReplacementAlgorithmStart contained g st a p) rest p
            (by have := pendingSize_mono hsub; omega)
          rw [hTg, hS]
    have hC : ∀ ids st p, pendingSize st.pending ≤ fuel →
        (containedLoop contained fuel st ids p).exhausted = st.exhausted := by
      intro ids
      induction ids with
      | nil => intro st p _; simp [containedLoop]
      | cons id rest ihC =>
        intro st p hle
        cases hpd : alGet id st.pending with
        | none =>
          rw [containedLoop_cons_none contained fuel rest p hpd]
          exact ihC _ p hle
        | some todo =>
          rw [containedLoop_cons_some contained fuel rest p hpd]
          have herase := pendingSize_alErase hpd
          have hT1 := hT { cStep1 st id p with pending := alErase id st.pending }
            todo (cNewPath st id p)
            (by show pendingSize (alErase id st.pending) + todo.length ≤ fuel; omega)
          have hsub := ((raStruct contained fuel).1
            { cStep1 st id p with pending := alErase id st.pending } todo (cNewPath st id p)).1
          have hsz : pendingSize (todoLoop contained fuel
              { cStep1 st id p with pending := alErase id st.pending }
              todo (cNewPath st id p)).pending ≤ fuel := by
            have h1 := pendingSize_mono hsub
            have h2 : pendingSize ({ cStep1 st id p with
                pending := alErase id st.pending } : RAState).pending
                = pendingSize (alErase id st.pending) := rfl
            omega
          exact (ihC _ p hsz).trans hT1
    have hS : ∀ st a p, pendingSize st.pending ≤ fuel →
        (setReplacementAlgorithmStart contained fuel st a p).exhausted = st.exhausted := by
      intro st a p hle
      rw [setStart_eq]
      exact hC (contained a) _ p hle
    exact ⟨hT, fun st ids p => hC ids st p, hS⟩

/-- Elements that are neither the resolved algorithm nor stored in the pending
map never have their start or class outputs modified by the resolver loops. -/
theorem raLocalNe (contained : Nat → List String) :
    ∀ fuel : Nat,
      (∀ st todo p x, x ∉ todo → x ∉ pendElems st.pending →
        startsUntouched st (todoLoop contained fuel st todo p) x) ∧
      (∀ st ids p x, x ∉ pendElems st.pending →
        startsUntouched st (containedLoop contained fuel st ids p) x) ∧
      (∀ st a p x, x ≠ a → x ∉ pendElems st.pending →
        startsUntouched st (setReplacementAlgorithmStart contained fuel st a p) x) := by
  intro fuel
  induction fuel using Nat.strong_induction_on with
  | _ fuel IH =>
    have hT : ∀ st todo p x, x ∉ todo → x ∉ pendElems st.pending →
        startsUntouched st (todoLoop contained fuel st todo p) x := by
      intro st todo p x hxt hxp
      match todo with
      | [] => rw [todoLoop_nil]; exact startsUntouched_refl st x
      | a :: rest =>
        match fuel, IH with
        | 0, IH => rw [todoLoop_zero]; exact ⟨rfl, rfl⟩
        | g + 1, IH =>
          rw [todoLoop_succ]
          have hxa : x ≠ a := fun hh => hxt (hh ▸ List.mem_cons_self _ _)
          have hxr : x ∉ rest := fun hh => hxt (List.mem_cons_of_mem _ hh)
          have u1 := (IH g (by omega)).2.2 st a p x hxa hxp
          have hsub := ((raStruct contained g).2.2 st a p).1
          have hxp2 : x ∉ pendElems (setReplacementAlgorithmStart contained g st a p).pending :=
            fun hh => hxp ((pendElems_sublist hsub).subset hh)
          have u2 := (IH g (by omega)).1 (setReplacementAlgorithmStart contained g st a p)
            rest p x hxr hxp2
          exact startsUntouched_trans u1 u2
    have hC : ∀ ids st p x, x ∉ pendElems st.pending →
        startsUntouched st (containedLoop contained fuel st ids p) x := by
      intro ids
      induction ids with
      | nil => intro st p x _; rw [containedLoop_nil]; exact startsUntouched_refl st x
      | cons id rest ihC =>
        intro st p x hxp
        cases hpd : alGet id st.pending with
        | none =>
          rw [containedLoop_cons_none contained fuel rest p hpd]
          exact ihC _ p x hxp
        | some todo =>
          rw [containedLoop_cons_some contained fuel rest p hpd]
          have hxt : x ∉ todo := fun hh => hxp (mem_pendElems_of_alGet hpd x hh)
          have hxpe : x ∉ pendElems (alErase id st.pending) :=
            fun hh => hxp ((pendElems_sublist (alErase_sublist id st.pending)).subset hh)
          have u2 : startsUntouched st
              (todoLoop contained fuel { cStep1 st id p with pending := alErase id st.pending }
                todo (cNewPath st id p)) x :=
            hT { cStep1 st id p with pending := alErase id st.pending } todo (cNewPath st id p)
              x hxt hxpe
          have hsub := ((raStruct contained fuel).1
            { cStep1 st id p with pending := alErase id st.pending } todo (cNewPath st id p)).1
          have hxp3 : x ∉ pendElems (todoLoop contained fuel
              { cStep1 st id p with pending := alErase id st.pending }
              todo (cNewPath st id p)).pending :=
            fun hh => hxpe ((pendElems_sublist hsub).subset hh)
          have u3 := ihC _ p x hxp3
          exact startsUntouched_trans u2 u3
    have hS : ∀ st a p x, x ≠ a → x ∉ pendElems st.pending →
        startsUntouched st (setReplacementAlgorithmStart contained fuel st a p) x := by
      intro st a p x hxa hxp
      rw [setStart_eq]
      have u1 : startsUntouched st (sStep1 st a p) x := by
        constructor
        · show alGet x (alSet a _ st.algStart) = _
          exact alGet_alSet_ne hxa _ _
        · show alGet x (alSet a _ st.algClasses) = _
          exact alGet_alSet_ne hxa _ _
      exact startsUntouched_trans u1 (hC (contained a) (sStep1 st a p) p x hxp)
    exact ⟨hT, fun st ids p => hC ids st p, hS⟩

/-- Elements still stored in the pending map after a resolver loop have their
start and class outputs unchanged by that loop (assuming no duplicates in the
pending population and a resolved algorithm not itself pending). -/
theorem raLocalPend (contained : Nat → List String) :
    ∀ fuel : Nat,
      (∀ st todo p x, (pendElems st.pending).Nodup → (∀ t ∈ todo, t ∉ pendElems st.pending) →
        x ∈ pendElems (todoLoop contained fuel st todo p).pending →
        startsUntouched st (todoLoop contained fuel st todo p) x) ∧
      (∀ st ids p x, (pendElems st.pending).Nodup →
        x ∈ pendElems (containedLoop contained fuel st ids p).pending →
        startsUntouched st (containedLoop contained fuel st ids p) x) ∧
      (∀ st a p x, (pendElems st.pending).Nodup → a ∉ pendElems st.pending →
        x ∈ pendElems (setReplacementAlgorithmStart contained fuel st a p).pending →
        startsUntouched st (setReplacementAlgorithmStart contained fuel st a p) x) := by
  intro fuel
  induction fuel using Nat.strong_induction_on with
  | _ fuel IH =>
    have hT : ∀ st todo p x, (pendElems st.pending).Nodup →
        (∀ t ∈ todo, t ∉ pendElems st.pending) →
        x ∈ pendElems (todoLoop contained fuel st todo p).pending →
        startsUntouched st (todoLoop contained fuel st todo p) x := by
      intro st todo p x hnd htodo hx
      match todo with
      | [] => rw [todoLoop_nil]; exact startsUntouched_refl st x
      | a :: rest =>
        match fuel, IH, hx with
        | 0, IH, hx => rw [todoLoop_zero]; exact ⟨rfl, rfl⟩
        | g + 1, IH, hx =>
          rw [todoLoop_succ]
          rw [todoLoop_succ] at hx
          have ha : a ∉ pendElems st.pending := htodo a (List.mem_cons_self _ _)
          have hsub := ((raStruct contained g).2.2 st a p).1
          have hndS : (pendElems (setReplacementAlgorithmStart contained g st a p).pending).Nodup :=
            hnd.sublist (pendElems_sublist hsub)
          have hrest : ∀ t ∈ rest, t ∉ pendElems
              (setReplacementAlgorithmStart contained g st a p).pending := by
            intro t ht hmem
            exact htodo t (List.mem_cons_of_mem _ ht) ((pendElems_sublist hsub).subset hmem)
          have u2 := (IH g (by omega)).1 (setReplacementAlgorithmStart contained g st a p)
            rest p x hndS hrest hx
          have hsubT := ((raStruct contained g).1
            (setReplacementAlgorithmStart contained g st a p) rest p).1
          have hxS : x ∈ pendElems (setReplacementAlgorithmStart contained g st a p).pending :=
            (pendElems_sublist hsubT).subset hx
          have u1 := (IH g (by omega)).2.2 st a p x hnd ha hxS
          exact startsUntouched_trans u1 u2
    have hC : ∀ ids st p x, (pendElems st.pending).Nodup →
        x ∈ pendElems (containedLoop contained fuel st ids p).pending →
        startsUntouched st (containedLoop contained fuel st ids p) x := by
      intro ids
      induction ids with
      | nil =>
        intro st p x _ _
        rw [containedLoop_nil]
        exact startsUntouched_refl st x
      | cons id rest ihC =>
        intro st p x hnd hx
        cases hpd : alGet id st.pending with
        | none =>
          rw [containedLoop_cons_none contained fuel rest p hpd]
          rw [containedLoop_cons_none contained fuel rest p hpd] at hx
          exact ihC _ p x hnd hx
        | some todo =>
          rw [containedLoop_cons_some contained fuel rest p hpd]
          rw [containedLoop_cons_some contained fuel rest p hpd] at hx
          have hndE : (pendElems (alErase id st.pending)).Nodup :=
            hnd.sublist (pendElems_sublist (alErase_sublist id st.pending))
          have htodo : ∀ t ∈ todo, t ∉ pendElems (alErase id st.pending) :=
            not_mem_pendElems_alErase hnd hpd
          have hsubT := ((raStruct contained fuel).1
            { cStep1 st id p with pending := alErase id st.pending } todo (cNewPath st id p)).1
          have hndT : (pendElems (todoLoop contained fuel
              { cStep1 st id p with pending := alErase id st.pending }
              todo (cNewPath st id p)).pending).Nodup :=
            hndE.sublist (pendElems_sublist hsubT)
          have u3 := ihC _ p x hndT hx
          have hsubC := ((raStruct contained fuel).2.1
            (todoLoop contained fuel { cStep1 st id p with pending := alErase id st.pending }
              todo (cNewPath st id p)) rest p).1
          have hxT : x ∈ pendElems (todoLoop contained fuel
              { cStep1 st id p with pending := alErase id st.pending }
              todo (cNewPath st id p)).pending :=
            (pendElems_sublist hsubC).subset hx
          have u2 := hT { cStep1 st id p with pending := alErase id st.pending } todo
            (cNewPath st id p) x hndE htodo hxT
          exact startsUntouched_trans u2 u3
    have hS : ∀ st a p x, (pendElems st.pending).Nodup → a ∉ pendElems st.pending →
        x ∈ pendElems (setReplacementAlgorithmStart contained fuel st a p).pending →
        startsUntouched st (setReplacementAlgorithmStart contained fuel st a p) x := by
      intro st a p x hnd ha hx
      rw [setStart_eq]
      rw [setStart_eq] at hx
      have u2 := hC (contained a) (sStep1 st a p) p x hnd hx
      have hsubC := ((raStruct contained fuel).2.1 (sStep1 st a p) (contained a) p).1
      have hxS : x ∈ pendElems (sStep1 st a p).pending := (pendElems_sublist hsubC).subset hx
      have hxa : x ≠ a := fun hh => ha (hh ▸ hxS)
      have u1 : startsUntouched st (sStep1 st a p) x := by
        constructor
        · show alGet x (alSet a _ st.algStart) = _
          exact alGet_alSet_ne hxa _ _
        · show alGet x (alSet a _ st.algClasses) = _
          exact alGet_alSet_ne hxa _ _
      exact startsUntouched_trans u1 u2
    exact ⟨hT, fun st ids p => hC ids st p, hS⟩

/-! Pending-push lemmas for the outer declaration loop. -/

theorem pendElems_append_new (l : List (String × List Nat)) (k : String) (e : Nat) :
    pendElems (l ++ [(k, [e])]) = pendElems l ++ [e] := by
  simp [pendElems]

theorem push_some_mem {k : String} {v : List Nat} {l : List (String × List Nat)}
    (h : alGet k l = some v) (e : Nat) :
    ∀ x, x ∈ pendElems (alSet k (v ++ [e]) l) → x = e ∨ x ∈ pendElems l := by
  induction l with
  | nil => simp [alGet] at h
  | cons kv rest ih =>
    obtain ⟨k', v'⟩ := kv
    by_cases hk : k' = k
    · simp only [alGet, if_pos hk] at h
      cases h
      intro x hx
      simp only [alSet, if_pos hk] at hx
      simp only [pendElems, List.map_cons, List.flatten_cons] at hx ⊢
      rcases List.mem_append.mp hx with hx | hx
      · rcases List.mem_append.mp hx with hx | hx
        · exact Or.inr (List.mem_append.mpr (Or.inl hx))
        · exact Or.inl (List.mem_singleton.mp hx)
      · exact Or.inr (List.mem_append.mpr (Or.inr hx))
    · simp only [alGet, if_neg hk] at h
      intro x hx
      simp only [alSet, if_neg hk] at hx
      simp only [pendElems, List.map_cons, List.flatten_cons] at hx ⊢
      rcases List.mem_append.mp hx with hx | hx
      · exact Or.inr (List.mem_append.mpr (Or.inl hx))
      · rcases ih h x hx with hx | hx
        · exact Or.inl hx
        · exact Or.inr (List.mem_append.mpr (Or.inr hx))

theorem push_some_nodup {k : String} {v : List Nat} {l : List (String × List Nat)}
    (h : alGet k l = some v) {e : Nat}
    (hnd : (pendElems l).Nodup) (he : e ∉ pendElems l) :
    (pendElems (alSet k (v ++ [e]) l)).Nodup := by
  induction l with
  | nil => simp [alGet] at h
  | cons kv rest ih =>
    obtain ⟨k', v'⟩ := kv
    have hexp : pendElems ((k', v') :: rest) = v' ++ pendElems rest := by simp [pendElems]
    rw [hexp] at hnd he
    by_cases hk : k' = k
    · simp only [alGet, if_pos hk] at h
      have hv : v' = v := by injection h
      rw [← hv]
      simp only [alSet, if_pos hk]
      have hexp2 : pendElems ((k, v' ++ [e]) :: rest) = (v' ++ [e]) ++ pendElems rest := by
        simp [pendElems]
      rw [hexp2]
      rw [List.nodup_append] at hnd ⊢
      obtain ⟨hv, hr, hdisj⟩ := hnd
      refine ⟨?_, hr, ?_⟩
      · rw [List.nodup_append]
        refine ⟨hv, List.nodup_singleton e, ?_⟩
        intro a ha hae
        rw [List.mem_singleton] at hae
        subst hae
        exact he (List.mem_append.mpr (Or.inl ha))
      · intro a ha har
        rcases List.mem_append.mp ha with ha | ha
        · exact hdisj ha har
        · rw [List.mem_singleton] at ha
          subst ha
          exact he (List.mem_append.mpr (Or.inr har))
    · simp only [alGet, if_neg hk] at h
      simp only [alSet, if_neg hk]
      have hexp2 : pendElems ((k', v') :: alSet k (v ++ [e]) rest)
          = v' ++ pendElems (alSet k (v ++ [e]) rest) := by
        simp [pendElems]
      rw [hexp2]
      rw [List.nodup_append] at hnd ⊢
      obtain ⟨hv, hr, hdisj⟩ := hnd
      refine ⟨hv, ih h hr (fun hh => he (List.mem_append.mpr (Or.inr hh))), ?_⟩
      intro a ha hmem
      rcases push_some_mem h e a hmem with hx | hx
      · subst hx
        exact he (List.mem_append.mpr (Or.inl ha))
      · exact hdisj ha hx

theorem push_some_size {k : String} {v : List Nat} {l : List (String × List Nat)}
    (h : alGet k l = some v) (e : Nat) :
    pendingSize (alSet k (v ++ [e]) l) = pendingSize l + 1 := by
  induction l with
  | nil => simp [alGet] at h
  | cons kv rest ih =>
    obtain ⟨k', v'⟩ := kv
    by_cases hk : k' = k
    · simp only [alGet, if_pos hk] at h
      cases h
      simp [alSet, hk, pendingSize]
      omega
    · simp only [alGet, if_neg hk] at h
      simp only [alSet, if_neg hk]
      have := ih h
      simp [pendingSize] at this ⊢
      omega

/-- The invariant maintained by the for-loop over replacementAlgorithms: no
duplicate pending elements, pending elements have no numbering output and do
not recur among the unprocessed declarations, the unprocessed declaration
elements have no numbering output, the fuel bound dominates the pending
population, and no global warnings are produced inside the loop. -/
theorem offsets_fold_inv (contained : Nat → List String) (N : Nat) :
    ∀ (ds : List (Nat × String)) (st : RAState),
      (ds.map Prod.fst).Nodup →
      (pendElems st.pending).Nodup →
      (∀ e, e ∈ pendElems st.pending →
        alGet e st.algStart = none ∧ alGet e st.algClasses = none) →
      (∀ e, e ∈ pendElems st.pending → e ∉ ds.map Prod.fst) →
      (∀ e, e ∈ ds.map Prod.fst →
        alGet e st.algStart = none ∧ alGet e st.algClasses = none) →
      pendingSize st.pending + ds.length ≤ N →
      (List.foldl (processDecl contained N) st ds).exhausted = st.exhausted ∧
      (List.foldl (processDecl contained N) st ds).warnings.filter RWarning.isGlobal
        = st.warnings.filter RWarning.isGlobal ∧
      (pendElems (List.foldl (processDecl contained N) st ds).pending).Nodup ∧
      (∀ e, e ∈ pendElems (List.foldl (processDecl contained N) st ds).pending →
        alGet e (List.foldl (processDecl contained N) st ds).algStart = none ∧
        alGet e (List.foldl (processDecl contained N) st ds).algClasses = none) := by
  intro ds
  induction ds with
  | nil =>
    intro st _ hnd hpnone _ _ _
    exact ⟨rfl, rfl, hnd, hpnone⟩
  | cons d rest ih =>
    obtain ⟨e, tgt⟩ := d
    intro st hds hnd hpnone hpnotin hdnone hsz
    have hds' : (e :: rest.map Prod.fst).Nodup := by
      simpa only [List.map_cons] using hds
    have hdse : e ∉ rest.map Prod.fst := (List.nodup_cons.mp hds').1
    have hdsr : (rest.map Prod.fst).Nodup := (List.nodup_cons.mp hds').2
    have hepend : e ∉ pendElems st.pending := by
      intro hh
      exact hpnotin e hh (by simp)
    rw [List.foldl_cons]
    by_cases hr : st.toBeRectified.contains tgt
    · -- the declaration goes into the pending map
      have hrmem : tgt ∈ st.toBeRectified := by simpa using hr
      have hstep : processDecl contained N st (e, tgt)
          = match alGet tgt st.pending with
            | none => { st with pending := st.pending ++ [(tgt, [e])] }
            | some todo => { st with pending := alSet tgt (todo ++ [e]) st.pending } := by
        simp [processDecl, hrmem]
      cases hpd : alGet tgt st.pending with
      | none =>
        rw [hstep, hpd]
        apply ih
        · exact hdsr
        · show (pendElems (st.pending ++ [(tgt, [e])])).Nodup
          rw [pendElems_append_new]
          exact List.Nodup.append hnd (List.nodup_singleton e)
            (by intro a ha hae
                rw [List.mem_singleton] at hae
                exact hepend (hae ▸ ha))
        · show ∀ x, x ∈ pendElems (st.pending ++ [(tgt, [e])]) → _
          rw [pendElems_append_new]
          intro x hx
          rcases List.mem_append.mp hx with hx | hx
          · exact hpnone x hx
          · rw [List.mem_singleton] at hx
            subst hx
            exact hdnone x (by simp)
        · show ∀ x, x ∈ pendElems (st.pending ++ [(tgt, [e])]) → _
          rw [pendElems_append_new]
          intro x hx
          rcases List.mem_append.mp hx with hx | hx
          · intro hh
            exact hpnotin x hx (List.mem_cons_of_mem _ (by simpa using hh))
          · rw [List.mem_singleton] at hx
            subst hx
            exact fun hh => hdse (by simpa using hh)
        · intro x hx
          exact hdnone x (List.mem_cons_of_mem _ hx)
        · show pendingSize (st.pending ++ [(tgt, [e])]) + rest.length ≤ N
          have : pendingSize (st.pending ++ [(tgt, [e])]) = pendingSize st.pending + 1 := by
            simp [pendingSize]
          simp only [List.length_cons] at hsz
          omega
      | some todo =>
        rw [hstep, hpd]
        apply ih
        · exact hdsr
        · exact push_some_nodup hpd hnd hepend
        · intro x hx
          rcases push_some_mem hpd e x hx with hx | hx
          · subst hx
            exact hdnone x (by simp)
          · exact hpnone x hx
        · intro x hx
          rcases push_some_mem hpd e x hx with hx | hx
          · subst hx
            exact fun hh => hdse (by simpa using hh)
          · intro hh
            exact hpnotin x hx (List.mem_cons_of_mem _ (by simpa using hh))
        · intro x hx
          exact hdnone x (List.mem_cons_of_mem _ hx)
        · show pendingSize (alSet tgt (todo ++ [e]) st.pending) + rest.length ≤ N
          rw [push_some_size hpd]
          simp only [List.length_cons] at hsz
          omega
    · -- the target is looked up in the biblio
      have hrnot : tgt ∉ st.toBeRectified := by simpa using hr
      have hszst : pendingSize st.pending ≤ N := by
        simp only [List.length_cons] at hsz
        omega
      cases hb : alGet tgt st.biblio with
      | none =>
        have hstep : processDecl contained N st (e, tgt) = { st with warnings := st.warnings ++
            [RWarning.attr e "replaces-step" "invalid-replacement" "could not find step"] } := by
          simp [processDecl, hrnot, hb]
        rw [hstep]
        have hres := ih { st with warnings := st.warnings ++
            [RWarning.attr e "replaces-step" "invalid-replacement" "could not find step"] }
          hdsr hnd hpnone
          (fun x hx hh => hpnotin x hx (List.mem_cons_of_mem _ hh))
          (fun x hx => hdnone x (List.mem_cons_of_mem _ hx))
          (by show pendingSize st.pending + rest.length ≤ N
              simp only [List.length_cons] at hsz
              omega)
        refine ⟨hres.1, ?_, hres.2.2⟩
        rw [hres.2.1]
        simp [RWarning.isGlobal]
      | some entry =>
        by_cases ht : entry.type = "step"
        · have hstep : processDecl contained N st (e, tgt)
              = setReplacementAlgorithmStart contained N st e entry.stepNumbers := by
            simp [processDecl, hrnot, hb, ht]
          rw [hstep]
          set stS := setReplacementAlgorithmStart contained N st e entry.stepNumbers with hstS
          have hsub := ((raStruct contained N).2.2 st e entry.stepNumbers).1
          have hwarn := ((raStruct contained N).2.2 st e entry.stepNumbers).2
          have hexh := (raExh contained N).2.2 st e entry.stepNumbers hszst
          have hndS : (pendElems stS.pending).Nodup := hnd.sublist (pendElems_sublist hsub)
          have hres := ih stS hdsr hndS
            (by intro x hx
                have hu := (raLocalPend contained N).2.2 st e entry.stepNumbers x hnd hepend hx
                have hx0 : x ∈ pendElems st.pending := (pendElems_sublist hsub).subset hx
                rw [hu.1, hu.2]
                exact hpnone x hx0)
            (by intro x hx
                have hx0 : x ∈ pendElems st.pending := (pendElems_sublist hsub).subset hx
                exact fun hh => hpnotin x hx0 (List.mem_cons_of_mem _ hh))
            (by intro x hx
                have hxe : x ≠ e := by
                  intro hh
                  subst hh
                  exact hdse hx
                have hx0 : x ∉ pendElems st.pending := by
                  intro hh
                  exact hpnotin x hh (List.mem_cons_of_mem _ hx)
                have hu := (raLocalNe contained N).2.2 st e entry.stepNumbers x hxe hx0
                rw [hu.1, hu.2]
                exact hdnone x (List.mem_cons_of_mem _ hx))
            (by have hm := pendingSize_mono hsub
                rw [← hstS] at hm
                simp only [List.length_cons] at hsz
                omega)
          refine ⟨hres.1.trans hexh, hres.2.1.trans (by rw [hwarn]), hres.2.2⟩
        · have hstep : processDecl contained N st (e, tgt) = { st with warnings := st.warnings ++
              [RWarning.attr e "replaces-step" "invalid-replacement"
                "expected algorithm to replace a step"] } := by
            simp [processDecl, hrnot, hb, ht]
          rw [hstep]
          have hres := ih { st with warnings := st.warnings ++
              [RWarning.attr e "replaces-step" "invalid-replacement"
                "expected algorithm to replace a step"] }
            hdsr hnd hpnone
            (fun x hx hh => hpnotin x hx (List.mem_cons_of_mem _ hh))
            (fun x hx => hdnone x (List.mem_cons_of_mem _ hx))
            (by show pendingSize st.pending + rest.length ≤ N
                simp only [List.length_cons] at hsz
                omega)
          refine ⟨hres.1, ?_, hres.2.2⟩
          rw [hres.2.1]
          simp [RWarning.isGlobal]

/-- C2: on any input whose declarations name pairwise distinct algorithm
elements, the resolver terminates with its recursion fuel never exhausted; and
whenever declarations remain pending at the end (a replacement cycle or an
unreachable target), exactly one global diagnostic is emitted and every
algorithm still pending keeps its default numbering (no start, no class). -/
theorem replacement_cycle_detection (contained : Nat → List String) (inp : RAInput)
    (hnd : (inp.decls.map Prod.fst).Nodup) :
    (setReplacementAlgorithmOffsets contained inp).exhausted = false ∧
    ((setReplacementAlgorithmOffsets contained inp).pending ≠ [] →
      ((setReplacementAlgorithmOffsets contained inp).warnings.filter RWarning.isGlobal).length
        = 1 ∧
      ∀ e ∈ pendElems (setReplacementAlgorithmOffsets contained inp).pending,
        alGet e (setReplacementAlgorithmOffsets contained inp).algStart = none ∧
        alGet e (setReplacementAlgorithmOffsets contained inp).algClasses = none) := by
  have hinv := offsets_fold_inv contained inp.decls.length inp.decls
    { biblio := inp.biblio, toBeRectified := inp.toBeRectified,
      pending := [], algStart := [], algClasses := [], warnings := [], exhausted := false }
    hnd (by simp [pendElems]) (by simp [pendElems]) (by simp [pendElems])
    (fun x _ => ⟨rfl, rfl⟩) (by simp [pendingSize])
  obtain ⟨hexh, hwarn, hndp, hpnone⟩ := hinv
  set stF := List.foldl (processDecl contained inp.decls.length)
    { biblio := inp.biblio, toBeRectified := inp.toBeRectified,
      pending := [], algStart := [], algClasses := [], warnings := [], exhausted := false }
    inp.decls with hstF
  have hdef : setReplacementAlgorithmOffsets contained inp
      = if stF.pending.length > 0 then
          { stF with warnings := stF.warnings ++ [RWarning.global "invalid-replacement"
            "could not unambiguously determine replacement algorithm offsets - do you have a cycle in your replacement algorithms?"] }
        else stF := by
    simp only [setReplacementAlgorithmOffsets, hstF]
  by_cases hpe : stF.pending.length > 0
  · rw [hdef, if_pos hpe]
    refine ⟨hexh, fun _ => ⟨?_, ?_⟩⟩
    · show ((stF.warnings ++ [RWarning.global _ _]).filter RWarning.isGlobal).length = 1
      rw [List.filter_append, hwarn]
      simp [RWarning.isGlobal]
    · intro x hx
      exact hpnone x hx
  · rw [hdef, if_neg hpe]
    refine ⟨hexh, fun hcon => ?_⟩
    exact absurd (List.length_pos.mpr hcon) hpe

/-- C2 witness: two replacement algorithms whose targets are labeled steps of
each other (a two-cycle); both stay pending, one global diagnostic appears,
and neither algorithm receives a start or a class. -/
def c2Contained : Nat → List String := fun n =>
  if n = 0 then ["b"] else if n = 1 then ["a"] else []

def c2Input : RAInput := {
  decls := [(0, "a"), (1, "b")],
  biblio := [("a", ⟨"step", [1, 1]⟩), ("b", ⟨"step", [1, 1]⟩)],
  toBeRectified := ["a", "b"] }

theorem replacement_cycle_detection_witness :
    (c2Input.decls.map Prod.fst).Nodup ∧
    (setReplacementAlgorithmOffsets c2Contained c2Input).exhausted = false ∧
    ((setReplacementAlgorithmOffsets c2Contained c2Input).warnings.filter
      RWarning.isGlobal).length = 1 ∧
    alGet 0 (setReplacementAlgorithmOffsets c2Contained c2Input).algStart = none ∧
    alGet 1 (setReplacementAlgorithmOffsets c2Contained c2Input).algStart = none := by
  have h := replacement_cycle_detection c2Contained c2Input (by decide)
  have hpend : (setReplacementAlgorithmOffsets c2Contained c2Input).pending ≠ [] := by
    simp [setReplacementAlgorithmOffsets, c2Input, c2Contained, processDecl, alGet, alSet]
  have h2 := h.2 hpend
  refine ⟨by decide, h.1, h2.1, ?_, ?_⟩
  · exact (h2.2 0 (by
      simp [setReplacementAlgorithmOffsets, c2Input, c2Contained, processDecl, alGet, alSet,
        pendElems])).1
  · exact (h2.2 1 (by
      simp [setReplacementAlgorithmOffsets, c2Input, c2Contained, processDecl, alGet, alSet,
        pendElems])).1

/-- C3 witness data: one declaration pointing at a missing step id, one at a
clause entry. -/
def c3WState : RAState := {
  biblio := [("cl", ⟨"clause", []⟩)],
  toBeRectified := [], pending := [], algStart := [], algClasses := [],
  warnings := [], exhausted := false }

/-- Witness for the C3 theorem at concrete inputs (missing id and wrong kind). -/
theorem processDecl_bad_target_witness :
    c3WState.toBeRectified.contains "missing" = false ∧
    alGet "missing" c3WState.biblio = none ∧
    (processDecl (fun _ => []) 1 c3WState (7, "missing")).algStart = c3WState.algStart ∧
    (∃ m, (processDecl (fun _ => []) 1 c3WState (7, "missing")).warnings
        = c3WState.warnings ++ [RWarning.attr 7 "replaces-step" "invalid-replacement" m]) ∧
    (processDecl (fun _ => []) 1 c3WState (8, "cl")).algStart = c3WState.algStart := by
  have h1 := processDecl_bad_target (fun _ => []) 1 c3WState 7 "missing" rfl (Or.inl rfl)
  have h2 := processDecl_bad_target (fun _ => []) 1 c3WState 8 "cl"
    rfl (Or.inr ⟨⟨"clause", []⟩, rfl, by decide⟩)
  exact ⟨rfl, rfl, h1.2.1, h1.1, h2.2.1⟩

/-! ## The document walk (Spec.ts, walk / H1.ts / Clause builder)

The DOM subtree under document.body is embedded as a pure tree.  Node identity
(needed for the startEmd resume-boundary comparison, which is object identity
in the source) is represented by the node's path of child indices from the
walk root.  Elements carry the attributes the walk reads: the element kind
(nodeName), the id attribute, a namespace attribute (used by the modelled
Clause builder) and the oldids attribute. -/

inductive DNode where
  | elem (name : String) (idAttr : Option String) (nsAttr : Option String)
      (oldids : Option String) (children : List DNode)
  | text (content : String)

/-- NO_EMD (Spec.ts): element kinds suppressing inline-markdown expansion. -/
def NO_EMD : List String := ["PRE", "CODE", "EMU-PRODUCTION", "EMU-ALG", "EMU-GRAMMAR", "EMU-EQN"]

/-- Modelled from the spec: the clause-kind element names handled by the
Clause builder (the builder itself is not among the provided sources). -/
def clauseKinds : List String := ["EMU-INTRO", "EMU-CLAUSE", "EMU-ANNEX"]

/-- An open clause on the clause stack: its id attribute, its namespace, and
its header once captured. -/
structure OpenClause where
  cid : Option String
  ns : String
  header : Option DNode

/-- A TextSpanEntry as pushed into Spec._textNodes: the text node (by path),
the inside-algorithm flag and the nearest enclosing id. -/
structure TextSpanEntry where
  path : List Nat
  inAlg : Bool
  currentId : Option String

/-- The walk context (Context.ts fields used by walk, plus the outputs
_textNodes and the recorded clause headers). -/
structure WalkCtx where
  inNoAutolink : Bool
  inNoEmd : Bool
  startEmd : Option (List Nat)
  currentId : Option String
  inAlg : Bool
  clauseStack : List OpenClause
  tagStack : List (List Nat)
  textNodes : List (String × TextSpanEntry)
  headersOut : List (Option String × Option DNode)

/-- Static configuration: the autolink-suppression set NO_CLAUSE_AUTOLINK
(defined in autolinker.ts, not among the provided sources, hence kept
abstract) and the Spec's own namespace. -/
structure WalkCfg where
  noClauseAutolink : List String
  specNamespace : String

/-- Modelled from the spec: the Clause builder pushes the clause onto the
clause stack on enter; its namespace is the clause's namespace attribute when
present, else the enclosing clause's (or the document's) namespace. -/
def clauseEnter (cfg : WalkCfg) (idAttr nsAttr : Option String) (ctx : WalkCtx) : WalkCtx :=
  let parentNs := match ctx.clauseStack with
    | c :: _ => c.ns
    | [] => cfg.specNamespace
  { ctx with clauseStack := ⟨idAttr, nsAttr.getD parentNs, none⟩ :: ctx.clauseStack }

/-- Modelled from the spec: the Clause builder pops the clause stack on exit;
we record the popped clause's id and captured header as walk output. -/
def clauseExit (ctx : WalkCtx) : WalkCtx :=
  match ctx.clauseStack with
  | c :: rest =>
    { ctx with clauseStack := rest, headersOut := ctx.headersOut ++ [(c.cid, c.header)] }
  | [] => ctx

/-- H1.enter (H1.ts): the innermost open clause captures this heading as its
header unless it already has one. -/
def h1Enter (node : DNode) (ctx : WalkCtx) : WalkCtx :=
  match ctx.clauseStack with
  | c :: rest =>
    match c.header with
    | none => { ctx with clauseStack := { c with header := some node } :: rest }
    | some _ => ctx
  | [] => ctx

/-- The walk steps performed for one span element inserted by the oldids
handling: such a span has an id attribute, no children, no visitor, and its
kind SPAN drives the two suppression-set checks exactly as any element. -/
def walkSpanNode (cfg : WalkCfg) (oid : String) (path : List Nat) (ctx : WalkCtx) : WalkCtx :=
  let ctx := { ctx with tagStack := path :: ctx.tagStack }
  let ctx := if ctx.startEmd = some path then { ctx with startEmd := none, inNoEmd := false }
             else ctx
  let parentId := ctx.currentId
  let ctx := { ctx with currentId := some oid }
  let changedInNoAutolink := cfg.noClauseAutolink.contains "SPAN" && !ctx.inNoAutolink
  let ctx := if changedInNoAutolink then { ctx with inNoAutolink := true } else ctx
  let changedInNoEmd := NO_EMD.contains "SPAN" && !ctx.inNoEmd
  let ctx := if changedInNoEmd then { ctx with inNoEmd := true } else ctx
  let ctx := if changedInNoAutolink then { ctx with inNoAutolink := false } else ctx
  let ctx := if changedInNoEmd then { ctx with inNoEmd := false } else ctx
  { ctx with currentId := parentId, tagStack := ctx.tagStack.tail }

/-- Walk the spans inserted by the oldids handling (they sit before the
element's original children, at the first child indices). -/
def walkSpans (cfg : WalkCfg) (oids : List String) (path : List Nat) (i : Nat)
    (ctx : WalkCtx) : WalkCtx :=
  match oids with
  | [] => ctx
  | oid :: rest => walkSpans cfg rest path (i + 1) (walkSpanNode cfg oid (path ++ [i]) ctx)

/-- The walk's emptiness test on text nodes, textContent.trim().length === 0:
true when every character is whitespace (equivalent to String.trim yielding
the empty string, stated so that concrete instances compute). -/
def trimEmpty (s : String) : Bool := s.data.all (fun c => c.isWhitespace)

/-- The steps at the top of walk shared by all nodes: the tagStack push and
the resume-boundary comparison (context.node === context.startEmd). -/
def preNode (path : List Nat) (ctx : WalkCtx) : WalkCtx :=
  let ctx := { ctx with tagStack := path :: ctx.tagStack }
  if ctx.startEmd = some path then { ctx with startEmd := none, inNoEmd := false } else ctx

/-- The text-node branch of walk after the shared steps: skip whitespace-only
nodes; otherwise mark the emd resume boundary (the inline-markdown expansion
utils.emdTextNode is an external collaborator, modelled from the spec as
splicing no new nodes), and collect a TextSpanEntry unless autolinking is
suppressed. -/
def textNodeStep (cfg : WalkCfg) (s : String) (path : List Nat) (nextUp : Option (List Nat))
    (ctx : WalkCtx) : WalkCtx :=
  if trimEmpty s then ctx
  else
    let ctx :=
      if ctx.inNoEmd then ctx
      else
        let ctx := { ctx with inNoEmd := true }
        match nextUp with
        | some b => { ctx with startEmd := some b }
        | none => ctx
    if ctx.inNoAutolink then ctx
    else
      let ns := match ctx.clauseStack with
        | c :: _ => c.ns
        | [] => cfg.specNamespace
      { ctx with textNodes := ctx.textNodes ++ [(ns, ⟨path, ctx.inAlg, ctx.currentId⟩)] }

/-- Entering an element: set each suppression flag if the element kind is in
the corresponding set and the flag is not set yet, remembering which flags
this invocation set. -/
def elemEnterFlags (cfg : WalkCfg) (name : String) (ctx : WalkCtx) : WalkCtx × Bool × Bool :=
  let changedInNoAutolink := cfg.noClauseAutolink.contains name && !ctx.inNoAutolink
  let ctx := if changedInNoAutolink then { ctx with inNoAutolink := true } else ctx
  let changedInNoEmd := NO_EMD.contains name && !ctx.inNoEmd
  let ctx := if changedInNoEmd then { ctx with inNoEmd := true } else ctx
  (ctx, changedInNoAutolink, changedInNoEmd)

/-- Leaving an element: clear exactly the flags this invocation set. -/
def elemExitFlags (changedInNoAutolink changedInNoEmd : Bool) (ctx : WalkCtx) : WalkCtx :=
  let ctx := if changedInNoAutolink then { ctx with inNoAutolink := false } else ctx
  if changedInNoEmd then { ctx with inNoEmd := false } else ctx

/-- The visitorMap dispatch on enter: of the builders, the Clause builder
(modelled from the spec) and H1 (from the sources) affect the traversal state
modelled here; the remaining builders are external collaborators. -/
def visitorEnter (cfg : WalkCfg) (name : String) (idAttr nsAttr oldids : Option String)
    (children : List DNode) (ctx : WalkCtx) : WalkCtx :=
  if clauseKinds.contains name then clauseEnter cfg idAttr nsAttr ctx
  else if name = "H1" then h1Enter (DNode.elem name idAttr nsAttr oldids children) ctx
  else ctx

/-- The visitorMap dispatch on exit. -/
def visitorExit (name : String) (ctx : WalkCtx) : WalkCtx :=
  if clauseKinds.contains name then clauseExit ctx else ctx

/-- Record the element's id attribute as the nearest enclosing id. -/
def setCurrentId (idAttr : Option String) (ctx : WalkCtx) : WalkCtx :=
  match idAttr with
  | some i => { ctx with currentId := some i }
  | none => ctx

/-- The oldids attribute split into the span ids in their inserted order. -/
def spanIdsOf (oldids : Option String) : List String :=
  match oldids with
  | none => []
  | some s => ((s.splitOn ",").map String.trim).reverse

mutual

/-- walk (Spec.ts): visit one node.  nextUp is the path of the node the
source's resume-boundary loop would find: the next sibling of the nearest
ancestor-or-self that has one (none at the end of the document). -/
def walkNode (cfg : WalkCfg) (t : DNode) (path : List Nat) (nextUp : Option (List Nat))
    (ctx : WalkCtx) : WalkCtx :=
  let ctx := preNode path ctx
  match t with
  | .text s => textNodeStep cfg s path nextUp ctx
  | .elem name idAttr nsAttr oldids children =>
    let spanIds := spanIdsOf oldids
    let ctx := walkSpans cfg spanIds path 0 ctx
    let parentId := ctx.currentId
    let ctx := setCurrentId idAttr ctx
    let fl := elemEnterFlags cfg name ctx
    let ctx := visitorEnter cfg name idAttr nsAttr oldids children fl.1
    let ctx := walkChildren cfg children path spanIds.length nextUp ctx
    let ctx := visitorExit name ctx
    let ctx := elemExitFlags fl.2.1 fl.2.2 ctx
    { ctx with currentId := parentId, tagStack := ctx.tagStack.tail }
termination_by sizeOf t

/-- Visit an element's children in order, deriving each child's resume
boundary: its next sibling if it has one, else the parent's own boundary. -/
def walkChildren (cfg : WalkCfg) (ts : List DNode) (ppath : List Nat) (i : Nat)
    (parentNextUp : Option (List Nat)) (ctx : WalkCtx) : WalkCtx :=
  match ts with
  | [] => ctx
  | c :: rest =>
    let childNextUp := match rest with
      | [] => parentNextUp
      | _ :: _ => some (ppath ++ [i + 1])
    walkChildren cfg rest ppath (i + 1) parentNextUp
      (walkNode cfg c (ppath ++ [i]) childNextUp ctx)
termination_by sizeOf ts

end

/-- The initial walk context built in Spec.build. -/
def initialWalkCtx : WalkCtx := {
  inNoAutolink := false, inNoEmd := false, startEmd := none, currentId := none,
  inAlg := false, clauseStack := [], tagStack := [], textNodes := [], headersOut := [] }

/-- The single walk performed over document.body by Spec.build. -/
def walkDoc (cfg : WalkCfg) (body : DNode) : WalkCtx :=
  walkNode cfg body [] none initialWalkCtx

/-! ## Declarative characterizations used to state C4, C5 and C9 -/

mutual

/-- The heading that walking a subtree would hand to the innermost open
clause: an H1 element is captured itself; a nested clause captures headings
for itself only; any other element is searched recursively. -/
def firstH1 : DNode → Option DNode
  | .text _ => none
  | .elem name idAttr nsAttr oldids cs =>
    if clauseKinds.contains name then none
    else if name = "H1" then some (.elem name idAttr nsAttr oldids cs)
    else firstH1List cs
termination_by t => sizeOf t

/-- First captured heading over a sibling list, in document order. -/
def firstH1List : List DNode → Option DNode
  | [] => none
  | t :: rest =>
    match firstH1 t with
    | some h => some h
    | none => firstH1List rest
termination_by ts => sizeOf ts

end

mutual

/-- The (clause id, header) records produced by a subtree, in the order the
clauses are closed (post-order). -/
def clauseRecords : DNode → List (Option String × Option DNode)
  | .text _ => []
  | .elem name idAttr _ _ cs =>
    if clauseKinds.contains name then clauseRecordsList cs ++ [(idAttr, firstH1List cs)]
    else clauseRecordsList cs
termination_by t => sizeOf t

def clauseRecordsList : List DNode → List (Option String × Option DNode)
  | [] => []
  | t :: rest => clauseRecords t ++ clauseRecordsList rest
termination_by ts => sizeOf ts

end

/-- Let the innermost open clause capture a header candidate unless it
already has one (the effect a subtree walk has on the clause stack). -/
def mergeHeader (s : List OpenClause) (h? : Option DNode) : List OpenClause :=
  match s with
  | [] => []
  | c :: rest =>
    { c with header := match c.header with | some h => some h | none => h? } :: rest

theorem mergeHeader_none (s : List OpenClause) : mergeHeader s none = s := by
  cases s with
  | nil => rfl
  | cons c rest =>
    obtain ⟨cid, ns, hd⟩ := c
    cases hd <;> simp [mergeHeader]

theorem mergeHeader_assoc (s : List OpenClause) (a b : Option DNode) :
    mergeHeader (mergeHeader s a) b
      = mergeHeader s (match a with | some x => some x | none => b) := by
  cases s with
  | nil => cases a <;> rfl
  | cons c rest =>
    obtain ⟨cid, ns, hd⟩ := c
    cases hd <;> cases a <;> simp [mergeHeader]

theorem h1Enter_clauseStack (node : DNode) (ctx : WalkCtx) :
    (h1Enter node ctx).clauseStack = mergeHeader ctx.clauseStack (some node) ∧
    (h1Enter node ctx).headersOut = ctx.headersOut ∧
    (h1Enter node ctx).textNodes = ctx.textNodes ∧
    (h1Enter node ctx).inNoAutolink = ctx.inNoAutolink ∧
    (h1Enter node ctx).inNoEmd = ctx.inNoEmd ∧
    (h1Enter node ctx).startEmd = ctx.startEmd := by
  cases hs : ctx.clauseStack with
  | nil => simp [h1Enter, hs, mergeHeader]
  | cons c rest =>
    obtain ⟨cid, ns, hd⟩ := c
    cases hd <;> simp [h1Enter, hs, mergeHeader]

/-- walkSpanNode changes at most startEmd and inNoEmd (via the resume
boundary check); everything else is restored or untouched. -/
theorem walkSpanNode_fields (cfg : WalkCfg) (oid : String) (path : List Nat) (ctx : WalkCtx) :
    (walkSpanNode cfg oid path ctx).inNoAutolink = ctx.inNoAutolink ∧
    (walkSpanNode cfg oid path ctx).currentId = ctx.currentId ∧
    (walkSpanNode cfg oid path ctx).tagStack = ctx.tagStack ∧
    (walkSpanNode cfg oid path ctx).clauseStack = ctx.clauseStack ∧
    (walkSpanNode cfg oid path ctx).headersOut = ctx.headersOut ∧
    (walkSpanNode cfg oid path ctx).textNodes = ctx.textNodes ∧
    (ctx.startEmd = none →
      (walkSpanNode cfg oid path ctx).startEmd = none ∧
      (walkSpanNode cfg oid path ctx).inNoEmd = ctx.inNoEmd) := by
  unfold walkSpanNode
  by_cases h1 : ctx.startEmd = some path <;>
    by_cases h2 : "SPAN" ∈ cfg.noClauseAutolink <;>
      by_cases h3 : ctx.inNoAutolink = true <;>
        simp [h1, h2, h3, NO_EMD]

theorem walkSpans_fields (cfg : WalkCfg) :
    ∀ (oids : List String) (path : List Nat) (i : Nat) (ctx : WalkCtx),
    (walkSpans cfg oids path i ctx).inNoAutolink = ctx.inNoAutolink ∧
    (walkSpans cfg oids path i ctx).currentId = ctx.currentId ∧
    (walkSpans cfg oids path i ctx).tagStack = ctx.tagStack ∧
    (walkSpans cfg oids path i ctx).clauseStack = ctx.clauseStack ∧
    (walkSpans cfg oids path i ctx).headersOut = ctx.headersOut ∧
    (walkSpans cfg oids path i ctx).textNodes = ctx.textNodes ∧
    (ctx.startEmd = none →
      (walkSpans cfg oids path i ctx).startEmd = none ∧
      (walkSpans cfg oids path i ctx).inNoEmd = ctx.inNoEmd) := by
  intro oids
  induction oids with
  | nil => intro path i ctx; simp [walkSpans]
  | cons oid rest ih =>
    intro path i ctx
    obtain ⟨s1, s2, s3, s4, s5, s6, s7⟩ := walkSpanNode_fields cfg oid (path ++ [i]) ctx
    obtain ⟨r1, r2, r3, r4, r5, r6, r7⟩ := ih path (i + 1) (walkSpanNode cfg oid (path ++ [i]) ctx)
    refine ⟨?_, ?_, ?_, ?_, ?_, ?_, ?_⟩ <;>
      simp only [walkSpans]
    · rw [r1, s1]
    · rw [r2, s2]
    · rw [r3, s3]
    · rw [r4, s4]
    · rw [r5, s5]
    · rw [r6, s6]
    · intro hse
      obtain ⟨t1, t2⟩ := s7 hse
      obtain ⟨u1, u2⟩ := r7 t1
      exact ⟨u1, u2.trans t2⟩

theorem walkSpans_inNoAutolink (cfg : WalkCfg) (oids : List String) (path : List Nat)
    (i : Nat) (ctx : WalkCtx) :
    (walkSpans cfg oids path i ctx).inNoAutolink = ctx.inNoAutolink :=
  (walkSpans_fields cfg oids path i ctx).1

theorem walkSpans_currentId (cfg : WalkCfg) (oids : List String) (path : List Nat)
    (i : Nat) (ctx : WalkCtx) :
    (walkSpans cfg oids path i ctx).currentId = ctx.currentId :=
  (walkSpans_fields cfg oids path i ctx).2.1

theorem walkSpans_tagStack (cfg : WalkCfg) (oids : List String) (path : List Nat)
    (i : Nat) (ctx : WalkCtx) :
    (walkSpans cfg oids path i ctx).tagStack = ctx.tagStack :=
  (walkSpans_fields cfg oids path i ctx).2.2.1

theorem walkSpans_clauseStack (cfg : WalkCfg) (oids : List String) (path : List Nat)
    (i : Nat) (ctx : WalkCtx) :
    (walkSpans cfg oids path i ctx).clauseStack = ctx.clauseStack :=
  (walkSpans_fields cfg oids path i ctx).2.2.2.1

theorem walkSpans_headersOut (cfg : WalkCfg) (oids : List String) (path : List Nat)
    (i : Nat) (ctx : WalkCtx) :
    (walkSpans cfg oids path i ctx).headersOut = ctx.headersOut :=
  (walkSpans_fields cfg oids path i ctx).2.2.2.2.1

theorem walkSpans_textNodes (cfg : WalkCfg) (oids : List String) (path : List Nat)
    (i : Nat) (ctx : WalkCtx) :
    (walkSpans cfg oids path i ctx).textNodes = ctx.textNodes :=
  (walkSpans_fields cfg oids path i ctx).2.2.2.2.2.1

theorem clauseEnter_fields (cfg : WalkCfg) (idAttr nsAttr : Option String) (ctx : WalkCtx) :
    (clauseEnter cfg idAttr nsAttr ctx).inNoAutolink = ctx.inNoAutolink ∧
    (clauseEnter cfg idAttr nsAttr ctx).inNoEmd = ctx.inNoEmd ∧
    (clauseEnter cfg idAttr nsAttr ctx).startEmd = ctx.startEmd ∧
    (clauseEnter cfg idAttr nsAttr ctx).currentId = ctx.currentId ∧
    (clauseEnter cfg idAttr nsAttr ctx).tagStack = ctx.tagStack ∧
    (clauseEnter cfg idAttr nsAttr ctx).textNodes = ctx.textNodes ∧
    (clauseEnter cfg idAttr nsAttr ctx).headersOut = ctx.headersOut := by
  simp [clauseEnter]

theorem clauseExit_fields (ctx : WalkCtx) :
    (clauseExit ctx).inNoAutolink = ctx.inNoAutolink ∧
    (clauseExit ctx).inNoEmd = ctx.inNoEmd ∧
    (clauseExit ctx).startEmd = ctx.startEmd ∧
    (clauseExit ctx).currentId = ctx.currentId ∧
    (clauseExit ctx).tagStack = ctx.tagStack ∧
    (clauseExit ctx).textNodes = ctx.textNodes := by
  cases hs : ctx.clauseStack <;> simp [clauseExit, hs]

theorem h1Enter_fields (node : DNode) (ctx : WalkCtx) :
    (h1Enter node ctx).inNoAutolink = ctx.inNoAutolink ∧
    (h1Enter node ctx).inNoEmd = ctx.inNoEmd ∧
    (h1Enter node ctx).startEmd = ctx.startEmd ∧
    (h1Enter node ctx).currentId = ctx.currentId ∧
    (h1Enter node ctx).tagStack = ctx.tagStack ∧
    (h1Enter node ctx).textNodes = ctx.textNodes ∧
    (h1Enter node ctx).headersOut = ctx.headersOut := by
  cases hs : ctx.clauseStack with
  | nil => simp [h1Enter, hs]
  | cons c rest => cases hc : c.header <;> simp [h1Enter, hs, hc]

/-! Field lemmas for the walk phases. -/

theorem preNode_inNoAutolink (path : List Nat) (ctx : WalkCtx) :
    (preNode path ctx).inNoAutolink = ctx.inNoAutolink := by
  by_cases h : ctx.startEmd = some path <;> simp [preNode, h]

theorem preNode_currentId (path : List Nat) (ctx : WalkCtx) :
    (preNode path ctx).currentId = ctx.currentId := by
  by_cases h : ctx.startEmd = some path <;> simp [preNode, h]

theorem preNode_clauseStack (path : List Nat) (ctx : WalkCtx) :
    (preNode path ctx).clauseStack = ctx.clauseStack := by
  by_cases h : ctx.startEmd = some path <;> simp [preNode, h]

theorem preNode_headersOut (path : List Nat) (ctx : WalkCtx) :
    (preNode path ctx).headersOut = ctx.headersOut := by
  by_cases h : ctx.startEmd = some path <;> simp [preNode, h]

theorem preNode_textNodes (path : List Nat) (ctx : WalkCtx) :
    (preNode path ctx).textNodes = ctx.textNodes := by
  by_cases h : ctx.startEmd = some path <;> simp [preNode, h]

theorem preNode_inAlg (path : List Nat) (ctx : WalkCtx) :
    (preNode path ctx).inAlg = ctx.inAlg := by
  by_cases h : ctx.startEmd = some path <;> simp [preNode, h]

theorem preNode_emd (path : List Nat) (ctx : WalkCtx) (h : ctx.startEmd = none) :
    (preNode path ctx).startEmd = none ∧ (preNode path ctx).inNoEmd = ctx.inNoEmd := by
  simp [preNode, h]

theorem textNodeStep_textNodes_ws (cfg : WalkCfg) (s : String) (path : List Nat)
    (nextUp : Option (List Nat)) (ctx : WalkCtx) (h : trimEmpty s = true) :
    textNodeStep cfg s path nextUp ctx = ctx := by
  simp [textNodeStep, h]

theorem textNodeStep_inNoAutolink (cfg : WalkCfg) (s : String) (path : List Nat)
    (nextUp : Option (List Nat)) (ctx : WalkCtx) :
    (textNodeStep cfg s path nextUp ctx).inNoAutolink = ctx.inNoAutolink := by
  unfold textNodeStep
  by_cases h1 : trimEmpty s <;> by_cases h2 : ctx.inNoEmd <;> cases nextUp <;>
    by_cases h3 : ctx.inNoAutolink <;> simp [h1, h2, h3]

theorem textNodeStep_textNodes_suppressed (cfg : WalkCfg) (s : String) (path : List Nat)
    (nextUp : Option (List Nat)) (ctx : WalkCtx) (h : ctx.inNoAutolink = true) :
    (textNodeStep cfg s path nextUp ctx).textNodes = ctx.textNodes := by
  unfold textNodeStep
  by_cases h1 : trimEmpty s <;> by_cases h2 : ctx.inNoEmd <;> cases nextUp <;> simp [h1, h2, h]

theorem textNodeStep_emd (cfg : WalkCfg) (s : String) (path : List Nat)
    (nextUp : Option (List Nat)) (ctx : WalkCtx) (h : ctx.inNoEmd = true) :
    (textNodeStep cfg s path nextUp ctx).inNoEmd = true ∧
    (textNodeStep cfg s path nextUp ctx).startEmd = ctx.startEmd := by
  unfold textNodeStep
  by_cases h1 : trimEmpty s <;> by_cases h3 : ctx.inNoAutolink <;> simp [h1, h3, h]

theorem textNodeStep_clauseStack (cfg : WalkCfg) (s : String) (path : List Nat)
    (nextUp : Option (List Nat)) (ctx : WalkCtx) :
    (textNodeStep cfg s path nextUp ctx).clauseStack = ctx.clauseStack ∧
    (textNodeStep cfg s path nextUp ctx).headersOut = ctx.headersOut := by
  unfold textNodeStep
  by_cases h1 : trimEmpty s <;> by_cases h2 : ctx.inNoEmd <;> cases nextUp <;>
    by_cases h3 : ctx.inNoAutolink <;> simp [h1, h2, h3]

theorem textNodeStep_textNodes_app (cfg : WalkCfg) (s : String) (path : List Nat)
    (nextUp : Option (List Nat)) (ctx : WalkCtx)
    (hw : trimEmpty s = false) (ha : ctx.inNoAutolink = false) :
    (textNodeStep cfg s path nextUp ctx).textNodes = ctx.textNodes ++
      [(match ctx.clauseStack with
        | c :: _ => c.ns
        | [] => cfg.specNamespace, ⟨path, ctx.inAlg, ctx.currentId⟩)] := by
  unfold textNodeStep
  by_cases h2 : ctx.inNoEmd <;> cases nextUp <;> simp [hw, h2, ha]

theorem elemEnterFlags_fst (cfg : WalkCfg) (name : String) (ctx : WalkCtx) :
    ((elemEnterFlags cfg name ctx).1.inNoAutolink
        = ((elemEnterFlags cfg name ctx).2.1 || ctx.inNoAutolink)) ∧
    ((elemEnterFlags cfg name ctx).1.inNoEmd
        = ((elemEnterFlags cfg name ctx).2.2 || ctx.inNoEmd)) ∧
    ((elemEnterFlags cfg name ctx).2.1 = true → ctx.inNoAutolink = false) ∧
    ((elemEnterFlags cfg name ctx).2.2 = true → ctx.inNoEmd = false) ∧
    (elemEnterFlags cfg name ctx).1.startEmd = ctx.startEmd ∧
    (elemEnterFlags cfg name ctx).1.currentId = ctx.currentId ∧
    (elemEnterFlags cfg name ctx).1.clauseStack = ctx.clauseStack ∧
    (elemEnterFlags cfg name ctx).1.headersOut = ctx.headersOut ∧
    (elemEnterFlags cfg name ctx).1.textNodes = ctx.textNodes ∧
    (elemEnterFlags cfg name ctx).1.tagStack = ctx.tagStack := by
  unfold elemEnterFlags
  by_cases h1 : name ∈ cfg.noClauseAutolink <;>
    by_cases h2 : name ∈ NO_EMD <;>
      by_cases h3 : ctx.inNoAutolink <;>
        by_cases h4 : ctx.inNoEmd <;>
          simp [h1, h2, h3, h4]

theorem elemExitFlags_fields (ca ce : Bool) (ctx : WalkCtx) :
    (elemExitFlags ca ce ctx).inNoAutolink = (if ca then false else ctx.inNoAutolink) ∧
    (elemExitFlags ca ce ctx).inNoEmd = (if ce then false else ctx.inNoEmd) ∧
    (elemExitFlags ca ce ctx).startEmd = ctx.startEmd ∧
    (elemExitFlags ca ce ctx).currentId = ctx.currentId ∧
    (elemExitFlags ca ce ctx).clauseStack = ctx.clauseStack ∧
    (elemExitFlags ca ce ctx).headersOut = ctx.headersOut ∧
    (elemExitFlags ca ce ctx).textNodes = ctx.textNodes ∧
    (elemExitFlags ca ce ctx).tagStack = ctx.tagStack := by
  cases ca <;> cases ce <;> simp [elemExitFlags]

theorem visitorEnter_flags (cfg : WalkCfg) (name : String) (idAttr nsAttr oldids : Option String)
    (children : List DNode) (ctx : WalkCtx) :
    (visitorEnter cfg name idAttr nsAttr oldids children ctx).inNoAutolink = ctx.inNoAutolink ∧
    (visitorEnter cfg name idAttr nsAttr oldids children ctx).inNoEmd = ctx.inNoEmd ∧
    (visitorEnter cfg name idAttr nsAttr oldids children ctx).startEmd = ctx.startEmd ∧
    (visitorEnter cfg name idAttr nsAttr oldids children ctx).currentId = ctx.currentId ∧
    (visitorEnter cfg name idAttr nsAttr oldids children ctx).textNodes = ctx.textNodes ∧
    (visitorEnter cfg name idAttr nsAttr oldids children ctx).tagStack = ctx.tagStack := by
  unfold visitorEnter
  by_cases h1 : name ∈ clauseKinds
  · simp [h1, clauseEnter]
  · by_cases h2 : name = "H1"
    · subst h2
      obtain ⟨f1, f2, f3, f4, f5, f6, f7⟩ := h1Enter_fields
        (DNode.elem "H1" idAttr nsAttr oldids children) ctx
      simp [clauseKinds]
      exact ⟨f1, f2, f3, f4, f6, f5⟩
    · simp [h1, h2]

theorem visitorExit_flags (name : String) (ctx : WalkCtx) :
    (visitorExit name ctx).inNoAutolink = ctx.inNoAutolink ∧
    (visitorExit name ctx).inNoEmd = ctx.inNoEmd ∧
    (visitorExit name ctx).startEmd = ctx.startEmd ∧
    (visitorExit name ctx).currentId = ctx.currentId ∧
    (visitorExit name ctx).textNodes = ctx.textNodes ∧
    (visitorExit name ctx).tagStack = ctx.tagStack := by
  unfold visitorExit
  by_cases h1 : name ∈ clauseKinds
  · obtain ⟨f1, f2, f3, f4, f5, f6⟩ := clauseExit_fields ctx
    simp [h1]
    exact ⟨f1, f2, f3, f4, f6, f5⟩
  · simp [h1]

theorem setCurrentId_fields (idAttr : Option String) (ctx : WalkCtx) :
    (setCurrentId idAttr ctx).inNoAutolink = ctx.inNoAutolink ∧
    (setCurrentId idAttr ctx).inNoEmd = ctx.inNoEmd ∧
    (setCurrentId idAttr ctx).startEmd = ctx.startEmd ∧
    (setCurrentId idAttr ctx).clauseStack = ctx.clauseStack ∧
    (setCurrentId idAttr ctx).headersOut = ctx.headersOut ∧
    (setCurrentId idAttr ctx).textNodes = ctx.textNodes ∧
    (setCurrentId idAttr ctx).tagStack = ctx.tagStack := by
  cases idAttr <;> simp [setCurrentId]

/-! Individual simp-oriented projections of the phase lemmas. -/

theorem elemExitFlags_inNoAutolink (ca ce : Bool) (ctx : WalkCtx) :
    (elemExitFlags ca ce ctx).inNoAutolink = (if ca then false else ctx.inNoAutolink) :=
  (elemExitFlags_fields ca ce ctx).1

theorem elemExitFlags_inNoEmd (ca ce : Bool) (ctx : WalkCtx) :
    (elemExitFlags ca ce ctx).inNoEmd = (if ce then false else ctx.inNoEmd) :=
  (elemExitFlags_fields ca ce ctx).2.1

theorem elemExitFlags_startEmd (ca ce : Bool) (ctx : WalkCtx) :
    (elemExitFlags ca ce ctx).startEmd = ctx.startEmd :=
  (elemExitFlags_fields ca ce ctx).2.2.1

theorem elemExitFlags_clauseStack (ca ce : Bool) (ctx : WalkCtx) :
    (elemExitFlags ca ce ctx).clauseStack = ctx.clauseStack :=
  (elemExitFlags_fields ca ce ctx).2.2.2.2.1

theorem elemExitFlags_headersOut (ca ce : Bool) (ctx : WalkCtx) :
    (elemExitFlags ca ce ctx).headersOut = ctx.headersOut :=
  (elemExitFlags_fields ca ce ctx).2.2.2.2.2.1

theorem elemExitFlags_textNodes (ca ce : Bool) (ctx : WalkCtx) :
    (elemExitFlags ca ce ctx).textNodes = ctx.textNodes :=
  (elemExitFlags_fields ca ce ctx).2.2.2.2.2.2.1

theorem visitorExit_inNoAutolink (name : String) (ctx : WalkCtx) :
    (visitorExit name ctx).inNoAutolink = ctx.inNoAutolink :=
  (visitorExit_flags name ctx).1

theorem visitorExit_inNoEmd (name : String) (ctx : WalkCtx) :
    (visitorExit name ctx).inNoEmd = ctx.inNoEmd :=
  (visitorExit_flags name ctx).2.1

theorem visitorExit_startEmd (name : String) (ctx : WalkCtx) :
    (visitorExit name ctx).startEmd = ctx.startEmd :=
  (visitorExit_flags name ctx).2.2.1

theorem visitorExit_textNodes (name : String) (ctx : WalkCtx) :
    (visitorExit name ctx).textNodes = ctx.textNodes :=
  (visitorExit_flags name ctx).2.2.2.2.1

theorem visitorEnter_inNoAutolink (cfg : WalkCfg) (name : String)
    (idAttr nsAttr oldids : Option String) (children : List DNode) (ctx : WalkCtx) :
    (visitorEnter cfg name idAttr nsAttr oldids children ctx).inNoAutolink = ctx.inNoAutolink :=
  (visitorEnter_flags cfg name idAttr nsAttr oldids children ctx).1

theorem visitorEnter_inNoEmd (cfg : WalkCfg) (name : String)
    (idAttr nsAttr oldids : Option String) (children : List DNode) (ctx : WalkCtx) :
    (visitorEnter cfg name idAttr nsAttr oldids children ctx).inNoEmd = ctx.inNoEmd :=
  (visitorEnter_flags cfg name idAttr nsAttr oldids children ctx).2.1

theorem visitorEnter_startEmd (cfg : WalkCfg) (name : String)
    (idAttr nsAttr oldids : Option String) (children : List DNode) (ctx : WalkCtx) :
    (visitorEnter cfg name idAttr nsAttr oldids children ctx).startEmd = ctx.startEmd :=
  (visitorEnter_flags cfg name idAttr nsAttr oldids children ctx).2.2.1

theorem visitorEnter_textNodes (cfg : WalkCfg) (name : String)
    (idAttr nsAttr oldids : Option String) (children : List DNode) (ctx : WalkCtx) :
    (visitorEnter cfg name idAttr nsAttr oldids children ctx).textNodes = ctx.textNodes :=
  (visitorEnter_flags cfg name idAttr nsAttr oldids children ctx).2.2.2.2.1

theorem elemEnterFst_inNoAutolink (cfg : WalkCfg) (name : String) (ctx : WalkCtx) :
    (elemEnterFlags cfg name ctx).1.inNoAutolink
      = ((elemEnterFlags cfg name ctx).2.1 || ctx.inNoAutolink) :=
  (elemEnterFlags_fst cfg name ctx).1

theorem elemEnterFst_inNoEmd (cfg : WalkCfg) (name : String) (ctx : WalkCtx) :
    (elemEnterFlags cfg name ctx).1.inNoEmd
      = ((elemEnterFlags cfg name ctx).2.2 || ctx.inNoEmd) :=
  (elemEnterFlags_fst cfg name ctx).2.1

theorem elemEnter_changedA (cfg : WalkCfg) (name : String) (ctx : WalkCtx)
    (h : (elemEnterFlags cfg name ctx).2.1 = true) : ctx.inNoAutolink = false :=
  (elemEnterFlags_fst cfg name ctx).2.2.1 h

theorem elemEnter_changedE (cfg : WalkCfg) (name : String) (ctx : WalkCtx)
    (h : (elemEnterFlags cfg name ctx).2.2 = true) : ctx.inNoEmd = false :=
  (elemEnterFlags_fst cfg name ctx).2.2.2.1 h

theorem elemEnterFst_startEmd (cfg : WalkCfg) (name : String) (ctx : WalkCtx) :
    (elemEnterFlags cfg name ctx).1.startEmd = ctx.startEmd :=
  (elemEnterFlags_fst cfg name ctx).2.2.2.2.1

theorem elemEnterFst_clauseStack (cfg : WalkCfg) (name : String) (ctx : WalkCtx) :
    (elemEnterFlags cfg name ctx).1.clauseStack = ctx.clauseStack :=
  (elemEnterFlags_fst cfg name ctx).2.2.2.2.2.2.1

theorem elemEnterFst_headersOut (cfg : WalkCfg) (name : String) (ctx : WalkCtx) :
    (elemEnterFlags cfg name ctx).1.headersOut = ctx.headersOut :=
  (elemEnterFlags_fst cfg name ctx).2.2.2.2.2.2.2.1

theorem elemEnterFst_textNodes (cfg : WalkCfg) (name : String) (ctx : WalkCtx) :
    (elemEnterFlags cfg name ctx).1.textNodes = ctx.textNodes :=
  (elemEnterFlags_fst cfg name ctx).2.2.2.2.2.2.2.2.1

theorem setCurrentId_inNoAutolink (idAttr : Option String) (ctx : WalkCtx) :
    (setCurrentId idAttr ctx).inNoAutolink = ctx.inNoAutolink :=
  (setCurrentId_fields idAttr ctx).1

theorem setCurrentId_inNoEmd (idAttr : Option String) (ctx : WalkCtx) :
    (setCurrentId idAttr ctx).inNoEmd = ctx.inNoEmd :=
  (setCurrentId_fields idAttr ctx).2.1

theorem setCurrentId_startEmd (idAttr : Option String) (ctx : WalkCtx) :
    (setCurrentId idAttr ctx).startEmd = ctx.startEmd :=
  (setCurrentId_fields idAttr ctx).2.2.1

theorem setCurrentId_clauseStack (idAttr : Option String) (ctx : WalkCtx) :
    (setCurrentId idAttr ctx).clauseStack = ctx.clauseStack :=
  (setCurrentId_fields idAttr ctx).2.2.2.1

theorem setCurrentId_headersOut (idAttr : Option String) (ctx : WalkCtx) :
    (setCurrentId idAttr ctx).headersOut = ctx.headersOut :=
  (setCurrentId_fields idAttr ctx).2.2.2.2.1

theorem setCurrentId_textNodes (idAttr : Option String) (ctx : WalkCtx) :
    (setCurrentId idAttr ctx).textNodes = ctx.textNodes :=
  (setCurrentId_fields idAttr ctx).2.2.2.2.2.1

/-! Unfolding equations for the mutual walk. -/

theorem walkNode_text (cfg : WalkCfg) (s : String) (path : List Nat)
    (nup : Option (List Nat)) (ctx : WalkCtx) :
    walkNode cfg (.text s) path nup ctx = textNodeStep cfg s path nup (preNode path ctx) := by
  rw [walkNode.eq_def]

theorem walkNode_elem (cfg : WalkCfg) (name : String) (idA nsA oids : Option String)
    (cs : List DNode) (path : List Nat) (nup : Option (List Nat)) (ctx : WalkCtx) :
    walkNode cfg (.elem name idA nsA oids cs) path nup ctx =
      (let ctx1 := setCurrentId idA (walkSpans cfg (spanIdsOf oids) path 0 (preNode path ctx))
       let fl := elemEnterFlags cfg name ctx1
       let ctx2 := elemExitFlags fl.2.1 fl.2.2
         (visitorExit name
           (walkChildren cfg cs path (spanIdsOf oids).length nup
             (visitorEnter cfg name idA nsA oids cs fl.1)))
       { ctx2 with
         currentId := (walkSpans cfg (spanIdsOf oids) path 0 (preNode path ctx)).currentId,
         tagStack := ctx2.tagStack.tail }) := by
  rw [walkNode.eq_def]

theorem walkChildren_nil (cfg : WalkCfg) (ppath : List Nat) (i : Nat)
    (pnup : Option (List Nat)) (ctx : WalkCtx) :
    walkChildren cfg [] ppath i pnup ctx = ctx := by
  rw [walkChildren.eq_def]

theorem walkChildren_cons (cfg : WalkCfg) (c : DNode) (rest : List DNode) (ppath : List Nat)
    (i : Nat) (pnup : Option (List Nat)) (ctx : WalkCtx) :
    walkChildren cfg (c :: rest) ppath i pnup ctx
      = walkChildren cfg rest ppath (i + 1) pnup
          (walkNode cfg c (ppath ++ [i])
            (match rest with | [] => pnup | _ :: _ => some (ppath ++ [i + 1])) ctx) := by
  rw [walkChildren.eq_def]

/-! The walk invariants behind C4 and C5. -/

mutual

/-- The autolink-suppression flag always has the same value after walking any
subtree as on entry: it is set only by an element invocation that finds it
clear, and cleared exactly by that invocation on exit. -/
theorem walk_noauto (cfg : WalkCfg) (t : DNode) :
    ∀ (path : List Nat) (nup : Option (List Nat)) (ctx : WalkCtx),
    (walkNode cfg t path nup ctx).inNoAutolink = ctx.inNoAutolink := by
  match t with
  | .text s =>
    intro path nup ctx
    rw [walkNode_text, textNodeStep_inNoAutolink, preNode_inNoAutolink]
  | .elem name idA nsA oids cs =>
    intro path nup ctx
    have ihC := walkChildren_noauto cfg cs
    simp only [walkNode_elem, elemExitFlags_inNoAutolink, visitorExit_inNoAutolink, ihC,
      visitorEnter_inNoAutolink, elemEnterFst_inNoAutolink, setCurrentId_inNoAutolink,
      walkSpans_inNoAutolink, preNode_inNoAutolink]
    by_cases hc : (elemEnterFlags cfg name
        (setCurrentId idA (walkSpans cfg (spanIdsOf oids) path 0 (preNode path ctx)))).2.1
    · have := elemEnter_changedA cfg name _ hc
      rw [setCurrentId_inNoAutolink, walkSpans_inNoAutolink, preNode_inNoAutolink] at this
      simp [hc, this]
    · simp [hc]
termination_by sizeOf t

theorem walkChildren_noauto (cfg : WalkCfg) (ts : List DNode) :
    ∀ (ppath : List Nat) (i : Nat) (pnup : Option (List Nat)) (ctx : WalkCtx),
    (walkChildren cfg ts ppath i pnup ctx).inNoAutolink = ctx.inNoAutolink := by
  match ts with
  | [] => intro ppath i pnup ctx; rw [walkChildren_nil]
  | c :: rest =>
    intro ppath i pnup ctx
    rw [walkChildren_cons, walkChildren_noauto cfg rest, walk_noauto cfg c]
termination_by sizeOf ts

end

mutual

/-- When the emphasis-suppression flag is set on entry with no pending resume
boundary, no walk of a subtree can clear it (it is cleared on exit only by the
invocation that set it, and the boundary reset cannot fire). -/
theorem walk_emd (cfg : WalkCfg) (t : DNode) :
    ∀ (path : List Nat) (nup : Option (List Nat)) (ctx : WalkCtx),
    ctx.inNoEmd = true → ctx.startEmd = none →
    (walkNode cfg t path nup ctx).inNoEmd = true ∧
    (walkNode cfg t path nup ctx).startEmd = none := by
  match t with
  | .text s =>
    intro path nup ctx he hs
    obtain ⟨p1, p2⟩ := preNode_emd path ctx hs
    rw [he] at p2
    rw [walkNode_text]
    obtain ⟨t1, t2⟩ := textNodeStep_emd cfg s path nup (preNode path ctx) p2
    exact ⟨t1, t2.trans p1⟩
  | .elem name idA nsA oids cs =>
    intro path nup ctx he hs
    obtain ⟨p1, p2⟩ := preNode_emd path ctx hs
    rw [he] at p2
    obtain ⟨s1, s2⟩ := (walkSpans_fields cfg (spanIdsOf oids) path 0 (preNode path ctx)).2.2.2.2.2.2 p1
    rw [p2] at s2
    have c1 : (setCurrentId idA (walkSpans cfg (spanIdsOf oids) path 0 (preNode path ctx))).inNoEmd
        = true := by rw [setCurrentId_inNoEmd, s2]
    have c2 : (setCurrentId idA (walkSpans cfg (spanIdsOf oids) path 0 (preNode path ctx))).startEmd
        = none := by rw [setCurrentId_startEmd, s1]
    set ctx1 := setCurrentId idA (walkSpans cfg (spanIdsOf oids) path 0 (preNode path ctx)) with hctx1
    have hch : (elemEnterFlags cfg name ctx1).2.2 = false := by
      by_cases h : (elemEnterFlags cfg name ctx1).2.2
      · have := elemEnter_changedE cfg name ctx1 h
        rw [c1] at this
        exact absurd this (by simp)
      · simpa using h
    have e1 : (elemEnterFlags cfg name ctx1).1.inNoEmd = true := by
      rw [elemEnterFst_inNoEmd, hch, c1]
      rfl
    have e2 : (elemEnterFlags cfg name ctx1).1.startEmd = none := by
      rw [elemEnterFst_startEmd, c2]
    have v1 : (visitorEnter cfg name idA nsA oids cs
        (elemEnterFlags cfg name ctx1).1).inNoEmd = true := by
      rw [visitorEnter_inNoEmd, e1]
    have v2 : (visitorEnter cfg name idA nsA oids cs
        (elemEnterFlags cfg name ctx1).1).startEmd = none := by
      rw [visitorEnter_startEmd, e2]
    obtain ⟨w1, w2⟩ := walkChildren_emd cfg cs path (spanIdsOf oids).length nup
      (visitorEnter cfg name idA nsA oids cs (elemEnterFlags cfg name ctx1).1) v1 v2
    rw [walkNode_elem]
    constructor
    · show (elemExitFlags _ _ _).inNoEmd = true
      rw [elemExitFlags_inNoEmd, hch, visitorExit_inNoEmd, w1]
      rfl
    · show (elemExitFlags _ _ _).startEmd = none
      rw [elemExitFlags_startEmd, visitorExit_startEmd, w2]
termination_by sizeOf t

theorem walkChildren_emd (cfg : WalkCfg) (ts : List DNode) :
    ∀ (ppath : List Nat) (i : Nat) (pnup : Option (List Nat)) (ctx : WalkCtx),
    ctx.inNoEmd = true → ctx.startEmd = none →
    (walkChildren cfg ts ppath i pnup ctx).inNoEmd = true ∧
    (walkChildren cfg ts ppath i pnup ctx).startEmd = none := by
  match ts with
  | [] => intro ppath i pnup ctx he hs; rw [walkChildren_nil]; exact ⟨he, hs⟩
  | c :: rest =>
    intro ppath i pnup ctx he hs
    rw [walkChildren_cons]
    obtain ⟨h1, h2⟩ := walk_emd cfg c (ppath ++ [i])
      (match rest with | [] => pnup | _ :: _ => some (ppath ++ [i + 1])) ctx he hs
    exact walkChildren_emd cfg rest ppath (i + 1) pnup _ h1 h2
termination_by sizeOf ts

end

mutual

/-- Inside an autolink-suppressed region no text span is ever collected. -/
theorem walk_suppressed (cfg : WalkCfg) (t : DNode) :
    ∀ (path : List Nat) (nup : Option (List Nat)) (ctx : WalkCtx),
    ctx.inNoAutolink = true →
    (walkNode cfg t path nup ctx).textNodes = ctx.textNodes := by
  match t with
  | .text s =>
    intro path nup ctx ha
    rw [walkNode_text, textNodeStep_textNodes_suppressed, preNode_textNodes]
    rw [preNode_inNoAutolink, ha]
  | .elem name idA nsA oids cs =>
    intro path nup ctx ha
    have hctx1 : (setCurrentId idA (walkSpans cfg (spanIdsOf oids) path 0
        (preNode path ctx))).inNoAutolink = true := by
      rw [setCurrentId_inNoAutolink, walkSpans_inNoAutolink, preNode_inNoAutolink, ha]
    set ctx1 := setCurrentId idA (walkSpans cfg (spanIdsOf oids) path 0 (preNode path ctx))
      with hc1
    have hvis : (visitorEnter cfg name idA nsA oids cs
        (elemEnterFlags cfg name ctx1).1).inNoAutolink = true := by
      rw [visitorEnter_inNoAutolink, elemEnterFst_inNoAutolink, hctx1]
      simp
    have hw := walk_suppressed_children cfg cs path (spanIdsOf oids).length nup
      (visitorEnter cfg name idA nsA oids cs (elemEnterFlags cfg name ctx1).1) hvis
    rw [walkNode_elem]
    show (elemExitFlags _ _ _).textNodes = ctx.textNodes
    rw [elemExitFlags_textNodes, visitorExit_textNodes, hw, visitorEnter_textNodes,
      elemEnterFst_textNodes]
    show ctx1.textNodes = ctx.textNodes
    rw [hc1, setCurrentId_textNodes, walkSpans_textNodes, preNode_textNodes]
termination_by sizeOf t

theorem walk_suppressed_children (cfg : WalkCfg) (ts : List DNode) :
    ∀ (ppath : List Nat) (i : Nat) (pnup : Option (List Nat)) (ctx : WalkCtx),
    ctx.inNoAutolink = true →
    (walkChildren cfg ts ppath i pnup ctx).textNodes = ctx.textNodes := by
  match ts with
  | [] => intro ppath i pnup ctx _; rw [walkChildren_nil]
  | c :: rest =>
    intro ppath i pnup ctx ha
    rw [walkChildren_cons]
    set cnu := (match rest with
      | ([] : List DNode) => pnup
      | _ :: _ => some (ppath ++ [i + 1])) with hcnu
    have h1 := walk_suppressed cfg c (ppath ++ [i]) cnu ctx ha
    have h2 := walk_suppressed_children cfg rest ppath (i + 1) pnup
      (walkNode cfg c (ppath ++ [i]) cnu ctx) (by rw [walk_noauto cfg c, ha])
    rw [h2, h1]
termination_by sizeOf ts

end

/-! The clause-header simulation behind C9. -/

theorem firstH1_text (s : String) : firstH1 (.text s) = none := by
  rw [firstH1.eq_def]

theorem firstH1_elem (name : String) (idA nsA oids : Option String) (cs : List DNode) :
    firstH1 (.elem name idA nsA oids cs)
      = (if clauseKinds.contains name then none
         else if name = "H1" then some (.elem name idA nsA oids cs)
         else firstH1List cs) := by
  rw [firstH1.eq_def]

theorem firstH1List_nil : firstH1List [] = none := by
  rw [firstH1List.eq_def]

theorem firstH1List_cons (t : DNode) (rest : List DNode) :
    firstH1List (t :: rest)
      = (match firstH1 t with
         | some h => some h
         | none => firstH1List rest) := by
  rw [firstH1List.eq_def]

theorem clauseRecords_text (s : String) : clauseRecords (.text s) = [] := by
  rw [clauseRecords.eq_def]

theorem clauseRecords_elem (name : String) (idA nsA oids : Option String) (cs : List DNode) :
    clauseRecords (.elem name idA nsA oids cs)
      = (if clauseKinds.contains name then clauseRecordsList cs ++ [(idA, firstH1List cs)]
         else clauseRecordsList cs) := by
  rw [clauseRecords.eq_def]

theorem clauseRecordsList_nil : clauseRecordsList [] = [] := by
  rw [clauseRecordsList.eq_def]

theorem clauseRecordsList_cons (t : DNode) (rest : List DNode) :
    clauseRecordsList (t :: rest) = clauseRecords t ++ clauseRecordsList rest := by
  rw [clauseRecordsList.eq_def]

theorem clauseExit_cons {ctx : WalkCtx} {c : OpenClause} {rest : List OpenClause}
    (h : ctx.clauseStack = c :: rest) :
    clauseExit ctx
      = { ctx with clauseStack := rest, headersOut := ctx.headersOut ++ [(c.cid, c.header)] } := by
  simp [clauseExit, h]

theorem clauseEnter_eq (cfg : WalkCfg) (idAttr nsAttr : Option String) (ctx : WalkCtx) :
    clauseEnter cfg idAttr nsAttr ctx
      = { ctx with clauseStack :=
          ⟨idAttr, nsAttr.getD (match ctx.clauseStack with
            | c :: _ => c.ns
            | [] => cfg.specNamespace), none⟩ :: ctx.clauseStack } := by
  simp [clauseEnter]

theorem h1Enter_eq (node : DNode) (ctx : WalkCtx) :
    h1Enter node ctx = { ctx with clauseStack := mergeHeader ctx.clauseStack (some node) } := by
  cases hs : ctx.clauseStack with
  | nil =>
    simp [h1Enter, hs, mergeHeader]
    rw [← hs]
  | cons c rest =>
    obtain ⟨cid, ns, hd⟩ := c
    cases hd with
    | none => simp [h1Enter, hs, mergeHeader]
    | some v =>
      simp [h1Enter, hs, mergeHeader]
      rw [← hs]

mutual

/-- The clause-header bookkeeping of the walk is exactly the declarative
description: every closed clause records the first heading of its subtree
outside nested clauses, and an open clause absorbs at most one heading from a
walked subtree, never replacing one already captured. -/
theorem walk_clause_sim (cfg : WalkCfg) (t : DNode) :
    ∀ (path : List Nat) (nup : Option (List Nat)) (ctx : WalkCtx),
    (walkNode cfg t path nup ctx).headersOut = ctx.headersOut ++ clauseRecords t ∧
    (walkNode cfg t path nup ctx).clauseStack = mergeHeader ctx.clauseStack (firstH1 t) := by
  match t with
  | .text s =>
    intro path nup ctx
    rw [walkNode_text, firstH1_text, clauseRecords_text, mergeHeader_none]
    obtain ⟨c1, c2⟩ := textNodeStep_clauseStack cfg s path nup (preNode path ctx)
    rw [c1, c2, preNode_clauseStack, preNode_headersOut]
    simp
  | .elem name idA nsA oids cs =>
    intro path nup ctx
    have hc1s : (setCurrentId idA (walkSpans cfg (spanIdsOf oids) path 0
        (preNode path ctx))).clauseStack = ctx.clauseStack := by
      rw [setCurrentId_clauseStack, walkSpans_clauseStack, preNode_clauseStack]
    have hc1h : (setCurrentId idA (walkSpans cfg (spanIdsOf oids) path 0
        (preNode path ctx))).headersOut = ctx.headersOut := by
      rw [setCurrentId_headersOut, walkSpans_headersOut, preNode_headersOut]
    set ctx1 := setCurrentId idA (walkSpans cfg (spanIdsOf oids) path 0 (preNode path ctx))
      with hctx1
    have hefs : (elemEnterFlags cfg name ctx1).1.clauseStack = ctx.clauseStack := by
      rw [elemEnterFst_clauseStack, hc1s]
    have hefh : (elemEnterFlags cfg name ctx1).1.headersOut = ctx.headersOut := by
      rw [elemEnterFst_headersOut, hc1h]
    rw [walkNode_elem]
    by_cases hck : name ∈ clauseKinds
    · -- a clause element: push, walk children, pop and record
      have hvec : visitorEnter cfg name idA nsA oids cs (elemEnterFlags cfg name ctx1).1
          = clauseEnter cfg idA nsA (elemEnterFlags cfg name ctx1).1 := by
        simp [visitorEnter, hck]
      obtain ⟨ih1, ih2⟩ := walk_clause_children cfg cs path (spanIdsOf oids).length nup
        (visitorEnter cfg name idA nsA oids cs (elemEnterFlags cfg name ctx1).1)
      have hpushed : (visitorEnter cfg name idA nsA oids cs
          (elemEnterFlags cfg name ctx1).1).clauseStack
          = (⟨idA, nsA.getD (match ctx.clauseStack with
              | c :: _ => c.ns
              | [] => cfg.specNamespace), none⟩ : OpenClause) :: ctx.clauseStack := by
        rw [hvec, clauseEnter_eq]
        show (⟨idA, nsA.getD _, none⟩ : OpenClause) :: _ = _
        rw [hefs]
      have hpushh : (visitorEnter cfg name idA nsA oids cs
          (elemEnterFlags cfg name ctx1).1).headersOut = ctx.headersOut := by
        rw [hvec, clauseEnter_eq]
        show (elemEnterFlags cfg name ctx1).1.headersOut = _
        rw [hefh]
      rw [hpushed] at ih2
      have hmerge : mergeHeader ((⟨idA, nsA.getD (match ctx.clauseStack with
            | c :: _ => c.ns
            | [] => cfg.specNamespace), none⟩ : OpenClause) :: ctx.clauseStack)
            (firstH1List cs)
          = (⟨idA, nsA.getD (match ctx.clauseStack with
              | c :: _ => c.ns
              | [] => cfg.specNamespace), firstH1List cs⟩ : OpenClause) :: ctx.clauseStack := by
        simp [mergeHeader]
      rw [hmerge] at ih2
      have hexit := clauseExit_cons ih2
      have hvex : visitorExit name (walkChildren cfg cs path (spanIdsOf oids).length nup
          (visitorEnter cfg name idA nsA oids cs (elemEnterFlags cfg name ctx1).1))
          = clauseExit (walkChildren cfg cs path (spanIdsOf oids).length nup
            (visitorEnter cfg name idA nsA oids cs (elemEnterFlags cfg name ctx1).1)) := by
        simp [visitorExit, hck]
      constructor
      · show (elemExitFlags _ _ _).headersOut = _
        rw [elemExitFlags_headersOut, hvex, hexit]
        show (walkChildren cfg cs path (spanIdsOf oids).length nup _).headersOut
            ++ [(idA, firstH1List cs)] = _
        rw [ih1, hpushh, clauseRecords_elem]
        simp [hck]
      · show (elemExitFlags _ _ _).clauseStack = _
        rw [elemExitFlags_clauseStack, hvex, hexit]
        show ctx.clauseStack = _
        rw [firstH1_elem]
        simp [hck, mergeHeader_none]
    · by_cases hh1 : name = "H1"
      · -- the H1 builder feeds the innermost open clause
        subst hh1
        have hvec : visitorEnter cfg "H1" idA nsA oids cs (elemEnterFlags cfg "H1" ctx1).1
            = h1Enter (DNode.elem "H1" idA nsA oids cs) (elemEnterFlags cfg "H1" ctx1).1 := by
          simp [visitorEnter, hck]
        obtain ⟨ih1, ih2⟩ := walk_clause_children cfg cs path (spanIdsOf oids).length nup
          (visitorEnter cfg "H1" idA nsA oids cs (elemEnterFlags cfg "H1" ctx1).1)
        have hpush : (visitorEnter cfg "H1" idA nsA oids cs
            (elemEnterFlags cfg "H1" ctx1).1).clauseStack
            = mergeHeader ctx.clauseStack (some (DNode.elem "H1" idA nsA oids cs)) := by
          rw [hvec, h1Enter_eq]
          show mergeHeader (elemEnterFlags cfg "H1" ctx1).1.clauseStack _ = _
          rw [hefs]
        have hpushh : (visitorEnter cfg "H1" idA nsA oids cs
            (elemEnterFlags cfg "H1" ctx1).1).headersOut = ctx.headersOut := by
          rw [hvec, h1Enter_eq]
          show (elemEnterFlags cfg "H1" ctx1).1.headersOut = _
          rw [hefh]
        have hvex : ∀ cx : WalkCtx, visitorExit "H1" cx = cx := by
          intro cx
          simp [visitorExit, hck]
        constructor
        · show (elemExitFlags _ _ _).headersOut = _
          rw [elemExitFlags_headersOut, hvex, ih1, hpushh, clauseRecords_elem]
          simp [hck]
        · show (elemExitFlags _ _ _).clauseStack = _
          rw [elemExitFlags_clauseStack, hvex, ih2, hpush, mergeHeader_assoc, firstH1_elem]
          simp [hck]
      · -- any other element kind has no visitor effect on the clause stack
        have hvec : visitorEnter cfg name idA nsA oids cs (elemEnterFlags cfg name ctx1).1
            = (elemEnterFlags cfg name ctx1).1 := by
          simp [visitorEnter, hck, hh1]
        obtain ⟨ih1, ih2⟩ := walk_clause_children cfg cs path (spanIdsOf oids).length nup
          (visitorEnter cfg name idA nsA oids cs (elemEnterFlags cfg name ctx1).1)
        have hvex : ∀ cx : WalkCtx, visitorExit name cx = cx := by
          intro cx
          simp [visitorExit, hck]
        constructor
        · show (elemExitFlags _ _ _).headersOut = _
          rw [elemExitFlags_headersOut, hvex, ih1, hvec, hefh, clauseRecords_elem]
          simp [hck]
        · show (elemExitFlags _ _ _).clauseStack = _
          rw [elemExitFlags_clauseStack, hvex, ih2, hvec, hefs, firstH1_elem]
          simp [hck, hh1]
termination_by sizeOf t

theorem walk_clause_children (cfg : WalkCfg) (ts : List DNode) :
    ∀ (ppath : List Nat) (i : Nat) (pnup : Option (List Nat)) (ctx : WalkCtx),
    (walkChildren cfg ts ppath i pnup ctx).headersOut = ctx.headersOut ++ clauseRecordsList ts ∧
    (walkChildren cfg ts ppath i pnup ctx).clauseStack
      = mergeHeader ctx.clauseStack (firstH1List ts) := by
  match ts with
  | [] =>
    intro ppath i pnup ctx
    rw [walkChildren_nil, clauseRecordsList_nil, firstH1List_nil, mergeHeader_none]
    simp
  | c :: rest =>
    intro ppath i pnup ctx
    rw [walkChildren_cons]
    set cnu := (match rest with
      | ([] : List DNode) => pnup
      | _ :: _ => some (ppath ++ [i + 1])) with hcnu
    obtain ⟨h1, h2⟩ := walk_clause_sim cfg c (ppath ++ [i]) cnu ctx
    obtain ⟨r1, r2⟩ := walk_clause_children cfg rest ppath (i + 1) pnup
      (walkNode cfg c (ppath ++ [i]) cnu ctx)
    constructor
    · rw [r1, h1, clauseRecordsList_cons]
      simp
    · rw [r2, h2, mergeHeader_assoc, firstH1List_cons]
termination_by sizeOf ts

end

/-! ## Claim theorems C4, C5, C9 -/

/-- Example configuration for concrete counterexamples and witnesses. -/
def exCfg : WalkCfg := { noClauseAutolink := ["PRE", "CODE", "EMU-GRAMMAR"], specNamespace := "doc" }

/-- C4 is falsified for the emphasis-suppression flag: walking a DIV whose
only child is a non-empty text node leaves inNoEmd set on exit (the text node
set it, and its resume boundary lies outside the subtree), so the flag does
not return to its entry value after the subtree completes. -/
theorem walk_flag_restore_counterexample :
    initialWalkCtx.inNoEmd = false ∧
    (walkDoc exCfg (.elem "DIV" none none none [.text "x"])).inNoEmd = true := by
  constructor
  · rfl
  · simp only [walkDoc, walkNode_text, walkNode_elem, walkChildren_cons, walkChildren_nil]
    simp [walkSpans, initialWalkCtx, clauseEnter, clauseExit,
      h1Enter, clauseKinds, NO_EMD, exCfg, trimEmpty, preNode, textNodeStep, elemEnterFlags,
      elemExitFlags, visitorEnter, visitorExit, spanIdsOf, setCurrentId]

/-- C4 (amended): a suppression flag is set by an element only when clear and
cleared on exit exactly by the invocation that set it.  Consequently the
autolink-suppression flag always has the same value after any subtree's walk
as on entry; the emphasis-suppression flag is never cleared across a subtree
when it is set on entry with no pending resume boundary, but it may remain
set after a subtree completes when a text node inside set it with a resume
boundary outside the subtree (the markdown-expansion mechanism), so it does
not always return to its entry value. -/
theorem walk_suppression_flags :
    (∀ (cfg : WalkCfg) (t : DNode) (path : List Nat) (nup : Option (List Nat)) (ctx : WalkCtx),
      (walkNode cfg t path nup ctx).inNoAutolink = ctx.inNoAutolink) ∧
    (∀ (cfg : WalkCfg) (t : DNode) (path : List Nat) (nup : Option (List Nat)) (ctx : WalkCtx),
      ctx.inNoEmd = true → ctx.startEmd = none →
      (walkNode cfg t path nup ctx).inNoEmd = true ∧
      (walkNode cfg t path nup ctx).startEmd = none) :=
  ⟨fun cfg t path nup ctx => walk_noauto cfg t path nup ctx,
   fun cfg t path nup ctx he hs => walk_emd cfg t path nup ctx he hs⟩

/-- A context sitting inside an emphasis-suppressed region. -/
def emdCtx : WalkCtx := { initialWalkCtx with inNoEmd := true }

/-- Witness for the C4 theorem at a concrete subtree and context. -/
theorem walk_suppression_flags_witness :
    (walkNode exCfg (.elem "DIV" none none none [.text "x"]) [] none
      initialWalkCtx).inNoAutolink = initialWalkCtx.inNoAutolink ∧
    emdCtx.inNoEmd = true ∧ emdCtx.startEmd = none ∧
    (walkNode exCfg (.elem "DIV" none none none [.text "x"]) [] none emdCtx).inNoEmd = true :=
  ⟨walk_suppression_flags.1 exCfg (.elem "DIV" none none none [.text "x"]) [] none
    initialWalkCtx,
   rfl, rfl,
   (walk_suppression_flags.2 exCfg (.elem "DIV" none none none [.text "x"]) [] none emdCtx
     rfl rfl).1⟩

/-- C5: (i) whitespace-only text nodes collect nothing; (ii) no text span is
collected anywhere inside an autolink-suppressed region; (iii) in particular
the whole subtree of an element whose kind is in the suppression set collects
nothing; (iv) any other non-empty text node appends exactly one span entry,
keyed by the namespace of the innermost enclosing clause, or the document
namespace when no clause is open. -/
theorem walk_text_spans :
    (∀ (cfg : WalkCfg) (s : String) (path : List Nat) (nup : Option (List Nat)) (ctx : WalkCtx),
      trimEmpty s = true →
      (walkNode cfg (.text s) path nup ctx).textNodes = ctx.textNodes) ∧
    (∀ (cfg : WalkCfg) (t : DNode) (path : List Nat) (nup : Option (List Nat)) (ctx : WalkCtx),
      ctx.inNoAutolink = true →
      (walkNode cfg t path nup ctx).textNodes = ctx.textNodes) ∧
    (∀ (cfg : WalkCfg) (name : String) (idA nsA oids : Option String) (cs : List DNode)
      (path : List Nat) (nup : Option (List Nat)) (ctx : WalkCtx),
      name ∈ cfg.noClauseAutolink →
      (walkNode cfg (.elem name idA nsA oids cs) path nup ctx).textNodes = ctx.textNodes) ∧
    (∀ (cfg : WalkCfg) (s : String) (path : List Nat) (nup : Option (List Nat)) (ctx : WalkCtx),
      trimEmpty s = false → ctx.inNoAutolink = false →
      (walkNode cfg (.text s) path nup ctx).textNodes = ctx.textNodes ++
        [((match ctx.clauseStack with
            | c :: _ => c.ns
            | [] => cfg.specNamespace), ⟨path, ctx.inAlg, ctx.currentId⟩)]) := by
  refine ⟨?_, ?_, ?_, ?_⟩
  · intro cfg s path nup ctx hw
    rw [walkNode_text, textNodeStep_textNodes_ws cfg s path nup _ hw, preNode_textNodes]
  · intro cfg t path nup ctx ha
    exact walk_suppressed cfg t path nup ctx ha
  · intro cfg name idA nsA oids cs path nup ctx hmem
    by_cases ha : ctx.inNoAutolink
    · exact walk_suppressed cfg _ path nup ctx (by simpa using ha)
    · have hctx1 : (setCurrentId idA (walkSpans cfg (spanIdsOf oids) path 0
          (preNode path ctx))).inNoAutolink = false := by
        rw [setCurrentId_inNoAutolink, walkSpans_inNoAutolink, preNode_inNoAutolink]
        simpa using ha
      set ctx1 := setCurrentId idA (walkSpans cfg (spanIdsOf oids) path 0 (preNode path ctx))
        with hc1
      have hchanged : (elemEnterFlags cfg name ctx1).2.1 = true := by
        show (cfg.noClauseAutolink.contains name && !ctx1.inNoAutolink) = true
        rw [hctx1]
        simp [hmem]
      have hfl : (elemEnterFlags cfg name ctx1).1.inNoAutolink = true := by
        rw [elemEnterFst_inNoAutolink, hchanged]
        rfl
      have hvis : (visitorEnter cfg name idA nsA oids cs
          (elemEnterFlags cfg name ctx1).1).inNoAutolink = true := by
        rw [visitorEnter_inNoAutolink, hfl]
      have hw := walk_suppressed_children cfg cs path (spanIdsOf oids).length nup
        (visitorEnter cfg name idA nsA oids cs (elemEnterFlags cfg name ctx1).1) hvis
      rw [walkNode_elem]
      show (elemExitFlags _ _ _).textNodes = ctx.textNodes
      rw [elemExitFlags_textNodes, visitorExit_textNodes, hw, visitorEnter_textNodes,
        elemEnterFst_textNodes]
      show ctx1.textNodes = ctx.textNodes
      rw [hc1, setCurrentId_textNodes, walkSpans_textNodes, preNode_textNodes]
  · intro cfg s path nup ctx hw ha
    rw [walkNode_text, textNodeStep_textNodes_app cfg s path nup _ hw
      (by rw [preNode_inNoAutolink]; exact ha)]
    rw [preNode_textNodes, preNode_clauseStack, preNode_inAlg, preNode_currentId]

/-- A context inside a suppressed region with one open clause. -/
def supCtx : WalkCtx := { initialWalkCtx with inNoAutolink := true }

/-- A context with one open clause, for the span-collection witness. -/
def clCtx : WalkCtx := { initialWalkCtx with
  clauseStack := [⟨some "c1", "ns1", none⟩], currentId := some "c1" }

/-- Witness for the C5 theorem at concrete inputs. -/
theorem walk_text_spans_witness :
    trimEmpty "  " = true ∧
    (walkNode exCfg (.text "  ") [0] none initialWalkCtx).textNodes
      = initialWalkCtx.textNodes ∧
    supCtx.inNoAutolink = true ∧
    (walkNode exCfg (.text "term") [0] none supCtx).textNodes = supCtx.textNodes ∧
    (walkNode exCfg (.elem "PRE" none none none [.text "term"]) [0] none
      initialWalkCtx).textNodes = initialWalkCtx.textNodes ∧
    trimEmpty "term" = false ∧
    (walkNode exCfg (.text "term") [1, 0] none clCtx).textNodes
      = clCtx.textNodes ++ [("ns1", ⟨[1, 0], false, some "c1"⟩)] :=
  ⟨by decide,
   walk_text_spans.1 exCfg "  " [0] none initialWalkCtx (by decide),
   rfl,
   walk_text_spans.2.1 exCfg (.text "term") [0] none supCtx rfl,
   walk_text_spans.2.2.1 exCfg "PRE" none none none [.text "term"] [0] none initialWalkCtx
     (by decide),
   by decide,
   walk_text_spans.2.2.2 exCfg "term" [1, 0] none clCtx (by decide) rfl⟩

/-- The header the C9 claim predicts: the first heading among the clause's
direct children before any nested clause child. -/
def claimedDirectHeader : List DNode → Option DNode
  | [] => none
  | .elem name idA nsA oids cs :: rest =>
    if name = "H1" then some (.elem name idA nsA oids cs)
    else if clauseKinds.contains name then none
    else claimedDirectHeader rest
  | .text _ :: rest => claimedDirectHeader rest

/-- C9 is falsified: a clause whose only H1 sits inside a DIV still captures
that H1 as its header (the claim's direct-child rule predicts no header), and
a clause whose H1 follows a nested clause also captures it (the claim's
before-any-nested-clause rule predicts no header). -/
theorem clause_header_counterexample :
    (walkDoc exCfg (.elem "EMU-CLAUSE" (some "c") none none
        [.elem "DIV" none none none [.elem "H1" none none none [.text "t"]]])).headersOut
      = [(some "c", some (.elem "H1" none none none [.text "t"]))] ∧
    claimedDirectHeader [DNode.elem "DIV" none none none
        [.elem "H1" none none none [.text "t"]]] = none ∧
    (∀ h : DNode, some h ≠ (none : Option DNode)) ∧
    ((walkDoc exCfg (.elem "EMU-CLAUSE" (some "o") none none
        [.elem "EMU-CLAUSE" (some "i") none none [.elem "H1" none none none [.text "a"]],
         .elem "H1" none none none [.text "b"]])).headersOut
      = [(some "i", some (.elem "H1" none none none [.text "a"])),
         (some "o", some (.elem "H1" none none none [.text "b"]))] ∧
    claimedDirectHeader
        [DNode.elem "EMU-CLAUSE" (some "i") none none [.elem "H1" none none none [.text "a"]],
         DNode.elem "H1" none none none [.text "b"]] = none) := by
  refine ⟨?_, ?_, fun h => by simp, ?_, ?_⟩
  · simp only [walkDoc, walkNode_text, walkNode_elem, walkChildren_cons, walkChildren_nil]
    simp [walkSpans, initialWalkCtx, clauseEnter, clauseExit,
      h1Enter, clauseKinds, NO_EMD, exCfg, trimEmpty, preNode, textNodeStep, elemEnterFlags,
      elemExitFlags, visitorEnter, visitorExit, spanIdsOf, setCurrentId]
  · simp [claimedDirectHeader, clauseKinds]
  · simp only [walkDoc, walkNode_text, walkNode_elem, walkChildren_cons, walkChildren_nil]
    simp [walkSpans, initialWalkCtx, clauseEnter, clauseExit,
      h1Enter, clauseKinds, NO_EMD, exCfg, trimEmpty, preNode, textNodeStep, elemEnterFlags,
      elemExitFlags, visitorEnter, visitorExit, spanIdsOf, setCurrentId]
  · simp [claimedDirectHeader, clauseKinds]

/-- C9 (amended): for every clause element, the displayed header is the first
heading element encountered anywhere in the clause's subtree outside nested
clauses (not only among direct children, and possibly after a nested clause
has closed); a clause with no such heading gets none, and a later heading
never replaces a captured one. -/
theorem clause_headers (cfg : WalkCfg) (body : DNode) :
    (walkDoc cfg body).headersOut = clauseRecords body := by
  have h := (walk_clause_sim cfg body [] none initialWalkCtx).1
  rw [walkDoc, h]
  show [] ++ clauseRecords body = _
  simp

/-! ## The build pipeline (Spec.ts, build) for C6 and C7

The build method is a straight-line sequence of phases.  We model each phase
as appending its name to an event log and advancing a clock; the cooperative
cancellation token is a schedule saying whether the token is cancelled after
a given number of completed phases.  throwIfCancellationRequested aborts with
the events performed so far.  Only the fields of Options that gate phases are
kept. -/

structure BuildOpts where
  ecma262Biblio : Bool
  lintSpec : Bool
  toc : Bool
  oldToc : Bool

structure BuildSt where
  time : Nat
  events : List String
deriving Repr, DecidableEq

/-- Run one phase: record its event and advance the clock. -/
def phase (name : String) (st : BuildSt) : BuildSt :=
  { time := st.time + 1, events := st.events ++ [name] }

/-- cancellationToken.throwIfCancellationRequested: abort the whole build
(carrying the events performed so far) if the token is cancelled now. -/
def throwIfCancellationRequested (sched : Nat → Bool) (st : BuildSt) :
    Except (List String) BuildSt :=
  if sched st.time then Except.error st.events else Except.ok st

/-- loadECMA262Biblio (Spec.ts): checks cancellation, then loads. -/
def loadECMA262Biblio (sched : Nat → Bool) (st : BuildSt) : Except (List String) BuildSt := do
  let st ← throwIfCancellationRequested sched st
  pure (phase "loadECMA262Biblio" st)

/-- loadBiblios (Spec.ts): checks cancellation, then loads the document
biblios. -/
def loadBiblios (sched : Nat → Bool) (st : BuildSt) : Except (List String) BuildSt := do
  let st ← throwIfCancellationRequested sched st
  pure (phase "loadBiblios" st)

/-- loadImports (Spec.ts): recursively inlines imports; performs no
cancellation check. -/
def loadImports (st : BuildSt) : BuildSt :=
  phase "loadImports" st

/-- buildBoilerplate (Spec.ts): checks cancellation, then builds. -/
def buildBoilerplate (sched : Nat → Bool) (st : BuildSt) : Except (List String) BuildSt := do
  let st ← throwIfCancellationRequested sched st
  pure (phase "buildBoilerplate" st)

/-- build (Spec.ts): the phase sequence of the compilation, from biblio
loading to asset emission.  setReplacementAlgorithmOffsets and the walk
perform no cancellation check. -/
def build (opts : BuildOpts) (sched : Nat → Bool) : Except (List String) (List String) := do
  let st0 : BuildSt := ⟨0, []⟩
  let st ← if opts.ecma262Biblio then loadECMA262Biblio sched st0 else pure st0
  let st ← loadBiblios sched st
  let st := loadImports st
  let st ← buildBoilerplate sched st
  let st := if opts.lintSpec then phase "lint" st else st
  let st := phase "walk" st
  let st := phase "setReplacementAlgorithmOffsets" st
  let st := phase "autolink" st
  let st := phase "xrefs" st
  let st := phase "ntRefs" st
  let st := phase "prodRefs" st
  let st := phase "buildReferenceGraph" st
  let st := phase "highlightCode" st
  let st := phase "setCharset" st
  let st := phase "setFirstH1Class" st
  let st := phase "buildSpecWrapper" st
  let st := if opts.toc then (if opts.oldToc then phase "tocOld" st else phase "tocMenu" st)
            else st
  let st := phase "buildAssets" st
  pure st.events


/-- The full event sequence of a successful build, by option flags. -/
def buildEvents (opts : BuildOpts) : List String :=
  (if opts.ecma262Biblio then ["loadECMA262Biblio"] else []) ++
  ["loadBiblios", "loadImports", "buildBoilerplate"] ++
  (if opts.lintSpec then ["lint"] else []) ++
  ["walk", "setReplacementAlgorithmOffsets", "autolink", "xrefs", "ntRefs",
   "prodRefs", "buildReferenceGraph", "highlightCode", "setCharset",
   "setFirstH1Class", "buildSpecWrapper"] ++
  (if opts.toc then (if opts.oldToc then ["tocOld"] else ["tocMenu"]) else []) ++
  ["buildAssets"]

/-- Closed form of the build outcome: the three cancellation checks happen at
clock times 0, 1, 3 (with the ECMA-262 biblio) or 0, 2 (without); any other
schedule lets the build run to completion. -/
def buildOutcome (opts : BuildOpts) (sched : Nat → Bool) :
    Except (List String) (List String) :=
  if sched 0 then Except.error []
  else if opts.ecma262Biblio then
    if sched 1 then Except.error ["loadECMA262Biblio"]
    else if sched 3 then Except.error ["loadECMA262Biblio", "loadBiblios", "loadImports"]
    else Except.ok (buildEvents opts)
  else
    if sched 2 then Except.error ["loadBiblios", "loadImports"]
    else Except.ok (buildEvents opts)

/-- The build pipeline agrees with its closed form on every option record and
every cancellation schedule. -/
theorem build_eval (opts : BuildOpts) (sched : Nat → Bool) :
    build opts sched = buildOutcome opts sched := by
  obtain ⟨e, l, t, o⟩ := opts
  cases e
  case false =>
    by_cases h0 : sched 0 = true
    · simp [build, buildOutcome, buildEvents, loadECMA262Biblio, loadBiblios, loadImports,
        buildBoilerplate, throwIfCancellationRequested, phase, bind, Except.bind, pure,
        Except.pure, h0]
    · by_cases h2 : sched 2 = true
      · simp [build, buildOutcome, buildEvents, loadECMA262Biblio, loadBiblios, loadImports,
          buildBoilerplate, throwIfCancellationRequested, phase, bind, Except.bind, pure,
          Except.pure, h0, h2]
      · cases l <;> cases t <;> cases o <;>
          simp [build, buildOutcome, buildEvents, loadECMA262Biblio, loadBiblios, loadImports,
            buildBoilerplate, throwIfCancellationRequested, phase, bind, Except.bind, pure,
            Except.pure, h0, h2]
  case true =>
    by_cases h0 : sched 0 = true
    · simp [build, buildOutcome, buildEvents, loadECMA262Biblio, loadBiblios, loadImports,
        buildBoilerplate, throwIfCancellationRequested, phase, bind, Except.bind, pure,
        Except.pure, h0]
    · by_cases h1 : sched 1 = true
      · simp [build, buildOutcome, buildEvents, loadECMA262Biblio, loadBiblios, loadImports,
          buildBoilerplate, throwIfCancellationRequested, phase, bind, Except.bind, pure,
          Except.pure, h0, h1]
      · by_cases h3 : sched 3 = true
        · simp [build, buildOutcome, buildEvents, loadECMA262Biblio, loadBiblios, loadImports,
            buildBoilerplate, throwIfCancellationRequested, phase, bind, Except.bind, pure,
            Except.pure, h0, h1, h3]
        · cases l <;> cases t <;> cases o <;>
            simp [build, buildOutcome, buildEvents, loadECMA262Biblio, loadBiblios, loadImports,
              buildBoilerplate, throwIfCancellationRequested, phase, bind, Except.bind, pure,
              Except.pure, h0, h1, h3]

/-- A successful build performs exactly the phases selected by the options. -/
theorem build_ok_shape (opts : BuildOpts) (sched : Nat → Bool) (ev : List String)
    (h : build opts sched = Except.ok ev) : ev = buildEvents opts := by
  rw [build_eval] at h
  unfold buildOutcome at h
  split_ifs at h <;> simp_all

/-- C6, counterexample. The cancellation token is NOT checked at the start
of import loading or of replacement-step resolution: with the token set from
clock time 2 on, import loading still runs (the abort only happens at the
boilerplate check, after "loadImports" is already among the performed
events); with the token set from time 4 on — before the walk and the
replacement-step resolver — the build ignores it and completes normally. -/
theorem build_cancellation_counterexample :
  (build ⟨true, false, false, false⟩ (fun t => decide (2 ≤ t)) =
     Except.error ["loadECMA262Biblio", "loadBiblios", "loadImports"]) ∧
  (build ⟨true, false, false, false⟩ (fun t => decide (4 ≤ t)) =
     Except.ok ["loadECMA262Biblio", "loadBiblios", "loadImports", "buildBoilerplate",
       "walk", "setReplacementAlgorithmOffsets", "autolink", "xrefs", "ntRefs",
       "prodRefs", "buildReferenceGraph", "highlightCode", "setCharset",
       "setFirstH1Class", "buildSpecWrapper", "buildAssets"]) := ⟨rfl, rfl⟩

/-- C6 (amended). Cancellation is cooperative and committing no partial
output, but the checks sit only in the two biblio-loading phases and in
boilerplate construction: a token set at the start aborts with no event
performed; a never-set token lets the build succeed; and every cancellation
abort happens before the walk, the replacement-step resolver and asset
emission run, the events performed so far being a subsequence of the three
loading phases. -/
theorem build_cancellation (opts : BuildOpts) (sched : Nat → Bool) :
    (sched 0 = true → build opts sched = Except.error []) ∧
    ((∀ t, sched t = false) → ∃ ev, build opts sched = Except.ok ev) ∧
    (∀ ev, build opts sched = Except.error ev →
      ev.Sublist ["loadECMA262Biblio", "loadBiblios", "loadImports"]) := by
  refine ⟨fun h0 => ?_, fun hn => ?_, fun ev hev => ?_⟩
  · rw [build_eval]; unfold buildOutcome; simp [h0]
  · rw [build_eval]; unfold buildOutcome; simp [hn]
  · rw [build_eval] at hev
    unfold buildOutcome at hev
    split_ifs at hev <;> simp_all
    all_goals subst hev
    all_goals decide

/-- C6, witness: a token set from the start aborts with no events; a token
never set lets the build complete; the events of an aborted run are a
subsequence of the loading phases. -/
theorem build_cancellation_witness :
    (build ⟨true, true, true, true⟩ (fun _ => true) = Except.error []) ∧
    (∃ ev, build ⟨true, true, true, true⟩ (fun _ => false) = Except.ok ev) ∧
    List.Sublist ["loadBiblios", "loadImports"]
      ["loadECMA262Biblio", "loadBiblios", "loadImports"] :=
  ⟨(build_cancellation ⟨true, true, true, true⟩ (fun _ => true)).1 rfl,
   (build_cancellation ⟨true, true, true, true⟩ (fun _ => false)).2.1 (fun _ => rfl),
   (build_cancellation ⟨false, false, false, false⟩ (fun t => decide (2 ≤ t))).2.2
     ["loadBiblios", "loadImports"] rfl⟩

/-- C7, counterexample. In a successful run the autolinker fires immediately
after the replacement-step resolver and BEFORE the reference resolver
(xrefs, ntRefs, prodRefs): the claimed order resolver–references–autolinker
is not a subsequence of the actual event sequence. -/
theorem build_order_counterexample :
    build ⟨false, false, false, false⟩ (fun _ => false) =
      Except.ok ["loadBiblios", "loadImports", "buildBoilerplate", "walk",
        "setReplacementAlgorithmOffsets", "autolink", "xrefs", "ntRefs", "prodRefs",
        "buildReferenceGraph", "highlightCode", "setCharset", "setFirstH1Class",
        "buildSpecWrapper", "buildAssets"] ∧
    ¬ (["walk", "setReplacementAlgorithmOffsets", "xrefs", "ntRefs", "prodRefs",
        "autolink"].Sublist
        ["loadBiblios", "loadImports", "buildBoilerplate", "walk",
         "setReplacementAlgorithmOffsets", "autolink", "xrefs", "ntRefs", "prodRefs",
         "buildReferenceGraph", "highlightCode", "setCharset", "setFirstH1Class",
         "buildSpecWrapper", "buildAssets"]) := ⟨rfl, by decide⟩

/-- C7 (amended). Every successful build performs, contiguously and in this
order, the block: walk, replacement-step resolver, autolinker, xref linking,
non-terminal reference linking, production reference linking, reference
graph — so the post-traversal passes do start only after the walk completes,
but the autolinker runs before the reference resolver, not after it. -/
theorem build_phase_order (opts : BuildOpts) (sched : Nat → Bool) (ev : List String)
    (h : build opts sched = Except.ok ev) :
    ∃ p q, ev = p ++ ["walk", "setReplacementAlgorithmOffsets", "autolink", "xrefs",
      "ntRefs", "prodRefs", "buildReferenceGraph"] ++ q := by
  have hs := build_ok_shape opts sched ev h
  subst hs
  refine ⟨(if opts.ecma262Biblio then ["loadECMA262Biblio"] else []) ++
    ["loadBiblios", "loadImports", "buildBoilerplate"] ++
    (if opts.lintSpec then ["lint"] else []),
    ["highlightCode", "setCharset", "setFirstH1Class", "buildSpecWrapper"] ++
    (if opts.toc then (if opts.oldToc then ["tocOld"] else ["tocMenu"]) else []) ++
    ["buildAssets"], ?_⟩
  simp [buildEvents, List.append_assoc]

/-- C7, witness: the events of a concrete successful run split around the
seven-phase post-walk block. -/
theorem build_phase_order_witness :
    ∃ p q, ["loadBiblios", "loadImports", "buildBoilerplate", "walk",
      "setReplacementAlgorithmOffsets", "autolink", "xrefs", "ntRefs", "prodRefs",
      "buildReferenceGraph", "highlightCode", "setCharset", "setFirstH1Class",
      "buildSpecWrapper", "buildAssets"] =
      p ++ ["walk", "setReplacementAlgorithmOffsets", "autolink", "xrefs",
        "ntRefs", "prodRefs", "buildReferenceGraph"] ++ q :=
  build_phase_order ⟨false, false, false, false⟩ (fun _ => false) _ rfl

/-! Injectivity of the decimal printer used by the `_ref_${counter++}` id
mint of buildReferenceGraph. -/

/-- Decimal digit list of a natural number, most significant first; agrees
with the list built by Nat.toDigitsCore at base 10. -/
def digitsOf (n : Nat) : List Char :=
  if _h : n < 10 then [Nat.digitChar n]
  else digitsOf (n / 10) ++ [Nat.digitChar (n % 10)]
decreasing_by exact Nat.div_lt_self (by omega) (by omega)

/-- Numeric value of a decimal digit character. -/
def digitVal (c : Char) : Nat :=
  if c = '0' then 0 else if c = '1' then 1 else if c = '2' then 2 else
  if c = '3' then 3 else if c = '4' then 4 else if c = '5' then 5 else
  if c = '6' then 6 else if c = '7' then 7 else if c = '8' then 8 else
  if c = '9' then 9 else 0

/-- Value of a most-significant-first digit string. -/
def valOf (ds : List Char) : Nat :=
  ds.foldl (fun a c => a * 10 + digitVal c) 0

theorem digitVal_digitChar {d : Nat} (h : d < 10) :
    digitVal (Nat.digitChar d) = d := by
  interval_cases d <;> decide

theorem valOf_append_singleton (xs : List Char) (c : Char) :
    valOf (xs ++ [c]) = valOf xs * 10 + digitVal c := by
  simp [valOf, List.foldl_append]

theorem valOf_digitsOf (n : Nat) : valOf (digitsOf n) = n := by
  induction n using Nat.strong_induction_on with
  | _ n IH =>
    rw [digitsOf]
    by_cases h : n < 10
    · simp only [h, dite_true]
      simp [valOf, digitVal_digitChar h]
    · simp only [h, dite_false]
      rw [valOf_append_singleton, IH (n / 10) (Nat.div_lt_self (by omega) (by omega)),
        digitVal_digitChar (Nat.mod_lt n (by omega))]
      omega

theorem toDigitsCore_eq_digitsOf :
    ∀ fuel n ds, n < fuel →
      Nat.toDigitsCore 10 fuel n ds = digitsOf n ++ ds := by
  intro fuel
  induction fuel using Nat.strong_induction_on with
  | _ fuel IH =>
    intro n ds hn
    cases fuel with
    | zero => omega
    | succ f =>
      show (if n / 10 = 0 then Nat.digitChar (n % 10) :: ds
            else Nat.toDigitsCore 10 f (n / 10) (Nat.digitChar (n % 10) :: ds)) =
          digitsOf n ++ ds
      by_cases h : n < 10
      · have h0 : n / 10 = 0 := Nat.div_eq_of_lt h
        rw [if_pos h0, digitsOf]
        simp [h, Nat.mod_eq_of_lt h]
      · have h0 : ¬ n / 10 = 0 := by
          have : 0 < n / 10 := Nat.div_pos (by omega) (by omega)
          omega
        have hlt : n / 10 < n := Nat.div_lt_self (by omega) (by omega)
        rw [if_neg h0, IH f (by omega) (n / 10) (Nat.digitChar (n % 10) :: ds) (by omega)]
        conv_rhs => rw [digitsOf]
        simp [h]

theorem digitsOf_injective {n m : Nat} (h : digitsOf n = digitsOf m) : n = m := by
  have := congrArg valOf h
  rwa [valOf_digitsOf, valOf_digitsOf] at this

theorem toDigits_eq_digitsOf (n : Nat) : Nat.toDigits 10 n = digitsOf n := by
  rw [Nat.toDigits, toDigitsCore_eq_digitsOf (n + 1) n [] (by omega), List.append_nil]

theorem repr_injective {n m : Nat} (h : Nat.repr n = Nat.repr m) : n = m := by
  have hd : (Nat.toDigits 10 n).asString = (Nat.toDigits 10 m).asString := h
  have hlist : Nat.toDigits 10 n = Nat.toDigits 10 m := by
    have h2 := congrArg String.data hd
    simpa [List.asString] using h2
  rw [toDigits_eq_digitsOf, toDigits_eq_digitsOf] at hlist
  exact digitsOf_injective hlist

/-- The id minted for counter value k: the template literal `_ref_${k}`. -/
def mkRef (k : Nat) : String := "_ref_" ++ Nat.repr k

theorem string_data_append (s t : String) : (s ++ t).data = s.data ++ t.data := by
  cases s
  cases t
  rfl

theorem string_ext {s t : String} (h : s.data = t.data) : s = t := by
  cases s
  cases t
  exact congrArg String.mk h

theorem mkRef_injective : Function.Injective mkRef := by
  intro a b h
  apply repr_injective
  have hd := congrArg String.data h
  rw [mkRef, mkRef, string_data_append, string_data_append] at hd
  exact string_ext (List.append_cancel_left hd)

/-! The buildReferenceGraph pass (Spec.ts). -/

/-- A biblio entry as consulted by buildReferenceGraph: its own id, the
forwarding refId (for step entries rectified by the replacement resolver),
its namespace and the accumulated referencing ids. -/
structure BEntry where
  id : Option String
  refId : Option String
  ns : String
  referencingIds : List String
deriving Repr, DecidableEq

/-- biblio.byId: the index of the first entry stored under the given id. -/
def byId (store : List BEntry) (key : String) : Option Nat :=
  match store with
  | [] => none
  | e :: rest =>
    if e.id == some key then some 0 else (byId rest key).map (· + 1)

/-- An xref as seen by buildReferenceGraph: the index of its resolved biblio
entry (none when the lookup failed) and the id attribute of its node. -/
structure GXref where
  entry : Option Nat
  xid : Option String
deriving Repr, DecidableEq

/-- A non-terminal reference: its resolved entry, the tag name of its node's
parent, and the id attribute of its node. -/
structure GNt where
  entry : Option Nat
  parentName : String
  nid : Option String
deriving Repr, DecidableEq

/-- The pass state: the biblio store, the fresh-id counter, and — as a pure
history variable — the list of counter values consumed by the
`_ref_${counter++}` mint, so that freshness is expressible. -/
structure RGState where
  store : List BEntry
  counter : Nat
  minted : List Nat
deriving Repr, DecidableEq

/-- entry.referencingIds.push(id) on the entry at a store index. -/
def pushRef (store : List BEntry) (i : Nat) (id : String) : List BEntry :=
  match store.get? i with
  | some e => store.set i { e with referencingIds := e.referencingIds ++ [id] }
  | none => store

/-- The redirect `if (!entry.id && entry.refId) entry = biblio.byId(entry.refId)`:
the index the xref's push goes to. -/
def redirectTarget (store : List BEntry) (i : Nat) (e : BEntry) : Option Nat :=
  match e.id, e.refId with
  | none, some r => byId store r
  | _, _ => some i

/-- One iteration of the `this._xrefs.forEach` loop of buildReferenceGraph:
skip unresolved and global entries; follow the refId redirect; mint a fresh
id `_ref_${counter++}` only if the node has none; push the node's id onto
the target entry's referencingIds.  A failed redirect is the TypeError the
source would throw when pushing on undefined. -/
def xrefStep (st : RGState) (x : GXref) : Except String (RGState × GXref) :=
  match x.entry with
  | none => Except.ok (st, x)
  | some i =>
    match st.store.get? i with
    | none => Except.error "dangling biblio entry"
    | some e =>
      if e.ns == "global" then Except.ok (st, x)
      else
        match redirectTarget st.store i e with
        | none => Except.error "byId: unknown refId"
        | some j =>
          match x.xid with
          | some v => Except.ok ({ st with store := pushRef st.store j v }, x)
          | none =>
            Except.ok ({ store := pushRef st.store j (mkRef st.counter),
                         counter := st.counter + 1,
                         minted := st.minted ++ [st.counter] },
                       { x with xid := some (mkRef st.counter) })

/-- One iteration of the `this._ntRefs.forEach` loop: skip unresolved and
global entries and the defining occurrence inside an emu-production;
otherwise ALWAYS mint `_ref_${counter++}` (any id the node already carries
is overwritten) and push it onto the entry's referencingIds. -/
def ntStep (st : RGState) (p : GNt) : Except String (RGState × GNt) :=
  match p.entry with
  | none => Except.ok (st, p)
  | some i =>
    match st.store.get? i with
    | none => Except.error "dangling biblio entry"
    | some e =>
      if e.ns == "global" then Except.ok (st, p)
      else if p.parentName == "EMU-PRODUCTION" then Except.ok (st, p)
      else
        Except.ok ({ store := pushRef st.store i (mkRef st.counter),
                     counter := st.counter + 1,
                     minted := st.minted ++ [st.counter] },
                   { p with nid := some (mkRef st.counter) })

/-- The xref forEach loop. -/
def rgFoldX : RGState → List GXref → Except String (RGState × List GXref)
  | st, [] => Except.ok (st, [])
  | st, x :: xs => do
    let (st1, x1) ← xrefStep st x
    let (st2, xs1) ← rgFoldX st1 xs
    pure (st2, x1 :: xs1)

/-- The ntRef forEach loop. -/
def rgFoldN : RGState → List GNt → Except String (RGState × List GNt)
  | st, [] => Except.ok (st, [])
  | st, p :: ps => do
    let (st1, p1) ← ntStep st p
    let (st2, ps1) ← rgFoldN st1 ps
    pure (st2, p1 :: ps1)

/-- buildReferenceGraph (Spec.ts): `let counter = 0`, the xref loop, then the
ntRef loop, one counter shared across both. -/
def buildReferenceGraph (store : List BEntry) (xrefs : List GXref)
    (nts : List GNt) : Except String (RGState × List GXref × List GNt) := do
  let (st1, xs) ← rgFoldX ⟨store, 0, []⟩ xrefs
  let (st2, ns) ← rgFoldN st1 nts
  pure (st2, xs, ns)

/-- byId only returns indices of present entries. -/
theorem byId_get (store : List BEntry) (key : String) :
    ∀ j, byId store key = some j → ∃ e, store.get? j = some e := by
  induction store with
  | nil => intro j h; simp [byId] at h
  | cons e rest IH =>
    intro j h
    rw [byId] at h
    by_cases he : e.id == some key
    · rw [if_pos he] at h
      injection h with h
      exact ⟨e, by rw [← h]; rfl⟩
    · rw [if_neg he] at h
      cases hr : byId rest key with
      | none => rw [hr] at h; simp at h
      | some j0 =>
        rw [hr] at h
        simp at h
        obtain ⟨e0, he0⟩ := IH j0 hr
        exact ⟨e0, by rw [← h]; simpa using he0⟩

/-- A redirect target always lands on a present entry. -/
theorem redirectTarget_get (store : List BEntry) (i : Nat) (e : BEntry)
    (hi : store.get? i = some e) :
    ∀ j, redirectTarget store i e = some j → ∃ ej, store.get? j = some ej := by
  intro j h
  unfold redirectTarget at h
  cases hid : e.id with
  | some v =>
    rw [hid] at h
    injection h with h
    exact ⟨e, by rw [← h]; exact hi⟩
  | none =>
    rw [hid] at h
    cases hrf : e.refId with
    | none =>
      rw [hrf] at h
      injection h with h
      exact ⟨e, by rw [← h]; exact hi⟩
    | some r =>
      rw [hrf] at h
      exact byId_get store r j h

/-- Case analysis of one xref iteration: either nothing changes, or the final
id — kept when the node already has one, freshly minted exactly when it has
none — is appended to the target entry's referencingIds. -/
theorem xrefStep_cases (st : RGState) (x : GXref) (st' : RGState) (x' : GXref)
    (h : xrefStep st x = Except.ok (st', x')) :
    (st' = st ∧ x' = x) ∨
    ∃ j e fid, st.store.get? j = some e ∧ x'.xid = some fid ∧
      st'.store = st.store.set j
        { e with referencingIds := e.referencingIds ++ [fid] } ∧
      ((x.xid = some fid ∧ st'.counter = st.counter ∧ st'.minted = st.minted) ∨
       (x.xid = none ∧ fid = mkRef st.counter ∧ st'.counter = st.counter + 1 ∧
        st'.minted = st.minted ++ [st.counter])) := by
  unfold xrefStep at h
  cases hx : x.entry with
  | none =>
    rw [hx] at h
    simp at h
    exact Or.inl ⟨h.1.symm, h.2.symm⟩
  | some i =>
    rw [hx] at h
    simp only [] at h
    cases hg : st.store.get? i with
    | none => rw [hg] at h; simp at h
    | some e =>
      rw [hg] at h
      simp only [] at h
      by_cases hns : e.ns == "global"
      · rw [if_pos hns] at h
        simp at h
        exact Or.inl ⟨h.1.symm, h.2.symm⟩
      · rw [if_neg hns] at h
        cases hr : redirectTarget st.store i e with
        | none => rw [hr] at h; simp at h
        | some j =>
          rw [hr] at h
          simp only [] at h
          obtain ⟨ej, hej⟩ := redirectTarget_get st.store i e hg j hr
          cases hxid : x.xid with
          | some v =>
            rw [hxid] at h
            simp at h
            obtain ⟨hst, hx'⟩ := h
            refine Or.inr ⟨j, ej, v, hej, ?_, ?_, Or.inl ⟨rfl, ?_, ?_⟩⟩
            · rw [← hx', hxid]
            · rw [← hst]
              show pushRef st.store j v = _
              unfold pushRef
              rw [hej]
            · rw [← hst]
            · rw [← hst]
          | none =>
            rw [hxid] at h
            simp at h
            obtain ⟨hst, hx'⟩ := h
            refine Or.inr ⟨j, ej, mkRef st.counter, hej, ?_, ?_,
              Or.inr ⟨rfl, rfl, ?_, ?_⟩⟩
            · rw [← hx']
            · rw [← hst]
              show pushRef st.store j (mkRef st.counter) = _
              unfold pushRef
              rw [hej]
            · rw [← hst]
            · rw [← hst]

/-- Case analysis of one ntRef iteration: either nothing changes, or a fresh
id is minted — regardless of any id the node already carries — and appended
to the entry's referencingIds. -/
theorem ntStep_cases (st : RGState) (p : GNt) (st' : RGState) (p' : GNt)
    (h : ntStep st p = Except.ok (st', p')) :
    (st' = st ∧ p' = p) ∨
    ∃ i e, p.entry = some i ∧ st.store.get? i = some e ∧
      p'.nid = some (mkRef st.counter) ∧
      st'.store = st.store.set i
        { e with referencingIds := e.referencingIds ++ [mkRef st.counter] } ∧
      st'.counter = st.counter + 1 ∧ st'.minted = st.minted ++ [st.counter] := by
  unfold ntStep at h
  cases hx : p.entry with
  | none =>
    rw [hx] at h
    simp at h
    exact Or.inl ⟨h.1.symm, h.2.symm⟩
  | some i =>
    rw [hx] at h
    simp only [] at h
    cases hg : st.store.get? i with
    | none => rw [hg] at h; simp at h
    | some e =>
      rw [hg] at h
      simp only [] at h
      by_cases hns : e.ns == "global"
      · rw [if_pos hns] at h
        simp at h
        exact Or.inl ⟨h.1.symm, h.2.symm⟩
      · rw [if_neg hns] at h
        by_cases hpar : p.parentName == "EMU-PRODUCTION"
        · rw [if_pos hpar] at h
          simp at h
          exact Or.inl ⟨h.1.symm, h.2.symm⟩
        · rw [if_neg hpar] at h
          simp at h
          obtain ⟨hst, hp'⟩ := h
          refine Or.inr ⟨i, e, rfl, hg, ?_, ?_, ?_, ?_⟩
          · rw [← hp']
          · rw [← hst]
            show pushRef st.store i (mkRef st.counter) = _
            unfold pushRef
            rw [hg]
          · rw [← hst]
          · rw [← hst]

/-- One xref iteration extends the mint history by exactly the counter values
it consumes. -/
theorem xrefStep_minted (st : RGState) (x : GXref) (st' : RGState) (x' : GXref)
    (h : xrefStep st x = Except.ok (st', x')) :
    st.counter ≤ st'.counter ∧
    st'.minted = st.minted ++ List.range' st.counter (st'.counter - st.counter) := by
  rcases xrefStep_cases st x st' x' h with ⟨hst, _⟩ | ⟨j, e, fid, _, _, _, hc⟩
  · subst hst; simp
  · rcases hc with ⟨_, hc1, hm⟩ | ⟨_, _, hc1, hm⟩
    · rw [hc1, hm]; simp
    · rw [hc1, hm]
      have h1 : st.counter + 1 - st.counter = 1 := by omega
      rw [h1]
      simp [List.range']

/-- One ntRef iteration extends the mint history by exactly the counter
values it consumes. -/
theorem ntStep_minted (st : RGState) (p : GNt) (st' : RGState) (p' : GNt)
    (h : ntStep st p = Except.ok (st', p')) :
    st.counter ≤ st'.counter ∧
    st'.minted = st.minted ++ List.range' st.counter (st'.counter - st.counter) := by
  rcases ntStep_cases st p st' p' h with ⟨hst, _⟩ | ⟨i, e, _, _, _, _, hc1, hm⟩
  · subst hst; simp
  · rw [hc1, hm]
    have h1 : st.counter + 1 - st.counter = 1 := by omega
    rw [h1]
    simp [List.range']

theorem range'_glue (c c1 c2 : Nat) (h1 : c ≤ c1) (h2 : c1 ≤ c2) :
    List.range' c (c1 - c) ++ List.range' c1 (c2 - c1) = List.range' c (c2 - c) := by
  have hthis := List.range'_append c (c1 - c) (c2 - c1) 1
  simp only [one_mul, Nat.mul_one] at hthis
  have hc1 : c + (c1 - c) = c1 := by omega
  rw [hc1] at hthis
  rw [hthis]
  congr 1
  omega

/-- The xref loop extends the mint history by the counter interval it
consumes. -/
theorem rgFoldX_minted :
    ∀ (xs : List GXref) (st st' : RGState) (xs' : List GXref),
      rgFoldX st xs = Except.ok (st', xs') →
      st.counter ≤ st'.counter ∧
      st'.minted = st.minted ++ List.range' st.counter (st'.counter - st.counter) := by
  intro xs
  induction xs with
  | nil =>
    intro st st' xs' h
    rw [rgFoldX] at h
    simp at h
    rw [← h.1]
    simp
  | cons x xs IH =>
    intro st st' xs' h
    rw [rgFoldX] at h
    cases hstep : xrefStep st x with
    | error e => rw [hstep] at h; simp [bind, Except.bind] at h
    | ok q =>
      obtain ⟨st1, x1⟩ := q
      rw [hstep] at h
      simp only [bind, Except.bind] at h
      cases hrest : rgFoldX st1 xs with
      | error e => rw [hrest] at h; simp at h
      | ok q2 =>
        obtain ⟨st2, xs1⟩ := q2
        rw [hrest] at h
        simp [pure, Except.pure] at h
        obtain ⟨hs, _⟩ := h
        obtain ⟨hm1, hm2⟩ := xrefStep_minted st x st1 x1 hstep
        obtain ⟨hn1, hn2⟩ := IH st1 st' xs1 (by exact hs ▸ hrest)
        constructor
        · omega
        · rw [hn2, hm2, List.append_assoc,
            range'_glue st.counter st1.counter st'.counter hm1 hn1]

/-- The ntRef loop extends the mint history by the counter interval it
consumes. -/
theorem rgFoldN_minted :
    ∀ (ps : List GNt) (st st' : RGState) (ps' : List GNt),
      rgFoldN st ps = Except.ok (st', ps') →
      st.counter ≤ st'.counter ∧
      st'.minted = st.minted ++ List.range' st.counter (st'.counter - st.counter) := by
  intro ps
  induction ps with
  | nil =>
    intro st st' ps' h
    rw [rgFoldN] at h
    simp at h
    rw [← h.1]
    simp
  | cons p ps IH =>
    intro st st' ps' h
    rw [rgFoldN] at h
    cases hstep : ntStep st p with
    | error e => rw [hstep] at h; simp [bind, Except.bind] at h
    | ok q =>
      obtain ⟨st1, p1⟩ := q
      rw [hstep] at h
      simp only [bind, Except.bind] at h
      cases hrest : rgFoldN st1 ps with
      | error e => rw [hrest] at h; simp at h
      | ok q2 =>
        obtain ⟨st2, ps1⟩ := q2
        rw [hrest] at h
        simp [pure, Except.pure] at h
        obtain ⟨hs, _⟩ := h
        obtain ⟨hm1, hm2⟩ := ntStep_minted st p st1 p1 hstep
        obtain ⟨hn1, hn2⟩ := IH st1 st' ps1 (by exact hs ▸ hrest)
        constructor
        · omega
        · rw [hn2, hm2, List.append_assoc,
            range'_glue st.counter st1.counter st'.counter hm1 hn1]

/-- Along the xref loop, a node that has an id keeps it. -/
theorem rgFoldX_keep :
    ∀ (xs : List GXref) (st st' : RGState) (xs' : List GXref),
      rgFoldX st xs = Except.ok (st', xs') →
      xs'.length = xs.length ∧
      ∀ (k : Nat) (x x' : GXref), xs[k]? = some x → xs'[k]? = some x' →
        ∀ v, x.xid = some v → x'.xid = some v := by
  intro xs
  induction xs with
  | nil =>
    intro st st' xs' h
    rw [rgFoldX] at h
    simp at h
    obtain ⟨h1, h2⟩ := h
    subst h2
    refine ⟨rfl, ?_⟩
    intro k x x' hk hk' v hv
    simp at hk
  | cons x xs IH =>
    intro st st' xs' h
    rw [rgFoldX] at h
    cases hstep : xrefStep st x with
    | error e => rw [hstep] at h; simp [bind, Except.bind] at h
    | ok q =>
      obtain ⟨st1, x1⟩ := q
      rw [hstep] at h
      simp only [bind, Except.bind] at h
      cases hrest : rgFoldX st1 xs with
      | error e => rw [hrest] at h; simp at h
      | ok q2 =>
        obtain ⟨st2, xs1⟩ := q2
        rw [hrest] at h
        simp [pure, Except.pure] at h
        obtain ⟨hs, hxs⟩ := h
        obtain ⟨hlen, htail⟩ := IH st1 st' xs1 (by exact hs ▸ hrest)
        rw [← hxs]
        constructor
        · simp [hlen]
        · intro k y y' hk hk' v hv
          cases k with
          | zero =>
            simp at hk hk'
            subst hk
            subst hk'
            rcases xrefStep_cases st x st1 x1 hstep with ⟨_, hx1⟩ | ⟨j, e, fid, _, hxid1, _, hc⟩
            · rw [hx1]; exact hv
            · rcases hc with ⟨hkeep, _, _⟩ | ⟨hnone, _, _⟩
              · rw [hxid1]
                rw [hkeep] at hv
                exact hv
              · rw [hnone] at hv
                simp at hv
          | succ k0 =>
            simp at hk hk'
            exact htail k0 y y' hk hk' v hv

/-- Along the ntRef loop, every node is either skipped or given an id minted
from the counter interval the loop consumes. -/
theorem rgFoldN_fresh :
    ∀ (ps : List GNt) (st st' : RGState) (ps' : List GNt),
      rgFoldN st ps = Except.ok (st', ps') →
      ps'.length = ps.length ∧
      ∀ (k : Nat) (p p' : GNt), ps[k]? = some p → ps'[k]? = some p' →
        p' = p ∨ ∃ m, st.counter ≤ m ∧ m < st'.counter ∧ p'.nid = some (mkRef m) := by
  intro ps
  induction ps with
  | nil =>
    intro st st' ps' h
    rw [rgFoldN] at h
    simp at h
    obtain ⟨h1, h2⟩ := h
    subst h2
    refine ⟨rfl, ?_⟩
    intro k p p' hk hk'
    simp at hk
  | cons p ps IH =>
    intro st st' ps' h
    rw [rgFoldN] at h
    cases hstep : ntStep st p with
    | error e => rw [hstep] at h; simp [bind, Except.bind] at h
    | ok q =>
      obtain ⟨st1, p1⟩ := q
      rw [hstep] at h
      simp only [bind, Except.bind] at h
      cases hrest : rgFoldN st1 ps with
      | error e => rw [hrest] at h; simp at h
      | ok q2 =>
        obtain ⟨st2, ps1⟩ := q2
        rw [hrest] at h
        simp [pure, Except.pure] at h
        obtain ⟨hs, hps⟩ := h
        obtain ⟨hlen, htail⟩ := IH st1 st' ps1 (by exact hs ▸ hrest)
        obtain ⟨hmono1, _⟩ := ntStep_minted st p st1 p1 hstep
        obtain ⟨hmono2, _⟩ := rgFoldN_minted ps st1 st' ps1 (by exact hs ▸ hrest)
        rw [← hps]
        constructor
        · simp [hlen]
        · intro k y y' hk hk'
          cases k with
          | zero =>
            simp at hk hk'
            subst hk
            subst hk'
            rcases ntStep_cases st p st1 p1 hstep with ⟨_, hp1⟩ | ⟨i, e, _, _, hnid, _, hc1, _⟩
            · exact Or.inl hp1
            · exact Or.inr ⟨st.counter, le_refl _, by omega, hnid⟩
          | succ k0 =>
            simp at hk hk'
            rcases htail k0 y y' hk hk' with hsame | ⟨m, hm1, hm2, hm3⟩
            · exact Or.inl hsame
            · exact Or.inr ⟨m, by omega, hm2, hm3⟩

/-- Splitting a successful run into its two loops, and the run's mint
history: exactly the counter values 0, 1, ..., final counter - 1, in order. -/
theorem buildReferenceGraph_split (store : List BEntry) (xrefs : List GXref)
    (nts : List GNt) (st' : RGState) (xs' : List GXref) (ns' : List GNt)
    (h : buildReferenceGraph store xrefs nts = Except.ok (st', xs', ns')) :
    st'.minted = List.range st'.counter ∧
    ∃ st1, rgFoldX ⟨store, 0, []⟩ xrefs = Except.ok (st1, xs') ∧
      rgFoldN st1 nts = Except.ok (st', ns') := by
  unfold buildReferenceGraph at h
  cases hx : rgFoldX ⟨store, 0, []⟩ xrefs with
  | error e => rw [hx] at h; simp [bind, Except.bind] at h
  | ok q =>
    obtain ⟨st1, xs1⟩ := q
    rw [hx] at h
    simp only [bind, Except.bind] at h
    cases hn : rgFoldN st1 nts with
    | error e => rw [hn] at h; simp at h
    | ok q2 =>
      obtain ⟨st2, ns1⟩ := q2
      rw [hn] at h
      simp [pure, Except.pure] at h
      obtain ⟨hs, hxs, hns⟩ := h
      subst hs
      subst hxs
      subst hns
      obtain ⟨ha1, ha2⟩ := rgFoldX_minted xrefs ⟨store, 0, []⟩ st1 xs1 hx
      obtain ⟨hb1, hb2⟩ := rgFoldN_minted nts st1 st2 ns1 hn
      constructor
      · rw [hb2, ha2]
        simp only [List.nil_append, Nat.sub_zero]
        have hz : (0 : Nat) ≤ st1.counter := by omega
        have hh := range'_glue 0 st1.counter st2.counter hz hb1
        simp only [Nat.sub_zero] at hh
        rw [hh, List.range_eq_range']
      · exact ⟨st1, rfl, hn⟩

/-- C8, counterexample. A non-terminal reference node that already carries an
id is still given a freshly minted one: buildReferenceGraph overwrites its
id "existing" with the minted `_ref_0`, so ids are not assigned only to
nodes that lack one. -/
theorem reference_graph_counterexample :
    buildReferenceGraph [⟨some "tgt", none, "spec", []⟩] []
        [⟨some 0, "EMU-GRAMMAR", some "existing"⟩] =
      Except.ok (⟨[⟨some "tgt", none, "spec", [mkRef 0]⟩], 1, [0]⟩, [],
        [⟨some 0, "EMU-GRAMMAR", some (mkRef 0)⟩]) ∧
    mkRef 0 ≠ "existing" := ⟨rfl, by decide⟩

/-- C8 (amended). In a successful reference-graph pass, all ids are minted
from the single shared counter (the mint history is exactly 0..counter-1, so
the minted `_ref_k` ids are pairwise distinct); an xref node that already
carries an id keeps it and a fresh id is minted exactly when it lacks one,
with the final id appended to the target entry's referencingIds; a
non-terminal reference that is processed is ALWAYS given a freshly minted id
regardless of the id its node carries, likewise appended. -/
theorem reference_graph_ids (store : List BEntry) (xrefs : List GXref)
    (nts : List GNt) (st' : RGState) (xs' : List GXref) (ns' : List GNt)
    (h : buildReferenceGraph store xrefs nts = Except.ok (st', xs', ns')) :
    st'.minted = List.range st'.counter ∧
    (st'.minted.map mkRef).Nodup ∧
    (xs'.length = xrefs.length ∧
      ∀ (k : Nat) (x x' : GXref), xrefs[k]? = some x → xs'[k]? = some x' →
        ∀ v, x.xid = some v → x'.xid = some v) ∧
    (ns'.length = nts.length ∧
      ∀ (k : Nat) (p p' : GNt), nts[k]? = some p → ns'[k]? = some p' →
        p' = p ∨ ∃ m, m < st'.counter ∧ p'.nid = some (mkRef m)) ∧
    (∀ (st : RGState) (x : GXref) (st1 : RGState) (x1 : GXref),
      xrefStep st x = Except.ok (st1, x1) →
      (st1 = st ∧ x1 = x) ∨
      ∃ j e fid, st.store.get? j = some e ∧ x1.xid = some fid ∧
        st1.store = st.store.set j
          { e with referencingIds := e.referencingIds ++ [fid] } ∧
        ((x.xid = some fid ∧ st1.counter = st.counter ∧ st1.minted = st.minted) ∨
         (x.xid = none ∧ fid = mkRef st.counter ∧ st1.counter = st.counter + 1 ∧
          st1.minted = st.minted ++ [st.counter]))) ∧
    (∀ (st : RGState) (p : GNt) (st1 : RGState) (p1 : GNt),
      ntStep st p = Except.ok (st1, p1) →
      (st1 = st ∧ p1 = p) ∨
      ∃ i e, p.entry = some i ∧ st.store.get? i = some e ∧
        p1.nid = some (mkRef st.counter) ∧
        st1.store = st.store.set i
          { e with referencingIds := e.referencingIds ++ [mkRef st.counter] } ∧
        st1.counter = st.counter + 1 ∧ st1.minted = st.minted ++ [st.counter]) := by
  obtain ⟨hm, st1, hx, hn⟩ := buildReferenceGraph_split store xrefs nts st' xs' ns' h
  obtain ⟨hxlen, hxkeep⟩ := rgFoldX_keep xrefs ⟨store, 0, []⟩ st1 xs' hx
  obtain ⟨hnlen, hnfresh⟩ := rgFoldN_fresh nts st1 st' ns' hn
  refine ⟨hm, ?_, ⟨hxlen, hxkeep⟩, ⟨hnlen, ?_⟩, xrefStep_cases, ntStep_cases⟩
  · rw [hm]
    exact List.Nodup.map mkRef_injective (List.nodup_range _)
  · intro k p p' hk hk'
    rcases hnfresh k p p' hk hk' with h1 | ⟨m, _, hm2, hm3⟩
    · exact Or.inl h1
    · exact Or.inr ⟨m, hm2, hm3⟩

/-- C8, witness: on a one-entry biblio with one id-less xref and one
non-terminal reference, the run mints the distinct ids `_ref_0`, `_ref_1`. -/
theorem reference_graph_ids_witness :
    (([0, 1] : List Nat).map mkRef).Nodup :=
  (reference_graph_ids [⟨some "t", none, "spec-ns", []⟩]
    [⟨some 0, none⟩] [⟨some 0, "DIV", none⟩]
    ⟨[⟨some "t", none, "spec-ns", [mkRef 0, mkRef 1]⟩], 2, [0, 1]⟩
    [⟨some 0, some (mkRef 0)⟩] [⟨some 0, "DIV", some (mkRef 1)⟩] rfl).2.1

/-! Grammar.enter (Grammar.ts): content extraction for emu-grammar elements,
and the end-tag recovery scan
endTagRe = `<\/?(emu-\w+|h?\d|p|ul|table|pre|code)\b[^>]*>/i`. -/

/-- The regex word class \w: ASCII letters, digits and underscore. -/
def isWordChar (c : Char) : Bool :=
  c.isAlpha || c.isDigit || c == '_'

/-- Case-insensitive comparison against one ASCII letter, given in both
cases (the /i flag of endTagRe). -/
def ciIs (c lower upper : Char) : Bool :=
  c == lower || c == upper

/-- Length of the maximal leading run of word characters (the greedy \w+). -/
def takeWordLen : List Char → Nat
  | c :: rest => if isWordChar c then takeWordLen rest + 1 else 0
  | [] => 0

/-- What must follow the tag name: the word boundary \b (next character is
not a word character) and `[^>]*>` (some later `>` closes the tag). -/
def restOk : List Char → Bool
  | [] => false
  | c :: rest => !isWordChar c && (c :: rest).contains '>'

/-- The alternation `emu-\w+|h?\d|p|ul|table|pre|code` applied after the
optional slash, each alternative followed by the \b boundary and `[^>]*>`
check.  The \w+ of the emu arm is greedy: a shorter run would put the
boundary inside a word run, so only the maximal run can match. -/
def tagNameMatch (l2 : List Char) : Bool :=
  (match l2 with
   | a :: b :: c :: d :: w =>
     ciIs a 'e' 'E' && ciIs b 'm' 'M' && ciIs c 'u' 'U' && d == '-' &&
     decide (1 ≤ takeWordLen w) && restOk (w.drop (takeWordLen w))
   | _ => false) ||
  (match l2 with
   | a :: b :: r =>
     (ciIs a 'h' 'H' && b.isDigit && restOk r) || (a.isDigit && restOk (b :: r))
   | [a] => a.isDigit && restOk []
   | [] => false) ||
  (match l2 with
   | a :: r => ciIs a 'p' 'P' && restOk r
   | _ => false) ||
  (match l2 with
   | a :: b :: r => ciIs a 'u' 'U' && ciIs b 'l' 'L' && restOk r
   | _ => false) ||
  (match l2 with
   | a :: b :: c :: d :: e :: r =>
     ciIs a 't' 'T' && ciIs b 'a' 'A' && ciIs c 'b' 'B' && ciIs d 'l' 'L' &&
     ciIs e 'e' 'E' && restOk r
   | _ => false) ||
  (match l2 with
   | a :: b :: c :: r => ciIs a 'p' 'P' && ciIs b 'r' 'R' && ciIs c 'e' 'E' && restOk r
   | _ => false) ||
  (match l2 with
   | a :: b :: c :: d :: r =>
     ciIs a 'c' 'C' && ciIs b 'o' 'O' && ciIs c 'd' 'D' && ciIs d 'e' 'E' && restOk r
   | _ => false)

/-- The optional slash `\/?`: no alternative's first character can be a
slash, so a leading slash is always consumed when present. -/
def stripSlash (l : List Char) : List Char :=
  match l with
  | c :: r => if c == '/' then r else c :: r
  | [] => []

/-- Whether endTagRe matches at the start of the given suffix. -/
def tagMatchAt (l : List Char) : Bool :=
  match l with
  | c :: l1 => c == '<' && tagNameMatch (stripSlash l1)
  | [] => false

/-- endTagRe.exec: index of the first position where the pattern matches. -/
def findTagMatch : List Char → Option Nat
  | [] => none
  | c :: rest =>
    if tagMatchAt (c :: rest) then some 0 else (findTagMatch rest).map (· + 1)

/-- The claim's reading of the recovery tag set: headings h1 through h6 only,
and no bare-digit tags.  Modelled from the claim's words, to be compared
with tagNameMatch, the embedding of the source's endTagRe. -/
def claimedTagNameMatch (l2 : List Char) : Bool :=
  (match l2 with
   | a :: b :: c :: d :: w =>
     ciIs a 'e' 'E' && ciIs b 'm' 'M' && ciIs c 'u' 'U' && d == '-' &&
     decide (1 ≤ takeWordLen w) && restOk (w.drop (takeWordLen w))
   | _ => false) ||
  (match l2 with
   | a :: b :: r => ciIs a 'h' 'H' && ('1' ≤ b && b ≤ '6') && restOk r
   | _ => false) ||
  (match l2 with
   | a :: r => ciIs a 'p' 'P' && restOk r
   | _ => false) ||
  (match l2 with
   | a :: b :: r => ciIs a 'u' 'U' && ciIs b 'l' 'L' && restOk r
   | _ => false) ||
  (match l2 with
   | a :: b :: c :: d :: e :: r =>
     ciIs a 't' 'T' && ciIs b 'a' 'A' && ciIs c 'b' 'B' && ciIs d 'l' 'L' &&
     ciIs e 'e' 'E' && restOk r
   | _ => false) ||
  (match l2 with
   | a :: b :: c :: r => ciIs a 'p' 'P' && ciIs b 'r' 'R' && ciIs c 'e' 'E' && restOk r
   | _ => false) ||
  (match l2 with
   | a :: b :: c :: d :: r =>
     ciIs a 'c' 'C' && ciIs b 'o' 'O' && ciIs c 'd' 'D' && ciIs d 'e' 'E' && restOk r
   | _ => false)

/-- Match of the claim's tag set at the start of a suffix. -/
def claimedTagMatchAt (l : List Char) : Bool :=
  match l with
  | c :: l1 => c == '<' && claimedTagNameMatch (stripSlash l1)
  | [] => false

/-- First position where the claim's tag set matches. -/
def claimedFindTagMatch : List Char → Option Nat
  | [] => none
  | c :: rest =>
    if claimedTagMatchAt (c :: rest) then some 0
    else (claimedFindTagMatch rest).map (· + 1)

/-- What Grammar.enter reads from spec.locate(node): the source text, the
end offset of the located start tag, the start offset of the located end
tag (each when the parser found it), and the node's own end offset, where
the recovery scan begins. -/
structure GLocation where
  source : List Char
  startTag : Option Nat
  endTag : Option Nat
  endOffset : Nat

/-- String.prototype.slice on the source text. -/
def slice (s : List Char) (a b : Nat) : List Char :=
  (s.take b).drop a

/-- innerHTML.replace of every `&gt;` entity by `>`. -/
def replaceGt : List Char → List Char
  | '&' :: 'g' :: 't' :: ';' :: rest => '>' :: replaceGt rest
  | c :: rest => c :: replaceGt rest
  | [] => []

/-- The three content sources of Grammar.enter, with the possiblyMalformed
flag: both tags located → slice between them, still possibly malformed;
location without a matching end tag → scan the source from the node's end
offset for a possible end tag (globalEndTagRe) and slice up to it, no
longer possibly malformed; no location → innerHTML with `&gt;` decoded,
still possibly malformed. -/
def grammarContent (loc : Option GLocation) (innerHTML : List Char) :
    List Char × Bool :=
  match loc with
  | some l =>
    match l.startTag, l.endTag with
    | some st, some et => (slice l.source st et, true)
    | _, _ =>
      (slice l.source l.endOffset
        (match findTagMatch (l.source.drop l.endOffset) with
         | some i => l.endOffset + i
         | none => l.source.length), false)
  | none => (replaceGt innerHTML, true)

/-- The final recovery scan: truncate at the first endTagRe match. -/
def scanTruncate (content : List Char) : List Char :=
  match findTagMatch content with
  | some i => content.take i
  | none => content

/-- Grammar.enter's content value: the branch content, truncated at the
first possible end tag whenever it is still possibly malformed. -/
def grammarEnterContent (loc : Option GLocation) (innerHTML : List Char) :
    List Char :=
  match grammarContent loc innerHTML with
  | (content, possiblyMalformed) =>
    if possiblyMalformed then scanTruncate content else content

/-! The declarative reading of endTagRe, for the amended tag set. -/

/-- The amended tag-name set, on the raw (un-lowered) name: `emu-` followed
by a nonempty word-character run, an optional `h` or `H` followed by one
digit (so h0 through h9 AND bare digit tags, not just h1 through h6), and
the literals p, ul, table, pre, code, case-insensitively. -/
def specName (name : List Char) : Prop :=
  (∃ a b c w, name = a :: b :: c :: '-' :: w ∧
    (a = 'e' ∨ a = 'E') ∧ (b = 'm' ∨ b = 'M') ∧ (c = 'u' ∨ c = 'U') ∧
    w ≠ [] ∧ ∀ ch ∈ w, isWordChar ch = true) ∨
  (∃ a d, name = [a, d] ∧ (a = 'h' ∨ a = 'H') ∧ d.isDigit = true) ∨
  (∃ d, name = [d] ∧ d.isDigit = true) ∨
  (∃ a, name = [a] ∧ (a = 'p' ∨ a = 'P')) ∨
  (∃ a b, name = [a, b] ∧ (a = 'u' ∨ a = 'U') ∧ (b = 'l' ∨ b = 'L')) ∨
  (∃ a b c d e, name = [a, b, c, d, e] ∧ (a = 't' ∨ a = 'T') ∧
    (b = 'a' ∨ b = 'A') ∧ (c = 'b' ∨ c = 'B') ∧ (d = 'l' ∨ d = 'L') ∧
    (e = 'e' ∨ e = 'E')) ∨
  (∃ a b c, name = [a, b, c] ∧ (a = 'p' ∨ a = 'P') ∧ (b = 'r' ∨ b = 'R') ∧
    (c = 'e' ∨ c = 'E')) ∨
  (∃ a b c d, name = [a, b, c, d] ∧ (a = 'c' ∨ a = 'C') ∧ (b = 'o' ∨ b = 'O') ∧
    (c = 'd' ∨ c = 'D') ∧ (d = 'e' ∨ d = 'E'))

/-- What follows the name: a word boundary and a later `>`. -/
def specRest (rest : List Char) : Prop :=
  (∀ c, rest.head? = some c → isWordChar c = false) ∧ '>' ∈ rest

/-- Declarative form of an endTagRe match at the start of a suffix: an
optional slash, a name from the amended set, a word boundary and a
closing `>`. -/
def endTagSpecMatch (l : List Char) : Prop :=
  ∃ sl name rest, (sl = [] ∨ sl = ['/']) ∧ specName name ∧ specRest rest ∧
    l = '<' :: (sl ++ (name ++ rest))

theorem findTagMatch_first :
    ∀ (cs : List Char) (i : Nat), findTagMatch cs = some i →
      tagMatchAt (cs.drop i) = true ∧ ∀ j, j < i → tagMatchAt (cs.drop j) = false := by
  intro cs
  induction cs with
  | nil => intro i h; simp [findTagMatch] at h
  | cons c rest IH =>
    intro i h
    rw [findTagMatch] at h
    by_cases hm : tagMatchAt (c :: rest) = true
    · rw [if_pos hm] at h
      injection h with h
      subst h
      exact ⟨hm, by omega⟩
    · rw [if_neg hm] at h
      cases hr : findTagMatch rest with
      | none => rw [hr] at h; simp at h
      | some i0 =>
        rw [hr] at h
        simp at h
        obtain ⟨hd, htl⟩ := IH i0 hr
        subst h
        refine ⟨by simpa using hd, ?_⟩
        intro j hj
        cases j with
        | zero => simpa using (Bool.not_eq_true _).mp hm
        | succ j0 =>
          have := htl j0 (by omega)
          simpa using this

theorem findTagMatch_none :
    ∀ (cs : List Char), findTagMatch cs = none →
      ∀ j, tagMatchAt (cs.drop j) = false := by
  intro cs
  induction cs with
  | nil =>
    intro h j
    simp [List.drop_nil]
    rfl
  | cons c rest IH =>
    intro h j
    rw [findTagMatch] at h
    by_cases hm : tagMatchAt (c :: rest) = true
    · rw [if_pos hm] at h; simp at h
    · rw [if_neg hm] at h
      cases hr : findTagMatch rest with
      | none =>
        cases j with
        | zero => simpa using (Bool.not_eq_true _).mp hm
        | succ j0 => simpa using IH hr j0
      | some i0 => rw [hr] at h; simp at h

theorem grammar_both_tags (src : List Char) (st et eo : Nat) (inner : List Char) :
    grammarEnterContent (some ⟨src, some st, some et, eo⟩) inner =
      scanTruncate (slice src st et) := rfl

theorem grammar_recovery_branch (l : GLocation) (inner : List Char)
    (h : l.startTag = none ∨ l.endTag = none) :
    grammarEnterContent (some l) inner =
      slice l.source l.endOffset
        (match findTagMatch (l.source.drop l.endOffset) with
         | some i => l.endOffset + i
         | none => l.source.length) := by
  obtain ⟨src, stg, etg, eo⟩ := l
  rcases h with h | h
  · simp only at h
    subst h
    rfl
  · simp only at h
    subst h
    cases stg with
    | none => rfl
    | some st => rfl

theorem grammar_no_location (inner : List Char) :
    grammarEnterContent none inner = scanTruncate (replaceGt inner) := rfl

theorem takeWordLen_le : ∀ l : List Char, takeWordLen l ≤ l.length := by
  intro l
  induction l with
  | nil => simp [takeWordLen]
  | cons c rest IH =>
    rw [takeWordLen]
    by_cases h : isWordChar c
    · rw [if_pos h]; simp; omega
    · rw [if_neg h]; simp

theorem takeWordLen_take :
    ∀ l : List Char, ∀ c ∈ l.take (takeWordLen l), isWordChar c = true := by
  intro l
  induction l with
  | nil => simp [takeWordLen]
  | cons c rest IH =>
    rw [takeWordLen]
    by_cases h : isWordChar c
    · rw [if_pos h]
      intro d hd
      rw [List.take_succ_cons] at hd
      rcases List.mem_cons.mp hd with h1 | h1
      · rw [h1]; exact h
      · exact IH d h1
    · rw [if_neg h]
      intro d hd
      simp at hd

theorem takeWordLen_drop_head :
    ∀ (l : List Char) (c : Char), (l.drop (takeWordLen l)).head? = some c →
      isWordChar c = false := by
  intro l
  induction l with
  | nil => intro c h; simp [takeWordLen] at h
  | cons a rest IH =>
    intro c h
    rw [takeWordLen] at h
    by_cases ha : isWordChar a
    · rw [if_pos ha] at h
      rw [List.drop_succ_cons] at h
      exact IH c h
    · rw [if_neg ha] at h
      simp at h
      subst h
      simpa using ha

theorem takeWordLen_append (w rest : List Char)
    (hw : ∀ c ∈ w, isWordChar c = true)
    (hr : ∀ c, rest.head? = some c → isWordChar c = false) :
    takeWordLen (w ++ rest) = w.length := by
  induction w with
  | nil =>
    simp only [List.nil_append, List.length_nil]
    cases rest with
    | nil => rfl
    | cons c r =>
      have hw := hr c (by rfl)
      rw [takeWordLen, if_neg (by simp [hw])]
  | cons a w0 IH =>
    rw [List.cons_append, takeWordLen,
      if_pos (by rw [hw a (by simp)]),
      IH (fun c hc => hw c (by simp [hc]))]
    rfl

theorem restOk_iff (rest : List Char) : restOk rest = true ↔ specRest rest := by
  cases rest with
  | nil => simp [restOk, specRest]
  | cons c r =>
    rw [restOk, specRest]
    simp only [Bool.and_eq_true, Bool.not_eq_eq_eq_not, Bool.not_true,
      List.head?_cons, Option.some.injEq]
    constructor
    · rintro ⟨h1, h2⟩
      refine ⟨fun d hd => by rw [← hd]; exact h1, ?_⟩
      simpa using h2
    · rintro ⟨h1, h2⟩
      exact ⟨h1 c rfl, by simpa using h2⟩

theorem word_of_digit {d : Char} (h : d.isDigit = true) : isWordChar d = true := by
  simp [isWordChar, h]

theorem specName_head (name : List Char) (h : specName name) :
    ∃ n0 nr, name = n0 :: nr ∧ isWordChar n0 = true := by
  rcases h with ⟨a, b, c, w, he, ha, _⟩ | ⟨a, d, he, ha, _⟩ | ⟨d, he, hd⟩ |
    ⟨a, he, ha⟩ | ⟨a, b, he, ha, _⟩ | ⟨a, b, c, d, e, he, ha, _⟩ |
    ⟨a, b, c, he, ha, _⟩ | ⟨a, b, c, d, he, ha, _⟩
  · exact ⟨a, _, he, by rcases ha with h | h <;> rw [h] <;> decide⟩
  · exact ⟨a, _, he, by rcases ha with h | h <;> rw [h] <;> decide⟩
  · exact ⟨d, _, he, word_of_digit hd⟩
  · exact ⟨a, _, he, by rcases ha with h | h <;> rw [h] <;> decide⟩
  · exact ⟨a, _, he, by rcases ha with h | h <;> rw [h] <;> decide⟩
  · exact ⟨a, _, he, by rcases ha with h | h <;> rw [h] <;> decide⟩
  · exact ⟨a, _, he, by rcases ha with h | h <;> rw [h] <;> decide⟩
  · exact ⟨a, _, he, by rcases ha with h | h <;> rw [h] <;> decide⟩

theorem tagNameMatch_iff (l2 : List Char) :
    tagNameMatch l2 = true ↔
      ∃ name rest, specName name ∧ specRest rest ∧ l2 = name ++ rest := by
  constructor
  · intro h
    rw [tagNameMatch.eq_def] at h
    simp only [Bool.or_eq_true] at h
    rcases h with ((((((h | h) | h) | h) | h) | h) | h)
    · -- emu-\w+
      rcases l2 with _ | ⟨a, _ | ⟨b, _ | ⟨c, _ | ⟨d, w⟩⟩⟩⟩ <;> simp only [] at h
      · exact absurd h (by simp)
      · exact absurd h (by simp)
      · exact absurd h (by simp)
      · exact absurd h (by simp)
      · simp only [ciIs, Bool.and_eq_true, Bool.or_eq_true, beq_iff_eq,
          decide_eq_true_eq] at h
        obtain ⟨⟨⟨⟨⟨ha, hb⟩, hc⟩, hd⟩, hk⟩, hrest⟩ := h
        subst hd
        refine ⟨a :: b :: c :: '-' :: w.take (takeWordLen w), w.drop (takeWordLen w),
          ?_, (restOk_iff _).mp hrest, ?_⟩
        · refine Or.inl ⟨a, b, c, w.take (takeWordLen w), rfl, ha, hb, hc, ?_,
            takeWordLen_take w⟩
          have hlen : (w.take (takeWordLen w)).length = takeWordLen w := by
            rw [List.length_take]
            exact min_eq_left (takeWordLen_le w)
          intro hnil
          rw [hnil] at hlen
          simp at hlen
          omega
        · simp [List.take_append_drop]
    · -- h?\d
      rcases l2 with _ | ⟨a, _ | ⟨b, r⟩⟩ <;> simp only [] at h
      · exact absurd h (by simp)
      · -- [a] arm: restOk [] is false
        exact absurd h (by simp [restOk])
      · simp only [ciIs, Bool.and_eq_true, Bool.or_eq_true, beq_iff_eq] at h
        rcases h with ⟨⟨ha, hd⟩, hrest⟩ | ⟨hd, hrest⟩
        · exact ⟨[a, b], r, Or.inr (Or.inl ⟨a, b, rfl, ha, hd⟩),
            (restOk_iff _).mp hrest, rfl⟩
        · exact ⟨[a], b :: r, Or.inr (Or.inr (Or.inl ⟨a, rfl, hd⟩)),
            (restOk_iff _).mp hrest, rfl⟩
    · -- p
      rcases l2 with _ | ⟨a, r⟩ <;> simp only [] at h
      · exact absurd h (by simp)
      · simp only [ciIs, Bool.and_eq_true, Bool.or_eq_true, beq_iff_eq] at h
        exact ⟨[a], r, Or.inr (Or.inr (Or.inr (Or.inl ⟨a, rfl, h.1⟩))),
          (restOk_iff _).mp h.2, rfl⟩
    · -- ul
      rcases l2 with _ | ⟨a, _ | ⟨b, r⟩⟩ <;> simp only [] at h
      · exact absurd h (by simp)
      · exact absurd h (by simp)
      · simp only [ciIs, Bool.and_eq_true, Bool.or_eq_true, beq_iff_eq] at h
        exact ⟨[a, b], r,
          Or.inr (Or.inr (Or.inr (Or.inr (Or.inl ⟨a, b, rfl, h.1.1, h.1.2⟩)))),
          (restOk_iff _).mp h.2, rfl⟩
    · -- table
      rcases l2 with _ | ⟨a, _ | ⟨b, _ | ⟨c, _ | ⟨d, _ | ⟨e, r⟩⟩⟩⟩⟩ <;> simp only [] at h
      · exact absurd h (by simp)
      · exact absurd h (by simp)
      · exact absurd h (by simp)
      · exact absurd h (by simp)
      · exact absurd h (by simp)
      · simp only [ciIs, Bool.and_eq_true, Bool.or_eq_true, beq_iff_eq] at h
        exact ⟨[a, b, c, d, e], r,
          Or.inr (Or.inr (Or.inr (Or.inr (Or.inr (Or.inl
            ⟨a, b, c, d, e, rfl, h.1.1.1.1.1, h.1.1.1.1.2, h.1.1.1.2, h.1.1.2, h.1.2⟩))))),
          (restOk_iff _).mp h.2, rfl⟩
    · -- pre
      rcases l2 with _ | ⟨a, _ | ⟨b, _ | ⟨c, r⟩⟩⟩ <;> simp only [] at h
      · exact absurd h (by simp)
      · exact absurd h (by simp)
      · exact absurd h (by simp)
      · simp only [ciIs, Bool.and_eq_true, Bool.or_eq_true, beq_iff_eq] at h
        exact ⟨[a, b, c], r,
          Or.inr (Or.inr (Or.inr (Or.inr (Or.inr (Or.inr (Or.inl
            ⟨a, b, c, rfl, h.1.1.1, h.1.1.2, h.1.2⟩)))))),
          (restOk_iff _).mp h.2, rfl⟩
    · -- code
      rcases l2 with _ | ⟨a, _ | ⟨b, _ | ⟨c, _ | ⟨d, r⟩⟩⟩⟩ <;> simp only [] at h
      · exact absurd h (by simp)
      · exact absurd h (by simp)
      · exact absurd h (by simp)
      · exact absurd h (by simp)
      · simp only [ciIs, Bool.and_eq_true, Bool.or_eq_true, beq_iff_eq] at h
        exact ⟨[a, b, c, d], r,
          Or.inr (Or.inr (Or.inr (Or.inr (Or.inr (Or.inr (Or.inr
            ⟨a, b, c, d, rfl, h.1.1.1.1, h.1.1.1.2, h.1.1.2, h.1.2⟩)))))),
          (restOk_iff _).mp h.2, rfl⟩
  · rintro ⟨name, rest, hn, hr, he⟩
    subst he
    rw [tagNameMatch.eq_def]
    simp only [Bool.or_eq_true]
    have hrestOk : restOk rest = true := (restOk_iff rest).mpr hr
    rcases hn with ⟨a, b, c, w, he, ha, hb, hc, hne, hword⟩ | ⟨a, d, he, ha, hd⟩ |
      ⟨d, he, hd⟩ | ⟨a, he, ha⟩ | ⟨a, b, he, ha, hb⟩ |
      ⟨a, b, c, d, e, he, ha, hb, hc, hd, hee⟩ | ⟨a, b, c, he, ha, hb, hc⟩ |
      ⟨a, b, c, d, he, ha, hb, hc, hd⟩
    · -- emu
      subst he
      refine Or.inl (Or.inl (Or.inl (Or.inl (Or.inl (Or.inl ?_)))))
      simp only [List.cons_append]
      have hkw : takeWordLen (w ++ rest) = w.length :=
        takeWordLen_append w rest hword hr.1
      simp only [ciIs, Bool.and_eq_true, Bool.or_eq_true, beq_iff_eq,
        decide_eq_true_eq]
      refine ⟨⟨⟨⟨⟨ha, hb⟩, hc⟩, trivial⟩, ?_⟩, ?_⟩
      · rw [hkw]
        have := List.length_pos.mpr hne
        omega
      · rw [hkw, List.drop_left]
        exact hrestOk
    · -- h with digit
      subst he
      refine Or.inl (Or.inl (Or.inl (Or.inl (Or.inl (Or.inr ?_)))))
      simp only [List.cons_append, List.nil_append]
      simp only [ciIs, Bool.and_eq_true, Bool.or_eq_true, beq_iff_eq]
      exact Or.inl ⟨⟨ha, hd⟩, hrestOk⟩
    · -- bare digit
      subst he
      refine Or.inl (Or.inl (Or.inl (Or.inl (Or.inl (Or.inr ?_)))))
      obtain ⟨c2, r2, hrest2⟩ : ∃ c2 r2, rest = c2 :: r2 := by
        cases rest with
        | nil => exact absurd hr.2 (by simp)
        | cons c2 r2 => exact ⟨c2, r2, rfl⟩
      subst hrest2
      simp only [List.cons_append, List.nil_append]
      simp only [ciIs, Bool.and_eq_true, Bool.or_eq_true, beq_iff_eq]
      exact Or.inr ⟨hd, hrestOk⟩
    · -- p
      subst he
      refine Or.inl (Or.inl (Or.inl (Or.inl (Or.inr ?_))))
      simp only [List.cons_append, List.nil_append]
      simp only [ciIs, Bool.and_eq_true, Bool.or_eq_true, beq_iff_eq]
      exact ⟨ha, hrestOk⟩
    · -- ul
      subst he
      refine Or.inl (Or.inl (Or.inl (Or.inr ?_)))
      simp only [List.cons_append, List.nil_append]
      simp only [ciIs, Bool.and_eq_true, Bool.or_eq_true, beq_iff_eq]
      exact ⟨⟨ha, hb⟩, hrestOk⟩
    · -- table
      subst he
      refine Or.inl (Or.inl (Or.inr ?_))
      simp only [List.cons_append, List.nil_append]
      simp only [ciIs, Bool.and_eq_true, Bool.or_eq_true, beq_iff_eq]
      exact ⟨⟨⟨⟨⟨ha, hb⟩, hc⟩, hd⟩, hee⟩, hrestOk⟩
    · -- pre
      subst he
      refine Or.inl (Or.inr ?_)
      simp only [List.cons_append, List.nil_append]
      simp only [ciIs, Bool.and_eq_true, Bool.or_eq_true, beq_iff_eq]
      exact ⟨⟨⟨ha, hb⟩, hc⟩, hrestOk⟩
    · -- code
      subst he
      refine Or.inr ?_
      simp only [List.cons_append, List.nil_append]
      simp only [ciIs, Bool.and_eq_true, Bool.or_eq_true, beq_iff_eq]
      exact ⟨⟨⟨⟨ha, hb⟩, hc⟩, hd⟩, hrestOk⟩

theorem tagMatchAt_iff (l : List Char) : tagMatchAt l = true ↔ endTagSpecMatch l := by
  constructor
  · intro h
    cases l with
    | nil => simp [tagMatchAt] at h
    | cons c l1 =>
      rw [tagMatchAt] at h
      simp only [Bool.and_eq_true, beq_iff_eq] at h
      obtain ⟨hc, hm⟩ := h
      subst hc
      obtain ⟨name, rest, hn, hr, he⟩ := (tagNameMatch_iff _).mp hm
      cases l1 with
      | nil =>
        rw [stripSlash] at he
        exfalso
        have : rest ≠ [] := by
          intro hx
          rw [hx] at hr
          exact absurd hr.2 (by simp)
        cases name with
        | nil => cases rest with
          | nil => exact this rfl
          | cons c2 r2 => simp at he
        | cons n0 nr => simp at he
      | cons c1 r1 =>
        by_cases hs : c1 = '/'
        · subst hs
          rw [stripSlash, if_pos (by rfl)] at he
          exact ⟨['/'], name, rest, Or.inr rfl, hn, hr, by rw [he]; rfl⟩
        · rw [stripSlash, if_neg (by simpa using hs)] at he
          exact ⟨[], name, rest, Or.inl rfl, hn, hr, by rw [he]; rfl⟩
  · rintro ⟨sl, name, rest, hsl, hn, hr, he⟩
    subst he
    rw [tagMatchAt]
    simp only [Bool.and_eq_true, beq_iff_eq]
    refine ⟨by trivial, ?_⟩
    rcases hsl with h | h
    · subst h
      simp only [List.nil_append]
      obtain ⟨n0, nr, hname, hw⟩ := specName_head name hn
      subst hname
      rw [List.cons_append, stripSlash, if_neg ?_]
      · exact (tagNameMatch_iff _).mpr ⟨n0 :: nr, rest, hn, hr, by rw [List.cons_append]⟩
      · intro hx
        have h0 : n0 = '/' := by simpa using hx
        rw [h0] at hw
        exact absurd hw (by decide)
    · subst h
      rw [List.cons_append, List.nil_append, stripSlash, if_pos (by rfl)]
      exact (tagNameMatch_iff _).mpr ⟨name, rest, hn, hr, rfl⟩

/-- C10, counterexample. The recovery scan's tag set is h-or-digit `h?\\d`,
not the headings h1 through h6: on content containing `</h7>` the source's
scan matches (and truncation cuts the content there), while a matcher built
from the claim's h1 through h6 set finds no match at all. -/
theorem grammar_recovery_counterexample :
    grammarEnterContent (some ⟨"AB</h7>CD".data, some 0, some 9, 9⟩) [] = "AB".data ∧
    findTagMatch ("AB</h7>CD".data) = some 2 ∧
    claimedFindTagMatch ("AB</h7>CD".data) = none := by decide

/-- C10 (amended). The end-tag matcher embedded from endTagRe recognises
exactly: an optional slash, then `emu-` with a nonempty word-character run,
an optional h followed by ONE DIGIT (h0 through h9 and bare digit tags), or
p, ul, table, pre, code, case-insensitively, followed by a word boundary
and a later closing angle bracket; the scan truncates at the FIRST such
match; it runs both when the parser found both tags and on the
innerHTML fallback, and is skipped exactly on the recovery path that
already scanned for an end tag. -/
theorem grammar_content_extraction :
    (∀ l, tagMatchAt l = true ↔ endTagSpecMatch l) ∧
    (∀ (cs : List Char) (i : Nat), findTagMatch cs = some i →
      tagMatchAt (cs.drop i) = true ∧ ∀ j, j < i → tagMatchAt (cs.drop j) = false) ∧
    (∀ cs : List Char, findTagMatch cs = none → ∀ j, tagMatchAt (cs.drop j) = false) ∧
    (∀ (src : List Char) (st et eo : Nat) (inner : List Char),
      grammarEnterContent (some ⟨src, some st, some et, eo⟩) inner =
        scanTruncate (slice src st et)) ∧
    (∀ (l : GLocation) (inner : List Char), l.startTag = none ∨ l.endTag = none →
      grammarEnterContent (some l) inner =
        slice l.source l.endOffset
          (match findTagMatch (l.source.drop l.endOffset) with
           | some i => l.endOffset + i
           | none => l.source.length)) ∧
    (∀ inner, grammarEnterContent none inner = scanTruncate (replaceGt inner)) :=
  ⟨tagMatchAt_iff, findTagMatch_first, findTagMatch_none, grammar_both_tags,
   grammar_recovery_branch, grammar_no_location⟩

/-- C10, witness: the scan of "AB<p>" matches first at index 2 and at no
earlier position. -/
theorem grammar_content_extraction_witness :
    tagMatchAt (("AB<p>".data).drop 2) = true ∧
    ∀ j, j < 2 → tagMatchAt (("AB<p>".data).drop j) = false :=
  grammar_content_extraction.2.1 "AB<p>".data 2 (by decide)

end Ecmarkup
